import Mathlib

/-
  Verification of the configuration transformation engine of vydev-cli
  (src/deployment_migration/infrastructure/terraform_modifier.py).

  Texts are shallowly embedded as `List Char`.  Every Python regex the
  claims depend on is hand-translated into an executable matcher whose
  backtracking behaviour coincides with Python's `re` on the pattern in
  question; where a greedy/lazy choice collapses to a deterministic scan
  this is argued in a comment at the definition.

  Python dictionaries are modelled as association lists in insertion
  order (Python dicts iterate in insertion order).  A directory tree of
  .tf files is modelled as the list of file contents in traversal order.
-/

namespace VydevCli

abbrev Text := List Char

/-- Characters matched by Python's `\s` (the ASCII ones, which are the only
ones arising in Terraform configurations). -/
def isPySpace (c : Char) : Bool :=
  c = ' ' || c = '\t' || c = '\n' || c = '\x0d' || c = '\x0b' || c = '\x0c'

/-- Consume the literal `p` at the head of the text, returning the rest. -/
def lit : Text → Text → Option Text
  | [], s => some s
  | _ :: _, [] => none
  | p :: ps, c :: cs => if c = p then lit ps cs else none

/-- Split off a (possibly empty) run of whitespace: Python's greedy `\s*`.
In every pattern below `\s*` is followed by a non-space literal, so the
greedy scan is exact (a shorter run would put a space where the literal
must match). -/
def splitSpaces (t : Text) : Text × Text :=
  (t.takeWhile isPySpace, t.dropWhile isPySpace)

/-- Python's `\s+` (greedy, followed in all our patterns by a non-space
literal, hence deterministic): at least one whitespace character. -/
def spaces1 : Text → Option (Text × Text)
  | [] => none
  | c :: cs =>
    if isPySpace c then some (c :: cs.takeWhile isPySpace, cs.dropWhile isPySpace)
    else none

/-- Greedy `[^q]*` followed by the literal `q`: returns the consumed run and
the rest after `q`.  Deterministic: the class cannot contain `q`, so the only
way the following literal matches is at the first occurrence of `q`. -/
def scanToChar (q : Char) : Text → Option (Text × Text)
  | [] => none
  | c :: cs =>
    if c = q then some ([], cs)
    else (scanToChar q cs).map (fun p => (c :: p.1, p.2))

/-- Lazy star `[^bad]*?` followed by a continuation `t`, with full
backtracking: at each position the whole continuation is retried, and the
star extends only over characters not satisfying `bad`.  Returns the skipped
run together with the continuation's result. -/
def lazyScan (bad : Char → Bool) (t : Text → Option α) : Text → Option (Text × α)
  | [] => (t []).map (fun a => ([], a))
  | c :: cs =>
    match t (c :: cs) with
    | some a => some ([], a)
    | none =>
      if bad c then none
      else (lazyScan bad t cs).map (fun p => (c :: p.1, p.2))

/-- Leftmost match of a matcher over a text (Python `re.search`): the first
suffix on which the matcher succeeds, together with the skipped prefix. -/
def findFirst (t : Text → Option α) (s : Text) : Option (Text × α) :=
  lazyScan (fun _ => false) t s

/-- Python's substring test `pat in s`, via leftmost literal match. -/
def occursB (pat : Text) (s : Text) : Bool :=
  (findFirst (lit pat) s).isSome

/-- Python `str.find(c)`: index of the first occurrence of a character. -/
def findCharIdx (c : Char) : Text → Option Nat
  | [] => none
  | x :: xs => if x = c then some 0 else (findCharIdx c xs).map (· + 1)

/-- Python `str.replace(old, new)` : replace every non-overlapping occurrence
of `old`, scanning left to right and continuing after each replacement.  The
fuel is the length of the text, which suffices because `old` is nonempty in
every call modelled here (an empty `old` is returned unchanged). -/
def replaceAllAux (old new : Text) : Nat → Text → Text
  | 0, s => s
  | Nat.succ fuel, s =>
    match s with
    | [] => []
    | c :: cs =>
      match lit old s with
      | some rest => new ++ replaceAllAux old new fuel rest
      | none => c :: replaceAllAux old new fuel cs

def replaceAll (old new s : Text) : Text :=
  if old = [] then s else replaceAllAux old new s.length s

/-- Python `re.sub` with a matcher that returns (replacement text, rest after
the match): replace every non-overlapping occurrence left to right.  All
matchers used consume at least one character, so length-many fuel suffices. -/
def subAllAux (m : Text → Option (Text × Text)) : Nat → Text → Text
  | 0, s => s
  | Nat.succ fuel, s =>
    match s with
    | [] => []
    | c :: cs =>
      match m s with
      | some (rep, rest) => rep ++ subAllAux m fuel rest
      | none => c :: subAllAux m fuel cs

def subAll (m : Text → Option (Text × Text)) (s : Text) : Text :=
  subAllAux m s.length s

/-- Python `re.finditer` for matchers returning (matched text, data, rest):
leftmost matches, each search resuming at the end of the previous match. -/
def finditerAux (m : Text → Option (Text × α × Text)) : Nat → Text → List (Text × α)
  | 0, _ => []
  | Nat.succ fuel, s =>
    match findFirst m s with
    | none => []
    | some (_, (consumed, a, rest)) => (consumed, a) :: finditerAux m fuel rest

def finditer (m : Text → Option (Text × α × Text)) (s : Text) : List (Text × α) :=
  finditerAux m (s.length + 1) s

/-- Bracket-counting loop used throughout terraform_modifier.py (e.g.
add_variable lines 439-446): scan from the opening delimiter with a counter,
and return the relative index of the delimiter that brings the count back to
zero.  The scan always starts at the opening delimiter, so the counter stays
positive until the final close and Nat subtraction is exact. -/
def findCloseFromGen (openC closeC : Char) : Nat → Nat → Text → Option Nat
  | _, _, [] => none
  | cnt, i, c :: cs =>
    if c = openC then findCloseFromGen openC closeC (cnt + 1) (i + 1) cs
    else if c = closeC then
      if cnt = 1 then some i
      else findCloseFromGen openC closeC (cnt - 1) (i + 1) cs
    else findCloseFromGen openC closeC cnt (i + 1) cs

def findClose (s : Text) : Option Nat := findCloseFromGen '{' '}' 0 0 s

/- Keyword literals. -/

def kwModule : Text := "module".data
def kwSource : Text := "source".data
def kwVersion : Text := "version".data
def kwRefEq : Text := "?ref=".data
def ecsSourceKw : Text := "github.com/nsbno/terraform-aws-ecs-service".data

/-- `module_source.split("?")[0]` : the part before the first question mark. -/
def baseOf (moduleSource : Text) : Text := moduleSource.takeWhile (· ≠ '?')

/-- Values passed for Terraform variables (Python `Any`):  strings, booleans,
nested dicts (whose contents are irrelevant, they always raise), and any
other value together with its `str()` rendering. -/
inductive TfValue where
  | vstr (s : Text)
  | vbool (b : Bool)
  | vdict
  | vother (rendered : Text)
deriving DecidableEq

/-- Errors raised by the modifier:  `NotFoundError(msg)` and
`NotImplementedError`. -/
inductive TfError where
  | notFound (msg : Text)
  | notImplemented
deriving DecidableEq

/- ------------------------------------------------------------------
   Source-attribute matchers
   ------------------------------------------------------------------ -/

/-- The `BASE(?:\?ref=([^"]*))?` part of a source value followed by the
closing quote: match the base literally, then greedily an optional
`?ref=<run of non-quotes>`, then `"`.  Returns the optional raw ref group
and the rest after the closing quote.  If `?ref=` matches but no closing
quote follows, Python backtracks to the empty alternative, which then needs
`"` where the `?` stands and fails; the fallback below is the same. -/
def matchSrcValue (base : Text) (t : Text) : Option (Option Text × Text) :=
  match lit base t with
  | none => none
  | some t1 =>
    match lit kwRefEq t1 with
    | some t2 =>
      match scanToChar '"' t2 with
      | some (v, t3) => some (some v, t3)
      | none =>
        match lit ['"'] t1 with
        | some t3 => some (none, t3)
        | none => none
    | none =>
      match lit ['"'] t1 with
      | some t3 => some (none, t3)
      | none => none

/-- `source\s*=\s*"(BASE(?:\?ref=([^"]*))?)"` — the source-attribute pattern
of has_module (line 259) and find_module (line 376), which use `\s*` around
the equals sign. -/
def matchSourceAttrStar (base : Text) (t : Text) : Option (Option Text × Text) :=
  match lit kwSource t with
  | none => none
  | some t1 =>
    match lit ['='] (t1.dropWhile isPySpace) with
    | none => none
    | some t3 =>
      match lit ['"'] (t3.dropWhile isPySpace) with
      | none => none
      | some t5 => matchSrcValue base t5

/-- `source\s*=\s*"github.com/nsbno/terraform-aws-ecs-service(?:\?ref=[^"]*)?`
(add_test_listener line 509, add_force_new_deployment line 617).  The
trailing optional group can always match empty, so the search succeeds
exactly when the prefix up to and including the escaped target matches. -/
def matchEcsSource (t : Text) : Option Text :=
  match lit kwSource t with
  | none => none
  | some t1 =>
    match lit ['='] (t1.dropWhile isPySpace) with
    | none => none
    | some t3 =>
      match lit ['"'] (t3.dropWhile isPySpace) with
      | none => none
      | some t5 => lit ecsSourceKw t5

def hasEcsSourceB (content : Text) : Bool :=
  (findFirst matchEcsSource content).isSome

/- ------------------------------------------------------------------
   update_module_versions (lines 272-310)
   ------------------------------------------------------------------ -/

/-- The module-header part `module\s+"([^"]+)"\s+\x7b` shared by the
patterns that capture an arbitrary module name (update_module_versions line
292, find_module line 376, add_test_listener line 500,
add_force_new_deployment line 590).  Returns (matched header text ending
with the opening brace, captured name, rest). -/
def matchHeaderCapture (s : Text) : Option (Text × Text × Text) :=
  match lit kwModule s with
  | none => none
  | some r1 =>
    match spaces1 r1 with
    | none => none
    | some (w1, r2) =>
      match lit ['"'] r2 with
      | none => none
      | some r3 =>
        match scanToChar '"' r3 with
        | none => none
        | some (nm, r4) =>
          if nm = [] then none
          else
            match spaces1 r4 with
            | none => none
            | some (w2, r5) =>
              match lit ['\x7b'] r5 with
              | none => none
              | some r6 =>
                some (kwModule ++ w1 ++ '"' :: nm ++ '"' :: w2 ++ ['\x7b'], nm, r6)

/-- Tail retried at every extension of the lazy body scan of
update_module_versions: `source\s+\=\s+"(BASE(?:\?ref=[^"]*)?)"` followed by
`[^}]*?\x7d`.  Returns (matched source attribute with the group rewritten
into it, the `current_source` group, skipped run, rest). -/
def updTail (base : Text) (t : Text) : Option (Text × Text × Text × Text) :=
  match lit kwSource t with
  | none => none
  | some t1 =>
    match spaces1 t1 with
    | none => none
    | some (a1, t2) =>
      match lit ['='] t2 with
      | none => none
      | some t3 =>
        match spaces1 t3 with
        | none => none
        | some (a2, t4) =>
          match lit ['"'] t4 with
          | none => none
          | some t5 =>
            match matchSrcValue base t5 with
            | none => none
            | some (verOpt, t6) =>
              match scanToChar '\x7d' t6 with
              | none => none
              | some (sk2, t7) =>
                let cur := base ++ (match verOpt with | some v => kwRefEq ++ v | none => [])
                some (kwSource ++ a1 ++ '=' :: a2 ++ '"' :: cur ++ ['"'], cur, sk2, t7)

/-- One module match of update_module_versions' pattern
`module\s+"[^"]+"\s+\x7b[^}]*?source\s+\=\s+"(BASE(?:\?ref=[^"]*)?)"[^}]*?\x7d`
(line 292, DOTALL).  Returns (matched text, the `current_source` group,
rest).  The continuation after the lazy `[^}]*?` is retried in full at every
extension, exactly as the backtracking engine does. -/
def matchModuleUpd (base : Text) (s : Text) : Option (Text × Text × Text) :=
  match matchHeaderCapture s with
  | none => none
  | some (hdr, _, r6) =>
    match lazyScan (· = '\x7d') (updTail base) r6 with
    | none => none
    | some (sk1, (attr, cur, sk2, r7)) =>
      some (hdr ++ sk1 ++ attr ++ sk2 ++ ['\x7d'], cur, r7)

/-- The inner `re.sub` of update_module_versions (lines 302-305): pattern
`(source\s+\=\s+)"CURRENT"` replaced by the captured prefix followed by
`"NEW"`. -/
def subSourceMatcher (currentSource newSource : Text) (t : Text) : Option (Text × Text) :=
  match lit kwSource t with
  | none => none
  | some t1 =>
    match spaces1 t1 with
    | none => none
    | some (w1, t2) =>
      match lit ['='] t2 with
      | none => none
      | some t3 =>
        match spaces1 t3 with
        | none => none
        | some (w2, t4) =>
          match lit ('"' :: currentSource ++ ['"']) t4 with
          | none => none
          | some t5 =>
            some (kwSource ++ w1 ++ '=' :: w2 ++ '"' :: newSource ++ ['"'], t5)

/-- update_module_versions: for each (source, version) target, find every
module whose source attribute carries the target's base (with or without an
existing `?ref=`), rewrite the source to `base?ref=version` inside the
matched module text, and substitute the new module text for every occurrence
of the old one (Python `str.replace`).  The matches are taken from the text
as it stands when the target's `finditer` starts, as in the Python code. -/
def updateModuleVersions (terraformConfig : Text) (targetModules : List (Text × Text)) : Text :=
  targetModules.foldl (fun modifiedConfig target =>
    let baseSource := baseOf target.1
    let newSource := baseSource ++ kwRefEq ++ target.2
    (finditer (matchModuleUpd baseSource) modifiedConfig).foldl
      (fun cfg mtch =>
        let updatedModule := subAll (subSourceMatcher mtch.2 newSource) mtch.1
        replaceAll mtch.1 updatedModule cfg)
      modifiedConfig) terraformConfig

/- ------------------------------------------------------------------
   add_module (lines 312-360)
   ------------------------------------------------------------------ -/

/-- The variable-serialization loop of add_module (lines 337-354): strings
beginning with `module.` or `var.` are emitted bare, other strings quoted,
booleans lowercased, dict values raise NotImplementedError, anything else is
emitted via its `str()` rendering. -/
def addModuleVarLines : List (Text × TfValue) → Except TfError Text
  | [] => Except.ok []
  | (n, v) :: rest =>
    match v with
    | .vstr s =>
      let quoted := if (lit ("module.".data) s).isSome || (lit ("var.".data) s).isSome
        then s else '"' :: s ++ ['"']
      (addModuleVarLines rest).map (fun r => "\n  ".data ++ n ++ " = ".data ++ quoted ++ r)
    | .vbool b =>
      (addModuleVarLines rest).map
        (fun r => "\n  ".data ++ n ++ " = ".data ++ (if b then "true".data else "false".data) ++ r)
    | .vdict => Except.error .notImplemented
    | .vother raw =>
      (addModuleVarLines rest).map (fun r => "\n  ".data ++ n ++ " = ".data ++ raw ++ r)

/-- add_module: append a new module block at the end of the text.  An empty
version omits the `?ref=` suffix (Python `if not version`). -/
def addModule (terraformConfig name source version : Text)
    (vars : List (Text × TfValue)) : Except TfError Text :=
  let sourceWithVersion := if version = [] then source else source ++ kwRefEq ++ version
  match addModuleVarLines vars with
  | Except.error e => Except.error e
  | Except.ok varLines =>
    Except.ok (terraformConfig ++ '\n' ::
      ("module \"".data ++ name ++ "\" \x7b\n  source = \"".data ++ sourceWithVersion
        ++ ['"'] ++ varLines ++ "\n\x7d\n".data))

/- ------------------------------------------------------------------
   find_module (lines 362-412) and has_module (lines 247-270)
   ------------------------------------------------------------------ -/

/-- The result of find_module.  The extracted sibling-variables map and the
file path are omitted: no claim below depends on them, and the fields of the
returned dictionary are computed independently of one another. -/
structure ModuleRef where
  name : Text
  source : Text
  version : Option Text
deriving DecidableEq

/-- One match of find_module's pattern (line 376)
`module\s+"([^"]+)"\s+\x7b\s*([^}]*?source\s*=\s*"(BASE(?:\?ref=([^"]*))?)"[^}]*?)\x7d`.
The version is `group(4) if group(4) else None`, so an empty ref group also
yields no version.  The greedy `\s*` after the brace is deterministic
together with the following lazy scan: both accept whitespace, so the set of
positions at which the inner continuation is tried is the same. -/
def findTail (base : Text) (t : Text) : Option (Option Text × Text) :=
  match matchSourceAttrStar base t with
  | none => none
  | some (verOpt, t6) =>
    match scanToChar '\x7d' t6 with
    | none => none
    | some (_, t7) => some (verOpt, t7)

def matchModuleFind (base : Text) (s : Text) : Option (ModuleRef × Text) :=
  match matchHeaderCapture s with
  | none => none
  | some (_, nm, r6) =>
    match lazyScan (· = '\x7d') (findTail base) (r6.dropWhile isPySpace) with
    | none => none
    | some (_, (verOpt, r8)) =>
      some ({ name := nm,
              source := base ++ (match verOpt with | some v => kwRefEq ++ v | none => []),
              version := match verOpt with
                | some v => if v = [] then none else some v
                | none => none }, r8)

/-- find_module over a tree of file contents: the first match of the first
file containing one. -/
def findModule (moduleSource : Text) : List Text → Option ModuleRef
  | [] => none
  | c :: cs =>
    match findFirst (matchModuleFind (baseOf moduleSource)) c with
    | some (_, (ref, _)) => some ref
    | none => findModule moduleSource cs

/-- has_module on a single file content (line 259): search for
`source\s*=\s*"(BASE(?:\?ref=[^"]*)?)"`. -/
def hasModuleContent (base : Text) (content : Text) : Bool :=
  (findFirst (matchSourceAttrStar base) content).isSome

/-- has_module over a tree of file contents. -/
def hasModule (moduleSource : Text) (tree : List Text) : Bool :=
  tree.any (fun c => hasModuleContent (baseOf moduleSource) c)

/- ------------------------------------------------------------------
   add_variable (lines 414-483)
   ------------------------------------------------------------------ -/

/-- The module-header pattern of add_variable (line 426):
`module\s+"NAME"\s+\x7b` with the (re.escaped, hence literal) target name.
Returns (matched text, rest); the matched text ends with the opening brace
(`match.end() - 1` in the code). -/
def matchModuleHeader (name : Text) (s : Text) : Option (Text × Text) :=
  match lit kwModule s with
  | none => none
  | some r1 =>
    match spaces1 r1 with
    | none => none
    | some (w1, r2) =>
      match lit ('"' :: name ++ ['"']) r2 with
      | none => none
      | some r3 =>
        match spaces1 r3 with
        | none => none
        | some (w2, r4) =>
          match lit ['\x7b'] r4 with
          | none => none
          | some r5 =>
            some (kwModule ++ w1 ++ '"' :: name ++ '"' :: w2 ++ ['\x7b'], r5)

/-- The variable-serialization loop of add_variable (lines 459-470).  Unlike
add_module's loop, every string value is wrapped in quotes. -/
def addVariableVarLines : List (Text × TfValue) → Except TfError Text
  | [] => Except.ok []
  | (n, v) :: rest =>
    match v with
    | .vstr s =>
      (addVariableVarLines rest).map
        (fun r => "\n  ".data ++ n ++ " = \"".data ++ s ++ '"' :: r)
    | .vbool b =>
      (addVariableVarLines rest).map
        (fun r => "\n  ".data ++ n ++ " = ".data ++ (if b then "true".data else "false".data) ++ r)
    | .vdict => Except.error .notImplemented
    | .vother raw =>
      (addVariableVarLines rest).map (fun r => "\n  ".data ++ n ++ " = ".data ++ raw ++ r)

/-- add_variable: locate the named module (leftmost header match), find its
closing brace by bracket counting, insert the serialized variables before
the closing brace, and substitute the modified module text for every
occurrence of the original one (Python `str.replace`, line 483). -/
def addVariable (terraformConfig : Text) (targetModule : Text)
    (vars : List (Text × TfValue)) : Except TfError Text :=
  match findFirst (matchModuleHeader targetModule) terraformConfig with
  | none =>
    Except.error (.notFound ("Could not find module '".data ++ targetModule
      ++ "' in the Terraform configuration".data))
  | some (_, (consumed, rest)) =>
    match findClose ('\x7b' :: rest) with
    | none =>
      Except.error (.notFound ("Could not find matching closing brace for module '".data
        ++ targetModule ++ "'".data))
    | some endRel =>
      match addVariableVarLines vars with
      | Except.error e => Except.error e
      | Except.ok varAssignments =>
        let moduleContent := rest.take (endRel - 1)
        let originalModule := consumed ++ rest.take endRel
        let modifiedModule := consumed ++ moduleContent ++ varAssignments ++ '\n' :: ['\x7d']
        Except.ok (replaceAll originalModule modifiedModule terraformConfig)

/- ------------------------------------------------------------------
   add_test_listener_to_ecs_module (lines 485-573)
   ------------------------------------------------------------------ -/

/-- The lookahead `(?=\s*(?:module|resource|data|provider|\Z))` of the
test-listener module pattern (line 500).  Greedy `\s*` is deterministic: a
shorter run leaves a whitespace character where a keyword letter or the end
of the text is required. -/
def tlLookahead (t : Text) : Bool :=
  let r := t.dropWhile isPySpace
  r = [] || (lit kwModule r).isSome || (lit ("resource".data) r).isSome
    || (lit ("data".data) r).isSome || (lit ("provider".data) r).isSome

/-- One match of the test-listener module pattern (line 500, DOTALL):
`module\s+"([^"]+)"\s+\x7b(.*?)\x7d(?=\s*(?:module|resource|data|provider|\Z))`.
Returns (matched text, (name, content), rest). -/
def tlTail (t : Text) : Option Text :=
  match lit ['\x7d'] t with
  | none => none
  | some t1 => if tlLookahead t1 then some t1 else none

def matchModuleTL (s : Text) : Option (Text × (Text × Text) × Text) :=
  match matchHeaderCapture s with
  | none => none
  | some (hdr, nm, r6) =>
    match lazyScan (fun _ => false) tlTail r6 with
    | none => none
    | some (content, r7) =>
      some (hdr ++ content ++ ['\x7d'], (nm, content), r7)

/-- `lb_listeners\s*=\s*\[` (line 516).  Returns (matched text, rest); the
matched text ends with the opening bracket. -/
def matchLbStart (t : Text) : Option (Text × Text) :=
  match lit ("lb_listeners".data) t with
  | none => none
  | some t1 =>
    match lit ['='] (t1.dropWhile isPySpace) with
    | none => none
    | some t3 =>
      match lit ['['] (t3.dropWhile isPySpace) with
      | none => none
      | some t5 =>
        some ("lb_listeners".data ++ (t1.takeWhile isPySpace) ++ '='
          :: (t3.takeWhile isPySpace) ++ ['['], t5)

/-- The loop body of add_test_listener_to_ecs_module: successive module
matches are examined; a module is skipped (`continue`) unless it has the ECS
source, has an `lb_listeners` array, does not contain `test_listener_arn`,
and the array's bracket and first inner brace are found; the first module
passing all checks is rewritten and the function returns.  If no module
qualifies the original text is returned; the function never raises. -/
def addTestListenerGo (metadataModuleName : Text) (terraformConfig : Text) :
    Nat → Text → Text
  | 0, _ => terraformConfig
  | Nat.succ fuel, s =>
    match findFirst matchModuleTL s with
    | none => terraformConfig
    | some (_, (originalModule, (moduleName, moduleContent), rest)) =>
      if hasEcsSourceB moduleContent = false then
        addTestListenerGo metadataModuleName terraformConfig fuel rest
      else
        match findFirst matchLbStart moduleContent with
        | none => addTestListenerGo metadataModuleName terraformConfig fuel rest
        | some (_, (lbConsumed, restLb)) =>
          if occursB ("test_listener_arn".data) moduleContent then
            addTestListenerGo metadataModuleName terraformConfig fuel rest
          else
            match findCloseFromGen '[' ']' 0 0 ('[' :: restLb) with
            | none => addTestListenerGo metadataModuleName terraformConfig fuel rest
            | some endRel =>
              let lbFull := lbConsumed ++ restLb.take endRel
              match findCharIdx '\x7b' lbFull with
              | none => addTestListenerGo metadataModuleName terraformConfig fuel rest
              | some fb =>
                let testListenerLine := "\n      test_listener_arn = module.".data
                  ++ metadataModuleName ++ ".load_balancer.https_test_listener_arn\n".data
                let modifiedLb := lbFull.take (fb + 1) ++ testListenerLine ++ lbFull.drop (fb + 1)
                let modifiedContent := replaceAll lbFull modifiedLb moduleContent
                let modifiedModule := "module \"".data ++ moduleName ++ "\" \x7b".data
                  ++ modifiedContent ++ ['\x7d']
                replaceAll originalModule modifiedModule terraformConfig

/-- add_test_listener_to_ecs_module. -/
def addTestListener (terraformConfig metadataModuleName : Text) : Text :=
  addTestListenerGo metadataModuleName terraformConfig
    (terraformConfig.length + 1) terraformConfig

/- ------------------------------------------------------------------
   add_force_new_deployment_to_ecs_module (lines 575-633)
   ------------------------------------------------------------------ -/

/-- The header pattern of add_force_new_deployment (line 590):
`module\s+"([^"]+)"\s+\x7b` with a captured name.  Returns
((name, matched text), rest). -/
def matchModuleHeaderAny (s : Text) : Option ((Text × Text) × Text) :=
  match matchHeaderCapture s with
  | none => none
  | some (hdr, nm, r6) => some ((nm, hdr), r6)

/-- The loop of add_force_new_deployment_to_ecs_module: iterate header
matches (each search resuming after the previous header); for each, find the
closing brace by bracket counting (skip on failure), skip non-ECS modules,
return the text unchanged if `force_new_deployment` already occurs, and
otherwise delegate to add_variable with `{force_new_deployment: True}`.
Raises NotFound when no header qualifies. -/
def addForceGo (terraformConfig : Text) : Nat → Text → Except TfError Text
  | 0, _ => Except.error (.notFound ("No ECS module was found in the configuration.".data))
  | Nat.succ fuel, s =>
    match findFirst matchModuleHeaderAny s with
    | none => Except.error (.notFound ("No ECS module was found in the configuration.".data))
    | some (_, ((nm, _), rest)) =>
      match findClose ('\x7b' :: rest) with
      | none => addForceGo terraformConfig fuel rest
      | some endRel =>
        let moduleContent := rest.take (endRel - 1)
        if hasEcsSourceB moduleContent = false then addForceGo terraformConfig fuel rest
        else if occursB ("force_new_deployment".data) moduleContent then
          Except.ok terraformConfig
        else
          addVariable terraformConfig nm [("force_new_deployment".data, TfValue.vbool true)]

/-- add_force_new_deployment_to_ecs_module. -/
def addForceNewDeployment (terraformConfig : Text) : Except TfError Text :=
  addForceGo terraformConfig (terraformConfig.length + 1) terraformConfig

/- ------------------------------------------------------------------
   update_provider_versions (lines 155-225)
   ------------------------------------------------------------------ -/

/-- `required_providers\s+\x7b` (line 169).  Returns (matched text, rest);
the matched text ends with the opening brace. -/
def reqProvMatcher (t : Text) : Option (Text × Text) :=
  match lit ("required_providers".data) t with
  | none => none
  | some t1 =>
    match spaces1 t1 with
    | none => none
    | some (w, t2) =>
      match lit ['\x7b'] t2 with
      | none => none
      | some t3 => some ("required_providers".data ++ w ++ ['\x7b'], t3)

/-- The per-provider `re.sub` of update_provider_versions (lines 199-203):
pattern `(NAME\s*=\s*\x7b.*?version\s*=\s*)"[^"]*"` (DOTALL) replaced by the
captured prefix followed by the quoted new version.  Returns (replacement,
rest after the old version's closing quote). -/
def provTail (t : Text) : Option (Text × Text × Text) :=
  match lit kwVersion t with
  | none => none
  | some u1 =>
    match lit ['='] (u1.dropWhile isPySpace) with
    | none => none
    | some u3 =>
      match lit ['"'] (u3.dropWhile isPySpace) with
      | none => none
      | some u5 =>
        match scanToChar '"' u5 with
        | none => none
        | some (_, u6) =>
          some (u1.takeWhile isPySpace, u3.takeWhile isPySpace, u6)

def subProviderMatcher (name newVersion : Text) (t : Text) : Option (Text × Text) :=
  match lit name t with
  | none => none
  | some t1 =>
    match lit ['='] (t1.dropWhile isPySpace) with
    | none => none
    | some t3 =>
      match lit ['\x7b'] (t3.dropWhile isPySpace) with
      | none => none
      | some t5 =>
        match lazyScan (fun _ => false) provTail t5 with
        | none => none
        | some (mid, (w3, w4, rest)) =>
          some (name ++ (t1.takeWhile isPySpace) ++ '=' :: (t3.takeWhile isPySpace)
            ++ '\x7b' :: mid ++ kwVersion ++ w3 ++ '=' :: w4 ++ '"' :: newVersion ++ ['"'], rest)

/-- The synthesized `required_providers` block used when none exists
(lines 216-221). -/
def synthesizedProviders (targetProviders : List (Text × Text)) : Text :=
  "terraform \x7b\n  required_providers \x7b\n".data ++
    (targetProviders.foldr (fun p acc =>
      "    ".data ++ p.1 ++ " = \x7b\n      version = \"".data ++ p.2
        ++ "\"\n    \x7d\n".data ++ acc) []) ++ "  \x7d\n\x7d\n".data

/-- update_provider_versions: when a `required_providers` block exists (and
its closing brace is found by bracket counting), every target's version is
rewritten inside the extracted block text by the per-provider sub, and the
old block is replaced by the updated one (Python `str.replace`); when the
closing brace cannot be found the text is returned unchanged; when no block
exists a synthesized one is prepended. -/
def updateProviderVersions (terraformConfig : Text)
    (targetProviders : List (Text × Text)) : Text :=
  match findFirst reqProvMatcher terraformConfig with
  | some (_, (consumed, rest)) =>
    (match findClose ('\x7b' :: rest) with
    | some endRel =>
      let fullBlock := consumed ++ rest.take endRel
      let blockText := targetProviders.foldl
        (fun blk p => subAll (subProviderMatcher p.1 p.2) blk) fullBlock
      replaceAll fullBlock blockText terraformConfig
    | none => terraformConfig)
  | none => synthesizedProviders targetProviders ++ terraformConfig

/- ------------------------------------------------------------------
   Canonical module blocks (for the structured statements of the
   update/idempotence/round-trip/nesting claims)
   ------------------------------------------------------------------ -/

/-- Characters of ordinary Terraform identifiers, module names, sources and
versions: alphanumerics and `_ - / . :`.  They exclude whitespace, quotes,
braces, question marks and equals signs. -/
def plainChar (c : Char) : Bool :=
  c.isAlphanum || c = '_' || c = '-' || c = '/' || c = '.' || c = ':'

/-- A canonically formatted module block:
`module "NAME" \x7b PRE source = "BASE[?ref=REF]" POST \x7d`. -/
structure Block where
  name : Text
  pre : Text
  base : Text
  ref : Option Text
  post : Text
deriving DecidableEq

/-- The source value of a block: the base followed by an optional `?ref=` tag. -/
def renderSrcVal (b : Block) : Text :=
  b.base ++ (match b.ref with | some r => kwRefEq ++ r | none => [])

/-- The header text of a canonical block. -/
def hdrText (b : Block) : Text :=
  ("module \"").data ++ b.name ++ ("\" \x7b").data

/-- The tail of a canonical block from its source attribute on. -/
def srcSuffix (b : Block) : Text :=
  ("source = \"").data ++ renderSrcVal b ++ '"' :: b.post ++ ['\x7d']

def renderBlock (b : Block) : Text :=
  hdrText b ++ b.pre ++ srcSuffix b

/-- A file of canonical module blocks, one per line group, each followed by a
newline. -/
def renderBlocks : List Block → Text
  | [] => []
  | b :: bs => renderBlock b ++ '\n' :: renderBlocks bs

/-- Body text of a canonical block outside the source attribute: no closing
brace, and neither the `source` nor the `module` keyword occurs in it. -/
def goodBody (l : Text) : Bool :=
  l.all (fun c => c ≠ '\x7d') && !(occursB kwSource l) && !(occursB kwModule l)

def wfBlockB (b : Block) : Bool :=
  b.name ≠ [] && b.name.all plainChar
    && goodBody b.pre && goodBody b.post
    && b.base ≠ [] && b.base.all plainChar
    && (match b.ref with | some r => r.all plainChar | none => true)

/-- A well-formed update target: its base (the part of the key before `?`)
is a nonempty plain word and its version is a plain word. -/
def wfTargetB (t : Text × Text) : Bool :=
  baseOf t.1 ≠ [] && (baseOf t.1).all plainChar && t.2.all plainChar

/-- The effect update_module_versions is specified to have on one canonical
block: a block whose base equals the target's base gets the target's
version as its ref, every other block is untouched. -/
def updBlock (base ver : Text) (b : Block) : Block :=
  if b.base = base then { b with ref := some ver } else b

def updBlocks (targets : List (Text × Text)) (bs : List Block) : List Block :=
  targets.foldl (fun acc t => acc.map (updBlock (baseOf t.1) t.2)) bs

/-- The ref a block with the given base carries after all targets are
applied in order: the last matching target wins. -/
def refAfter (targets : List (Text × Text)) (base : Text) (r : Option Text) : Option Text :=
  targets.foldl (fun acc t => if base = baseOf t.1 then some t.2 else acc) r

/- ------------------------------------------------------------------
   Decidable position predicates used as theorem hypotheses
   ------------------------------------------------------------------ -/

/-- Check a boolean predicate on every suffix of a text (that is, at every
position of the text, including the empty suffix at the end). -/
def allSuffixesB (p : Text → Bool) : Text → Bool
  | [] => p []
  | c :: cs => p (c :: cs) && allSuffixesB p cs

/-- A text starting with the keyword `kw` followed by a whitespace
character.  Both the module regexes (which continue with `\s+`) and the
canonical block texts (which continue with a space) start like this, so
positions where this fails can match neither. -/
def kwSpaceStart (kw : Text) (t : Text) : Prop :=
  ∃ c r, t = kw ++ c :: r ∧ isPySpace c = true

/-- The version normalization of find_module (line 388):
`match.group(4) if match.group(4) else None` — an absent or empty ref group
yields no version. -/
def verNorm (verOpt : Option Text) : Option Text :=
  match verOpt with
  | some v => if v = [] then none else some v
  | none => none

/-- No occurrence of the source-attribute pattern for `base` carries a
version other than `expect` (after find_module's normalization).  Used as
the no-aliasing hypothesis of the round-trip claim. -/
def srcOccAllB (base : Text) (expect : Option Text) (content : Text) : Bool :=
  allSuffixesB (fun u =>
    match matchSourceAttrStar base u with
    | some (vo, _) => decide (verNorm vo = expect)
    | none => true) content

/-- No position of the text matches add_variable's module-header pattern for
this name. -/
def noHeaderB (name : Text) (config : Text) : Bool :=
  allSuffixesB (fun u => (matchModuleHeader name u).isNone) config

/-- Position check for "the configuration contains no ECS module": wherever
a module header matches and its closing brace is found by bracket counting,
the enclosed content does not carry the ECS source. -/
def noEcsAtB (u : Text) : Bool :=
  match matchModuleHeaderAny u with
  | none => true
  | some (_, rest) =>
    match findClose ('\x7b' :: rest) with
    | none => true
    | some endRel => !(hasEcsSourceB (rest.take (endRel - 1)))

def noEcsModuleB (config : Text) : Bool := allSuffixesB noEcsAtB config

/-- Position check for the soft-failure conditions of
add_test_listener_to_ecs_module: wherever the module pattern matches, the
module is not an ECS module, or has no lb_listeners array, or already
contains `test_listener_arn`. -/
def tlSkipAtB (u : Text) : Bool :=
  match matchModuleTL u with
  | none => true
  | some (_, (_, content), _) =>
    !(hasEcsSourceB content) || (findFirst matchLbStart content).isNone
      || occursB ("test_listener_arn".data) content

def tlSkipAllB (config : Text) : Bool := allSuffixesB tlSkipAtB config

/-- No variable value is a nested mapping. -/
def dictFreeB (vars : List (Text × TfValue)) : Bool :=
  vars.all (fun p => p.2 ≠ TfValue.vdict)

/-- The prefix `NAME\s*=\s*\x7b` of a provider entry (what the implicit
provider claim calls a `name = \x7b` entry). -/
def provEntryStartB (name : Text) (u : Text) : Bool :=
  match lit name u with
  | none => false
  | some t1 =>
    match lit ['='] (t1.dropWhile isPySpace) with
    | none => false
    | some t3 => (lit ['\x7b'] (t3.dropWhile isPySpace)).isSome

def noProvEntryB (name blk : Text) : Bool :=
  allSuffixesB (fun u => !(provEntryStartB name u)) blk

/-- The fold of the per-provider substitutions over the extracted block
(update_provider_versions lines 195-206). -/
def applyProvSubs (targetProviders : List (Text × Text)) (blk : Text) : Text :=
  targetProviders.foldl (fun b p => subAll (subProviderMatcher p.1 p.2) b) blk

/-- Brace balance relative to a starting depth: no prefix closes more braces
than were opened, and the total depth returns to zero.  When the content of
a block satisfies this, the bracket-counting Locator finds exactly the
block's own closing brace. -/
def balancedFrom : Nat → Text → Bool
  | d, [] => d = 0
  | d, c :: cs =>
    if c = '\x7b' then balancedFrom (d + 1) cs
    else if c = '\x7d' then (if d = 0 then false else balancedFrom (d - 1) cs)
    else balancedFrom d cs

def balancedB (l : Text) : Bool := balancedFrom 0 l

/- ==================================================================
   Generic lemmas about the combinators
   ================================================================== -/

theorem lit_eq_some_iff {p s r : Text} : lit p s = some r ↔ s = p ++ r := by
  induction p generalizing s with
  | nil => simp [lit]
  | cons x xs ih =>
    cases s with
    | nil => simp [lit]
    | cons c cs =>
      by_cases hc : c = x
      · subst hc
        simp only [lit, if_pos rfl, List.cons_append, List.cons.injEq, true_and]
        exact ih
      · simp [lit, hc, Ne.symm hc]

theorem lit_self_append (p r : Text) : lit p (p ++ r) = some r :=
  lit_eq_some_iff.mpr rfl

theorem lit_isSome_iff {p s : Text} : (lit p s).isSome ↔ ∃ r, s = p ++ r := by
  constructor
  · intro h
    rcases Option.isSome_iff_exists.mp h with ⟨r, hr⟩
    exact ⟨r, lit_eq_some_iff.mp hr⟩
  · rintro ⟨r, rfl⟩
    rw [lit_self_append]
    rfl

theorem allSuffixesB_spec {p : Text → Bool} {s : Text} (h : allSuffixesB p s = true) :
    ∀ u, u <:+ s → p u = true := by
  induction s with
  | nil =>
    intro u hu
    rw [List.suffix_nil.mp hu]
    exact h
  | cons c cs ih =>
    simp only [allSuffixesB, Bool.and_eq_true] at h
    intro u hu
    rcases hu with ⟨w, hw⟩
    cases w with
    | nil =>
      have hu : u = c :: cs := by simpa using hw
      rw [hu]
      exact h.1
    | cons x xs =>
      exact ih h.2 u ⟨xs, by simpa using congrArg List.tail hw⟩

theorem occursB_of_lit {pat s : Text} (h : (lit pat s).isSome) : occursB pat s = true := by
  cases s with
  | nil => simpa [occursB, findFirst, lazyScan, Option.isSome_map] using h
  | cons c cs =>
    rcases Option.isSome_iff_exists.mp h with ⟨r, hr⟩
    simp [occursB, findFirst, lazyScan, hr]

theorem occursB_suffix {pat s u : Text} (hu : u <:+ s) (h : (lit pat u).isSome) :
    occursB pat s = true := by
  induction s with
  | nil =>
    rw [List.suffix_nil.mp hu] at h
    exact occursB_of_lit h
  | cons c cs ih =>
    rcases hu with ⟨w, hw⟩
    cases w with
    | nil => exact hw ▸ occursB_of_lit h
    | cons x xs =>
      have hcs : u <:+ cs := ⟨xs, by simpa using congrArg List.tail hw⟩
      have := ih hcs
      cases hlit : lit pat (c :: cs) with
      | some r => simp [occursB, findFirst, lazyScan, hlit]
      | none =>
        have h2 : occursB pat cs = true := this
        simp only [occursB, findFirst] at h2 ⊢
        simp [lazyScan, hlit, Option.isSome_map, h2]

theorem suffix_append_split {a b u : Text} (h : u <:+ a ++ b) :
    u <:+ b ∨ ∃ w, w <:+ a ∧ w ≠ [] ∧ u = w ++ b := by
  rcases h with ⟨p, hp⟩
  rcases List.append_eq_append_iff.mp hp with ⟨k, hk1, hk2⟩ | ⟨k, hk1, hk2⟩
  · cases k with
    | nil => left; exact hk2 ▸ ⟨[], by simp⟩
    | cons x xs =>
      right
      exact ⟨x :: xs, ⟨p, hk1.symm⟩, by simp, hk2⟩
  · left
    exact ⟨k, hk2.symm⟩

theorem plain_ne {c : Char} (h : plainChar c = true) {d : Char}
    (hd : plainChar d = false) : c ≠ d := by
  intro he
  rw [he, hd] at h
  exact Bool.noConfusion h

theorem plain_not_space {c : Char} (h : plainChar c = true) : isPySpace c = false := by
  by_contra hs
  have hs' : isPySpace c = true := by
    cases h2 : isPySpace c
    · exact absurd h2 hs
    · rfl
  simp only [isPySpace, Bool.or_eq_true, decide_eq_true_eq] at hs'
  rcases hs' with ((((h1 | h1) | h1) | h1) | h1) | h1 <;>
    · subst h1; exact absurd h (by decide)

theorem delim_eq {q : Char} {a₁ a₂ r₁ r₂ : Text}
    (h₁ : ∀ c ∈ a₁, c ≠ q) (h₂ : ∀ c ∈ a₂, c ≠ q)
    (h : a₁ ++ q :: r₁ = a₂ ++ q :: r₂) : a₁ = a₂ ∧ r₁ = r₂ := by
  induction a₁ generalizing a₂ with
  | nil =>
    cases a₂ with
    | nil => simpa using h
    | cons x xs =>
      exfalso
      have : q = x := by simpa using congrArg List.head? h
      exact h₂ x (by simp) this.symm
  | cons c cs ih =>
    cases a₂ with
    | nil =>
      exfalso
      have : c = q := by simpa using congrArg List.head? h
      exact h₁ c (by simp) this
    | cons x xs =>
      have hcx : c = x := by simpa using congrArg List.head? h
      subst hcx
      have ht : cs ++ q :: r₁ = xs ++ q :: r₂ := by simpa using congrArg List.tail h
      have := ih (fun d hd => h₁ d (by simp [hd])) (fun d hd => h₂ d (by simp [hd])) ht
      exact ⟨by rw [this.1], this.2⟩

theorem kwSpaceStart_head {kw t : Text} {c : Char} (hk : kw.head? = some c)
    (h : kwSpaceStart kw t) : t.head? = some c := by
  rcases h with ⟨d, r, rfl, _⟩
  cases kw with
  | nil => exact Option.noConfusion hk
  | cons x xs => simpa using hk

theorem not_kwSpaceStart_plain {kw w u : Text} (hw : w.all plainChar = true)
    (hne : w ≠ [])
    (hu : ∀ c, u.head? = some c → isPySpace c = false ∧ c ∉ kw.drop 1) :
    ¬ kwSpaceStart kw (w ++ u) := by
  rintro ⟨c, r, heq, hsp⟩
  rcases List.append_eq_append_iff.mp heq with ⟨k, hk1, hk2⟩ | ⟨k, hk1, hk2⟩
  · -- kw = w ++ k, u = k ++ c :: r
    cases k with
    | nil =>
      have hc := hu c (by simp [hk2])
      rw [hc.1] at hsp
      exact Bool.noConfusion hsp
    | cons y ys =>
      have hyu : u.head? = some y := by simp [hk2]
      have hy := (hu y hyu).2
      apply hy
      cases w with
      | nil => exact absurd rfl hne
      | cons a as =>
        have : kw.drop 1 = as ++ y :: ys := by
          rw [hk1]
          simp
        rw [this]
        simp
  · -- w = kw ++ k, c :: r = k ++ u
    cases k with
    | nil =>
      have hu' : u = c :: r := by simpa using hk2.symm
      have hc := hu c (by simp [hu'])
      rw [hc.1] at hsp
      exact Bool.noConfusion hsp
    | cons y ys =>
      have hcy : c = y := by simpa using congrArg List.head? hk2
      have hyw : y ∈ w := by rw [hk1]; simp
      have := List.all_eq_true.mp hw y hyw
      rw [hcy] at hsp
      rw [plain_not_space (by simpa using this)] at hsp
      exact Bool.noConfusion hsp

theorem not_kwSpaceStart_nosub {kw w u : Text} (hw : occursB kw w = false)
    (hne : w ≠ [])
    (hu : ∀ c, u.head? = some c → c ∉ kw.drop 1) :
    ¬ kwSpaceStart kw (w ++ u) := by
  rintro ⟨c, r, heq, _⟩
  rcases List.append_eq_append_iff.mp heq with ⟨k, hk1, hk2⟩ | ⟨k, hk1, hk2⟩
  · -- kw = w ++ k, u = k ++ c :: r
    cases k with
    | nil =>
      rw [List.append_nil] at hk1
      have : (lit kw w).isSome := by
        rw [← hk1]
        exact lit_isSome_iff.mpr ⟨[], by simp⟩
      rw [occursB_of_lit this] at hw
      exact Bool.noConfusion hw
    | cons y ys =>
      have hyu : u.head? = some y := by simp [hk2]
      apply hu y hyu
      cases w with
      | nil => exact absurd rfl hne
      | cons a as =>
        have : kw.drop 1 = as ++ y :: ys := by rw [hk1]; simp
        rw [this]
        simp
  · -- w = kw ++ k
    have : (lit kw w).isSome := by
      rw [hk1]
      exact lit_isSome_iff.mpr ⟨k, rfl⟩
    rw [occursB_of_lit this] at hw
    exact Bool.noConfusion hw

/- Lemmas about lazyScan and findFirst. -/

theorem lazyScan_some_spec {bad : Char → Bool} {t : Text → Option α} :
    ∀ {s sk : Text} {a : α}, lazyScan bad t s = some (sk, a) →
    ∃ u, s = sk ++ u ∧ t u = some a ∧ (∀ c ∈ sk, bad c = false) ∧
      (∀ w, w <:+ sk → w ≠ [] → t (w ++ u) = none) := by
  intro s
  induction s with
  | nil =>
    intro sk a h
    simp only [lazyScan] at h
    cases ht : t [] with
    | none => rw [ht] at h; exact Option.noConfusion h
    | some b =>
      rw [ht] at h
      have hsk : sk = [] := by
        have := congrArg Prod.fst (Option.some.inj h)
        simpa using this.symm
      have hab : a = b := by
        have := congrArg Prod.snd (Option.some.inj h)
        simpa using this.symm
      subst hsk; subst hab
      exact ⟨[], rfl, ht, by simp, by
        intro w hw hne
        rw [List.suffix_nil.mp hw] at hne
        exact absurd rfl hne⟩
  | cons c cs ih =>
    intro sk a h
    simp only [lazyScan] at h
    cases ht : t (c :: cs) with
    | some b =>
      rw [ht] at h
      have hsk : sk = [] := by
        have := congrArg Prod.fst (Option.some.inj h)
        simpa using this.symm
      have hab : a = b := by
        have := congrArg Prod.snd (Option.some.inj h)
        simpa using this.symm
      subst hsk; subst hab
      exact ⟨c :: cs, rfl, ht, by simp, by
        intro w hw hne
        rw [List.suffix_nil.mp hw] at hne
        exact absurd rfl hne⟩
    | none =>
      rw [ht] at h
      by_cases hb : bad c
      · rw [if_pos hb] at h; exact Option.noConfusion h
      · rw [if_neg hb] at h
        cases hrec : lazyScan bad t cs with
        | none => rw [hrec] at h; exact Option.noConfusion h
        | some p =>
          rw [hrec] at h
          simp only [Option.map_some] at h
          rcases p with ⟨sk', a'⟩
          have hsk : sk = c :: sk' := by
            have := congrArg Prod.fst (Option.some.inj h)
            simpa using this.symm
          have hab : a = a' := by
            have := congrArg Prod.snd (Option.some.inj h)
            simpa using this.symm
          subst hsk; subst hab
          rcases ih hrec with ⟨u, hcs, htu, hbad, hfail⟩
          refine ⟨u, by simp [hcs], htu, ?_, ?_⟩
          · intro d hd
            rcases List.mem_cons.mp hd with rfl | hd'
            · simpa using hb
            · exact hbad d hd'
          · intro w hw hne
            rcases hw with ⟨p, hp⟩
            cases p with
            | nil =>
              have hw' : w = c :: sk' := by simpa using hp
              rw [hw']
              rw [hcs] at ht
              simpa using ht
            | cons x xs =>
              have : w <:+ sk' := ⟨xs, by simpa using congrArg List.tail hp⟩
              exact hfail w this hne

theorem lazyScan_eq_some_of {bad : Char → Bool} {t : Text → Option α}
    (sk u : Text) (a : α)
    (hna : ∀ c ∈ sk, bad c = false)
    (hfail : ∀ w, w <:+ sk → w ≠ [] → t (w ++ u) = none)
    (hsucc : t u = some a) :
    lazyScan bad t (sk ++ u) = some (sk, a) := by
  induction sk with
  | nil =>
    cases u with
    | nil => simp [lazyScan, hsucc]
    | cons c cs => simp [lazyScan, hsucc]
  | cons c cs ih =>
    have hfirst : t (c :: (cs ++ u)) = none := by
      simpa using hfail (c :: cs) (by simp) (by simp)
    have hbad : bad c = false := hna c (by simp)
    have hrec := ih (fun d hd => hna d (by simp [hd]))
      (fun w hw hne => hfail w (hw.trans (by simp)) hne)
    simp [lazyScan, hfirst, hbad, hrec]

theorem lazyScan_eq_none_of {bad : Char → Bool} {t : Text → Option α}
    (body u : Text) (c : Char) (hc : bad c = true)
    (hfail : ∀ w, w <:+ body → t (w ++ c :: u) = none) :
    lazyScan bad t (body ++ c :: u) = none := by
  induction body with
  | nil =>
    have h0 : t (c :: u) = none := by simpa using hfail [] (by simp)
    simp [lazyScan, h0, hc]
  | cons x xs ih =>
    have hfirst : t (x :: (xs ++ c :: u)) = none := by
      simpa using hfail (x :: xs) (by simp)
    have hrec := ih (fun w hw => hfail w (hw.trans (by simp)))
    by_cases hb : bad x
    · simp [lazyScan, hfirst, hb]
    · simp [lazyScan, hfirst, hb, hrec]

theorem lazyScan_eq_none_all {bad : Char → Bool} {t : Text → Option α}
    (s : Text) (hfail : ∀ u, u <:+ s → t u = none) :
    lazyScan bad t s = none := by
  induction s with
  | nil => simp [lazyScan, hfail [] (by simp)]
  | cons c cs ih =>
    have h0 : t (c :: cs) = none := hfail _ (by simp)
    have hrec := ih (fun u hu => hfail u (hu.trans (by simp)))
    simp [lazyScan, h0, hrec]

theorem findFirst_eq_some_of {t : Text → Option α} (sk u : Text) (a : α)
    (hfail : ∀ w, w <:+ sk → w ≠ [] → t (w ++ u) = none)
    (hsucc : t u = some a) :
    findFirst t (sk ++ u) = some (sk, a) :=
  lazyScan_eq_some_of sk u a (by simp) hfail hsucc

theorem findFirst_eq_none {t : Text → Option α} (s : Text)
    (hfail : ∀ u, u <:+ s → t u = none) : findFirst t s = none :=
  lazyScan_eq_none_all s hfail

theorem findFirst_some_spec {t : Text → Option α} {s sk : Text} {a : α}
    (h : findFirst t s = some (sk, a)) :
    ∃ u, s = sk ++ u ∧ t u = some a ∧
      (∀ w, w <:+ sk → w ≠ [] → t (w ++ u) = none) := by
  rcases lazyScan_some_spec h with ⟨u, h1, h2, _, h4⟩
  exact ⟨u, h1, h2, h4⟩

theorem findFirst_isSome_of_suffix {t : Text → Option α} {s u : Text} {a : α}
    (hu : u <:+ s) (h : t u = some a) : (findFirst t s).isSome := by
  induction s with
  | nil =>
    rw [List.suffix_nil.mp hu] at h
    simp [findFirst, lazyScan, h]
  | cons c cs ih =>
    cases ht : t (c :: cs) with
    | some b => simp [findFirst, lazyScan, ht]
    | none =>
      rcases hu with ⟨p, hp⟩
      cases p with
      | nil =>
        have : u = c :: cs := by simpa using hp
        rw [this, ht] at h
        exact Option.noConfusion h
      | cons x xs =>
        have hcs : u <:+ cs := ⟨xs, by simpa using congrArg List.tail hp⟩
        have := ih hcs
        simp only [findFirst, lazyScan, ht] at *
        simpa [Option.isSome_map] using this

/- Lemmas about scanToChar, spaces1 and the space splitters. -/

theorem scanToChar_exact {q : Char} (pre u : Text) (hpre : ∀ c ∈ pre, c ≠ q) :
    scanToChar q (pre ++ q :: u) = some (pre, u) := by
  induction pre with
  | nil => simp [scanToChar]
  | cons c cs ih =>
    have hc : c ≠ q := hpre c (by simp)
    have := ih (fun d hd => hpre d (by simp [hd]))
    simp [scanToChar, hc, this]

theorem scanToChar_some_spec {q : Char} :
    ∀ {s pre u : Text}, scanToChar q s = some (pre, u) →
      s = pre ++ q :: u ∧ ∀ c ∈ pre, c ≠ q := by
  intro s
  induction s with
  | nil => intro pre u h; exact Option.noConfusion h
  | cons c cs ih =>
    intro pre u h
    by_cases hc : c = q
    · subst hc
      simp only [scanToChar, if_pos rfl] at h
      have h1 : pre = [] := (congrArg Prod.fst (Option.some.inj h)).symm
      have h2 : u = cs := (congrArg Prod.snd (Option.some.inj h)).symm
      subst h1; subst h2
      exact ⟨rfl, by simp⟩
    · simp only [scanToChar, if_neg hc] at h
      cases hrec : scanToChar q cs with
      | none => rw [hrec] at h; exact Option.noConfusion h
      | some p =>
        rw [hrec] at h
        rcases p with ⟨pre', u'⟩
        have h1 : pre = c :: pre' := by
          have := congrArg Prod.fst (Option.some.inj h)
          simpa using this.symm
        have h2 : u = u' := by
          have := congrArg Prod.snd (Option.some.inj h)
          simpa using this.symm
        subst h1; subst h2
        rcases ih hrec with ⟨hs, hall⟩
        refine ⟨by simp [hs], ?_⟩
        intro d hd
        rcases List.mem_cons.mp hd with rfl | hd'
        · exact hc
        · exact hall d hd'

theorem spaces1_space_nonspace {c d : Char} {rest : Text} (hc : isPySpace c = true)
    (hd : isPySpace d = false) :
    spaces1 (c :: d :: rest) = some ([c], d :: rest) := by
  simp [spaces1, hc, List.takeWhile_cons, List.dropWhile_cons, hd]

theorem spaces1_none {c : Char} {rest : Text} (hc : isPySpace c = false) :
    spaces1 (c :: rest) = none := by
  simp [spaces1, hc]

theorem dropWhile_nonspace {d : Char} {rest : Text} (hd : isPySpace d = false) :
    (d :: rest).dropWhile isPySpace = d :: rest := by
  simp [List.dropWhile_cons, hd]

/- Lemmas about replaceAll and subAll. -/

theorem replaceAllAux_no_occ (old new : Text) :
    ∀ (fuel : Nat) (s : Text), (∀ u, u <:+ s → lit old u = none) →
      replaceAllAux old new fuel s = s := by
  intro fuel
  induction fuel with
  | zero => intro s _; rfl
  | succ n ih =>
    intro s h
    cases s with
    | nil => rfl
    | cons c cs =>
      have h0 : lit old (c :: cs) = none := h _ (by simp)
      have := ih cs (fun u hu => h u (hu.trans (by simp)))
      simp [replaceAllAux, h0, this]

theorem replaceAll_no_occ (old new s : Text) (h : ∀ u, u <:+ s → u ≠ [] → lit old u = none)
    (hne : old ≠ []) : replaceAll old new s = s := by
  have h' : ∀ u, u <:+ s → lit old u = none := by
    intro u hu
    cases u with
    | nil =>
      cases old with
      | nil => exact absurd rfl hne
      | cons x xs => rfl
    | cons c cs => exact h _ hu (by simp)
  simp only [replaceAll, if_neg hne]
  exact replaceAllAux_no_occ old new s.length s h'

theorem replaceAllAux_unique (old new B : Text) (hne : old ≠ []) :
    ∀ (A : Text) (fuel : Nat), A.length + old.length ≤ fuel →
      (∀ u, u <:+ A ++ old ++ B → (lit old u).isSome → u = old ++ B) →
      replaceAllAux old new fuel (A ++ old ++ B) = A ++ new ++ B := by
  intro A
  induction A with
  | nil =>
    intro fuel hfuel h
    simp only [List.nil_append]
    cases old with
    | nil => exact absurd rfl hne
    | cons x xs =>
      cases fuel with
      | zero => simp at hfuel
      | succ n =>
        have hlit : lit (x :: xs) (x :: (xs ++ B)) = some B := by
          simpa using lit_self_append (x :: xs) B
        have hB : ∀ u, u <:+ B → lit (x :: xs) u = none := by
          intro u hu
          cases hl : lit (x :: xs) u with
          | none => rfl
          | some r =>
            exfalso
            have huB : u = (x :: xs) ++ B := h u (hu.trans ⟨x :: xs, rfl⟩) (by simp [hl])
            have hlen : u.length ≤ B.length := hu.length_le
            rw [huB] at hlen
            simp only [List.length_append, List.length_cons, List.length_nil] at hlen
            omega
        simp only [List.cons_append, replaceAllAux, hlit]
        rw [replaceAllAux_no_occ _ _ _ _ hB]
  | cons a A' ih =>
    intro fuel hfuel h
    cases fuel with
    | zero => simp only [List.length_cons] at hfuel; omega
    | succ n =>
      have hstep : lit old (a :: (A' ++ old ++ B)) = none := by
        cases hl : lit old (a :: (A' ++ old ++ B)) with
        | none => rfl
        | some r =>
          exfalso
          have heq := h (a :: (A' ++ old ++ B)) (List.suffix_refl _) (by rw [hl]; rfl)
          have hlen := congrArg List.length heq
          simp only [List.length_cons, List.length_append] at hlen
          omega
      have hrec := ih n (by simp only [List.length_cons] at hfuel; omega)
        (fun u hu => h u (hu.trans (by simp)))
      simp only [List.cons_append, replaceAllAux, hstep]
      rw [hrec]

theorem replaceAll_unique (old new A B : Text) (hne : old ≠ [])
    (h : ∀ u, u <:+ A ++ old ++ B → (lit old u).isSome → u = old ++ B) :
    replaceAll old new (A ++ old ++ B) = A ++ new ++ B := by
  simp only [replaceAll, if_neg hne]
  apply replaceAllAux_unique old new B hne A
  · simp only [List.length_append]
    omega
  · exact h

theorem replaceAllAux_self (old : Text) : ∀ (fuel : Nat) (s : Text),
    replaceAllAux old old fuel s = s := by
  intro fuel
  induction fuel with
  | zero => intro s; rfl
  | succ n ih =>
    intro s
    cases s with
    | nil => rfl
    | cons c cs =>
      cases hl : lit old (c :: cs) with
      | none => simp [replaceAllAux, hl, ih]
      | some r =>
        have hs : c :: cs = old ++ r := lit_eq_some_iff.mp hl
        simp only [replaceAllAux, hl]
        rw [ih r, ← hs]

theorem replaceAll_self (old s : Text) : replaceAll old old s = s := by
  by_cases hne : old = []
  · simp [replaceAll, hne]
  · simp only [replaceAll, if_neg hne]
    exact replaceAllAux_self old s.length s

theorem subAllAux_id (m : Text → Option (Text × Text)) :
    ∀ (fuel : Nat) (s : Text), (∀ u, u <:+ s → m u = none) →
      subAllAux m fuel s = s := by
  intro fuel
  induction fuel with
  | zero => intro s _; rfl
  | succ n ih =>
    intro s h
    cases s with
    | nil => rfl
    | cons c cs =>
      have h0 : m (c :: cs) = none := h _ (by simp)
      have := ih cs (fun u hu => h u (hu.trans (by simp)))
      simp [subAllAux, h0, this]

theorem subAll_id (m : Text → Option (Text × Text)) (s : Text)
    (h : ∀ u, u <:+ s → m u = none) : subAll m s = s :=
  subAllAux_id m s.length s h

theorem subAllAux_unique (m : Text → Option (Text × Text)) (C rep B : Text)
    (hm : m C = some (rep, B)) (hB : ∀ u, u <:+ B → m u = none)
    (hC : C ≠ []) :
    ∀ (A : Text) (fuel : Nat), A.length + 1 ≤ fuel →
      (∀ w, w <:+ A → w ≠ [] → m (w ++ C) = none) →
      subAllAux m fuel (A ++ C) = A ++ rep ++ B := by
  intro A
  induction A with
  | nil =>
    intro fuel hfuel _
    cases fuel with
    | zero => omega
    | succ n =>
      simp only [List.nil_append]
      cases C with
      | nil => exact absurd rfl hC
      | cons x xs =>
        simp only [subAllAux, hm]
        rw [subAllAux_id _ _ _ hB]
  | cons a A' ih =>
    intro fuel hfuel h
    cases fuel with
    | zero => omega
    | succ n =>
      have hstep : m (a :: (A' ++ C)) = none := by
        simpa using h (a :: A') (by simp) (by simp)
      have hrec := ih n (by simp only [List.length_cons] at hfuel; omega)
        (fun w hw hne => h w (hw.trans (by simp)) hne)
      simp only [List.cons_append, subAllAux, hstep]
      rw [hrec]

theorem subAll_unique (m : Text → Option (Text × Text)) (A C rep B : Text)
    (hm : m C = some (rep, B)) (hB : ∀ u, u <:+ B → m u = none)
    (hC : C ≠ [])
    (hA : ∀ w, w <:+ A → w ≠ [] → m (w ++ C) = none) :
    subAll m (A ++ C) = A ++ rep ++ B := by
  have hfuel : A.length + 1 ≤ (A ++ C).length := by
    have : C.length ≠ 0 := fun h0 => hC (List.length_eq_zero.mp h0)
    simp only [List.length_append]
    omega
  simpa only [subAll] using subAllAux_unique m C rep B hm hB hC A (A ++ C).length hfuel hA

/- The bracket-counting Locator on balanced content. -/

theorem findCloseFromGen_open (cnt i : Nat) (cs : Text) :
    findCloseFromGen '\x7b' '\x7d' cnt i ('\x7b' :: cs)
      = findCloseFromGen '\x7b' '\x7d' (cnt + 1) (i + 1) cs := by
  simp [findCloseFromGen]

theorem findCloseFromGen_close (cnt i : Nat) (cs : Text) (h : cnt ≠ 1) :
    findCloseFromGen '\x7b' '\x7d' cnt i ('\x7d' :: cs)
      = findCloseFromGen '\x7b' '\x7d' (cnt - 1) (i + 1) cs := by
  simp [findCloseFromGen, h]

theorem findCloseFromGen_close_hit (i : Nat) (cs : Text) :
    findCloseFromGen '\x7b' '\x7d' 1 i ('\x7d' :: cs) = some i := by
  simp [findCloseFromGen]

theorem findCloseFromGen_other (cnt i : Nat) (c : Char) (cs : Text)
    (h1 : c ≠ '\x7b') (h2 : c ≠ '\x7d') :
    findCloseFromGen '\x7b' '\x7d' cnt i (c :: cs)
      = findCloseFromGen '\x7b' '\x7d' cnt (i + 1) cs := by
  simp [findCloseFromGen, h1, h2]

theorem balancedFrom_open (d : Nat) (cs : Text) :
    balancedFrom d ('\x7b' :: cs) = balancedFrom (d + 1) cs := by
  simp [balancedFrom]

theorem balancedFrom_close (d : Nat) (cs : Text) :
    balancedFrom d ('\x7d' :: cs)
      = if d = 0 then false else balancedFrom (d - 1) cs := by
  simp [balancedFrom]

theorem balancedFrom_other (d : Nat) (c : Char) (cs : Text)
    (h1 : c ≠ '\x7b') (h2 : c ≠ '\x7d') :
    balancedFrom d (c :: cs) = balancedFrom d cs := by
  simp [balancedFrom, h1, h2]

theorem findCloseFromGen_balanced :
    ∀ (content : Text) (d i : Nat) (u : Text), balancedFrom d content = true →
      findCloseFromGen '\x7b' '\x7d' (d + 1) i (content ++ '\x7d' :: u)
        = some (i + content.length) := by
  intro content
  induction content with
  | nil =>
    intro d i u h
    have hd : d = 0 := by simpa [balancedFrom] using h
    subst hd
    exact findCloseFromGen_close_hit i u
  | cons c cs ih =>
    intro d i u h
    by_cases hob : c = '\x7b'
    · subst hob
      rw [balancedFrom_open] at h
      have hrec := ih (d + 1) (i + 1) u h
      rw [List.cons_append, findCloseFromGen_open, hrec]
      simp only [List.length_cons]
      congr 1
      omega
    · by_cases hcb : c = '\x7d'
      · subst hcb
        rw [balancedFrom_close] at h
        have hd : ¬ d = 0 := by
          intro h0
          rw [if_pos h0] at h
          exact Bool.noConfusion h
        rw [if_neg hd] at h
        have hrec := ih (d - 1) (i + 1) u h
        rw [List.cons_append, findCloseFromGen_close (d + 1) i _ (by omega)]
        have harith : d + 1 - 1 = d - 1 + 1 := by omega
        rw [harith, hrec]
        simp only [List.length_cons]
        congr 1
        omega
      · rw [balancedFrom_other d c cs hob hcb] at h
        have hrec := ih d (i + 1) u h
        rw [List.cons_append, findCloseFromGen_other _ _ _ _ hob hcb, hrec]
        simp only [List.length_cons]
        congr 1
        omega

theorem findClose_balanced (content u : Text) (h : balancedB content = true) :
    findClose ('\x7b' :: (content ++ '\x7d' :: u)) = some (content.length + 1) := by
  have h1 : findClose ('\x7b' :: (content ++ '\x7d' :: u))
      = findCloseFromGen '\x7b' '\x7d' 1 1 (content ++ '\x7d' :: u) := by
    simp only [findClose]
    exact findCloseFromGen_open 0 0 _
  rw [h1]
  have := findCloseFromGen_balanced content 0 1 u h
  rw [this]
  congr 1
  omega

/- Small structural facts about the matchers. -/

theorem lit_suffix {p s r : Text} (h : lit p s = some r) : r <:+ s := by
  rw [lit_eq_some_iff.mp h]
  exact ⟨p, rfl⟩

theorem spaces1_suffix {s w r : Text} (h : spaces1 s = some (w, r)) : r <:+ s := by
  cases s with
  | nil => exact Option.noConfusion h
  | cons c cs =>
    by_cases hc : isPySpace c
    · simp only [spaces1, if_pos hc] at h
      have : r = cs.dropWhile isPySpace := by
        have := congrArg Prod.snd (Option.some.inj h)
        simpa using this.symm
      rw [this]
      exact (List.dropWhile_suffix _).trans (by simp)
    · simp only [spaces1, if_neg hc] at h
      exact Option.noConfusion h

theorem scanToChar_suffix {q : Char} {s pre r : Text} (h : scanToChar q s = some (pre, r)) :
    r <:+ s := by
  rcases scanToChar_some_spec h with ⟨hs, _⟩
  rw [hs]
  exact ⟨pre ++ [q], by simp⟩

theorem addVariableVarLines_ok (vars : List (Text × TfValue))
    (h : dictFreeB vars = true) : ∃ r, addVariableVarLines vars = Except.ok r := by
  induction vars with
  | nil => exact ⟨[], rfl⟩
  | cons p rest ih =>
    have hp : p.2 ≠ TfValue.vdict := by
      have := (List.all_eq_true.mp h) p (by simp)
      simpa using this
    have hrest : dictFreeB rest = true := by
      apply List.all_eq_true.mpr
      intro q hq
      exact (List.all_eq_true.mp h) q (by simp [hq])
    rcases ih hrest with ⟨r, hr⟩
    rcases p with ⟨n, v⟩
    cases v with
    | vstr s =>
      simp only [addVariableVarLines, hr, Except.map]
      exact ⟨_, rfl⟩
    | vbool b =>
      simp only [addVariableVarLines, hr, Except.map]
      exact ⟨_, rfl⟩
    | vdict => exact absurd rfl hp
    | vother raw =>
      simp only [addVariableVarLines, hr, Except.map]
      exact ⟨_, rfl⟩

/- ==================================================================
   Claim theorems
   ================================================================== -/

/-- C1.  The preservation invariant fails in the code: add_variable splices
the new variable into the located module span but then substitutes the
modified text for EVERY occurrence of the original module text
(`terraform_config.replace`, line 483).  On an input whose trailing comment
repeats the module's bytes, the comment — entirely outside the identified
target span — is rewritten too: the output is the doubly-rewritten text and
differs from the frame-preserving result (modified span + untouched tail). -/
theorem c1_preservation_code_bug :
    addVariable (("module \"a\" \x7b \x7d\n# module \"a\" \x7b \x7d").data)
        (("a").data) [((("x").data), TfValue.vstr (("1").data))]
      = Except.ok (("module \"a\" \x7b \n  x = \"1\"\n\x7d\n# module \"a\" \x7b \n  x = \"1\"\n\x7d").data)
    ∧ (("module \"a\" \x7b \n  x = \"1\"\n\x7d\n# module \"a\" \x7b \n  x = \"1\"\n\x7d").data : Text)
      ≠ (("module \"a\" \x7b \n  x = \"1\"\n\x7d").data ++ ("\n# module \"a\" \x7b \x7d").data) := by
  constructor
  · rfl
  · decide

/-- C5 counterexample.  The claim says add_variable serializes by the same
rule as add_module, emitting `module.`-prefixed strings unquoted.  It does
not: add_variable (line 462) quotes every string, so on the variable
`x = module.a.b` the two loops emit different attribute lines. -/
theorem c5_serialization_counterexample :
    addVariableVarLines [((("x").data), TfValue.vstr (("module.a.b").data))]
      = Except.ok (("\n  x = \"module.a.b\"").data)
    ∧ addModuleVarLines [((("x").data), TfValue.vstr (("module.a.b").data))]
      = Except.ok (("\n  x = module.a.b").data)
    ∧ (("\n  x = \"module.a.b\"").data : Text) ≠ ("\n  x = module.a.b").data := by
  refine ⟨rfl, rfl, ?_⟩
  decide

/-- C5 amended.  The two serialization loops agree on booleans, numerics and
nested mappings (both raise on the latter), and on every string that does
not begin with `module.` or `var.`; hence for a variables map containing no
`module.`/`var.`-prefixed string value, the attribute lines emitted by
add_variable are textually identical to those of add_module. -/
theorem c5_serialization_agreement (vars : List (Text × TfValue))
    (h : ∀ p ∈ vars, ∀ s, p.2 = TfValue.vstr s →
      lit (("module.").data) s = none ∧ lit (("var.").data) s = none) :
    addVariableVarLines vars = addModuleVarLines vars := by
  induction vars with
  | nil => rfl
  | cons p rest ih =>
    have hrest := ih (fun q hq => h q (by simp [hq]))
    rcases p with ⟨n, v⟩
    cases v with
    | vstr s =>
      have hs := h (n, TfValue.vstr s) (by simp) s rfl
      simp only [addVariableVarLines, addModuleVarLines, hrest, hs.1, hs.2,
        Option.isSome_none, Bool.or_self, if_neg (Bool.false_ne_true)]
      cases addModuleVarLines rest with
      | error e => rfl
      | ok r => simp [Except.map]
    | vbool b => simp [addVariableVarLines, addModuleVarLines, hrest]
    | vdict => rfl
    | vother raw => simp [addVariableVarLines, addModuleVarLines, hrest]

theorem c5_serialization_agreement_witness :
    (∀ p ∈ [((("a").data), TfValue.vstr (("hello").data)),
            ((("b").data), TfValue.vbool true),
            ((("c").data), TfValue.vother (("42").data))], ∀ s, p.2 = TfValue.vstr s →
      lit (("module.").data) s = none ∧ lit (("var.").data) s = none)
    ∧ addVariableVarLines [((("a").data), TfValue.vstr (("hello").data)),
            ((("b").data), TfValue.vbool true),
            ((("c").data), TfValue.vother (("42").data))]
      = addModuleVarLines [((("a").data), TfValue.vstr (("hello").data)),
            ((("b").data), TfValue.vbool true),
            ((("c").data), TfValue.vother (("42").data))] := by
  have hh : ∀ p ∈ [((("a").data), TfValue.vstr (("hello").data)),
            ((("b").data), TfValue.vbool true),
            ((("c").data), TfValue.vother (("42").data))], ∀ s, p.2 = TfValue.vstr s →
      lit (("module.").data) s = none ∧ lit (("var.").data) s = none := by
    intro p hp s hs
    simp only [List.mem_cons, List.not_mem_nil, or_false] at hp
    rcases hp with rfl | rfl | rfl
    · have hse : TfValue.vstr (("hello").data) = TfValue.vstr s := hs
      have : s = ("hello").data := (TfValue.vstr.inj hse).symm
      subst this
      exact ⟨by decide, by decide⟩
    · exact absurd hs (by simp)
    · exact absurd hs (by simp)
  exact ⟨hh, c5_serialization_agreement _ hh⟩

/-- C2 counterexample.  The claim quantifies over every module block whose
source base matches a target, but the pattern of update_module_versions
(line 292) demands whitespace on both sides of the equals sign
(`source\s+\=\s+`).  A module written `source="example/module"` has the
matching base yet is returned unchanged, with no `ref=2.0.0` anywhere. -/
theorem c2_update_counterexample :
    updateModuleVersions (("module \"m\" \x7b\n  source=\"example/module\"\n\x7d").data)
        [((("example/module").data), (("2.0.0").data))]
      = (("module \"m\" \x7b\n  source=\"example/module\"\n\x7d").data)
    ∧ occursB (("ref=2.0.0").data)
        (updateModuleVersions (("module \"m\" \x7b\n  source=\"example/module\"\n\x7d").data)
          [((("example/module").data), (("2.0.0").data))]) = false := by
  constructor
  · rfl
  · decide

/-- C3 counterexample.  Idempotence fails when a version contains a quote:
the first pass writes `source = "s?ref=a"b"`, the second pass reads the
source back only up to the embedded quote (group `[^"]*`), believes the
current source is `s?ref=a`, and rewrites it again, growing the text. -/
theorem c3_idempotence_counterexample :
    updateModuleVersions
        (updateModuleVersions (("module \"m\" \x7b source = \"s\" \x7d").data)
          [((("s").data), (("a\"b").data))])
        [((("s").data), (("a\"b").data))]
      ≠ updateModuleVersions (("module \"m\" \x7b source = \"s\" \x7d").data)
          [((("s").data), (("a\"b").data))] := by
  decide

/-- C4 counterexample.  The round-trip fails when the input text already
contains a module with the same base source and a different version:
find_module returns the first match in file order, which is the pre-existing
module, so the version read back is `1`, not the `2` that was passed. -/
theorem c4_roundtrip_counterexample :
    addModule (("module \"old\" \x7b\n  source = \"s?ref=1\"\n\x7d").data)
        (("m").data) (("s").data) (("2").data) []
      = Except.ok (("module \"old\" \x7b\n  source = \"s?ref=1\"\n\x7d\nmodule \"m\" \x7b\n  source = \"s?ref=2\"\n\x7d\n").data)
    ∧ (findModule (("s").data)
        [(("module \"old\" \x7b\n  source = \"s?ref=1\"\n\x7d\nmodule \"m\" \x7b\n  source = \"s?ref=2\"\n\x7d\n").data)]).map ModuleRef.version
      = some (some (("1").data))
    ∧ (("1").data : Text) ≠ ("2").data := by
  refine ⟨rfl, by decide, by decide⟩

/-- C6 counterexample.  The claim says that whenever the named module occurs
(with a locatable closing brace) add_variable returns a text and does not
raise; but a nested-mapping variable value makes it raise
NotImplementedError even though the module is present. -/
theorem c6_add_variable_counterexample :
    addVariable (("module \"m\" \x7b\n\x7d").data) (("m").data)
        [((("d").data), TfValue.vdict)]
      = Except.error TfError.notImplemented := by
  rfl

/-- C9 counterexample.  has_module searches for a bare source-attribute
pattern, find_module additionally requires an enclosing module header; on a
file whose source attribute sits outside any module block, has is true while
find returns the not-found result, so has is not the boolean image of
find. -/
theorem c9_has_find_counterexample :
    hasModule (("s").data) [("x source = \"s\"").data]
      ≠ (findModule (("s").data) [("x source = \"s\"").data]).isSome := by
  decide

/-- C6 amended.  Hard failure of add_variable: when no position of the text
matches the module-header pattern for the target name, add_variable raises
NotFound with a message naming that module and returns no text; when the
header is found and its closing brace is locatable, and no variable value is
a nested mapping, it returns a text and does not raise. -/
theorem c6_add_variable_errors (name config : Text) (vars : List (Text × TfValue)) :
    (noHeaderB name config = true →
      addVariable config name vars
        = Except.error (.notFound (("Could not find module '").data ++ name
            ++ ("' in the Terraform configuration").data)))
    ∧ (∀ sk consumed rest endRel,
        findFirst (matchModuleHeader name) config = some (sk, (consumed, rest)) →
        findClose ('\x7b' :: rest) = some endRel →
        dictFreeB vars = true →
        ∃ out, addVariable config name vars = Except.ok out) := by
  constructor
  · intro h
    have hall := allSuffixesB_spec h
    have hnone : findFirst (matchModuleHeader name) config = none := by
      apply findFirst_eq_none
      intro u hu
      have := hall u hu
      simpa [Option.isNone_iff_eq_none] using this
    simp [addVariable, hnone]
  · intro sk consumed rest endRel hfind hclose hdict
    rcases addVariableVarLines_ok vars hdict with ⟨r, hr⟩
    simp only [addVariable, hfind, hclose, hr]
    exact ⟨_, rfl⟩

theorem c6_add_variable_errors_witness :
    (noHeaderB (("q").data) (("module \"m\" \x7b\n\x7d").data) = true
      ∧ addVariable (("module \"m\" \x7b\n\x7d").data) (("q").data)
          [((("x").data), TfValue.vstr (("1").data))]
        = Except.error (.notFound (("Could not find module '").data ++ ("q").data
            ++ ("' in the Terraform configuration").data)))
    ∧ (findFirst (matchModuleHeader (("m").data)) (("module \"m\" \x7b\n\x7d").data)
        = some ([], ((("module \"m\" \x7b").data), (("\n\x7d").data)))
      ∧ findClose ('\x7b' :: ("\n\x7d").data) = some 2
      ∧ dictFreeB [((("x").data), TfValue.vstr (("1").data))] = true
      ∧ ∃ out, addVariable (("module \"m\" \x7b\n\x7d").data) (("m").data)
          [((("x").data), TfValue.vstr (("1").data))] = Except.ok out) := by
  refine ⟨⟨by decide, ?_⟩, by decide, by decide, by decide, ?_⟩
  · exact (c6_add_variable_errors (("q").data) (("module \"m\" \x7b\n\x7d").data)
      [((("x").data), TfValue.vstr (("1").data))]).1 (by decide)
  · exact (c6_add_variable_errors (("m").data) (("module \"m\" \x7b\n\x7d").data)
      [((("x").data), TfValue.vstr (("1").data))]).2 [] (("module \"m\" \x7b").data)
      (("\n\x7d").data) 2 (by decide) (by decide) (by decide)

/-- The per-provider substitution matcher only fires at a position that
starts a `NAME\s*=\s*\x7b` provider entry. -/
theorem subProviderMatcher_implies_entry {name v u : Text} {a : Text × Text}
    (h : subProviderMatcher name v u = some a) : provEntryStartB name u = true := by
  unfold subProviderMatcher at h
  cases h1 : lit name u with
  | none => simp only [h1] at h; exact Option.noConfusion h
  | some t1 =>
    simp only [h1] at h
    cases h3 : lit ['='] (t1.dropWhile isPySpace) with
    | none => simp only [h3] at h; exact Option.noConfusion h
    | some t3 =>
      simp only [h3] at h
      cases h5 : lit ['\x7b'] (t3.dropWhile isPySpace) with
      | none => simp only [h5] at h; exact Option.noConfusion h
      | some t5 => simp [provEntryStartB, h1, h3, h5]

theorem noProvEntry_sub_id {name v blk : Text} (h : noProvEntryB name blk = true) :
    subAll (subProviderMatcher name v) blk = blk := by
  apply subAll_id
  intro u hu
  cases hm : subProviderMatcher name v u with
  | none => rfl
  | some a =>
    exfalso
    have hentry := subProviderMatcher_implies_entry hm
    have := allSuffixesB_spec h u hu
    rw [hentry] at this
    exact Bool.noConfusion this

/-- C10.  Implicit claim on update_provider_versions: when the text has a
required_providers block (whose closing brace the Locator finds), a target
whose `name = \x7b` entry does not occur in the block (as it stands when
that target is processed) is silently skipped — the output equals the output
for the map without it; and when no target has an entry, the output is the
input unchanged, so a provider entry is synthesized only in the
no-required_providers case. -/
theorem c10_provider_skip (config sk consumed rest : Text) (endRel : Nat)
    (hfind : findFirst reqProvMatcher config = some (sk, (consumed, rest)))
    (hclose : findClose ('\x7b' :: rest) = some endRel) :
    (∀ m1 m2 t, noProvEntryB t.1 (applyProvSubs m1 (consumed ++ rest.take endRel)) = true →
        updateProviderVersions config (m1 ++ t :: m2)
          = updateProviderVersions config (m1 ++ m2))
    ∧ (∀ m, (∀ p ∈ m, noProvEntryB p.1 (consumed ++ rest.take endRel) = true) →
        updateProviderVersions config m = config) := by
  have e1 : ∀ (ma mb : List (Text × Text)) (b : Text),
      applyProvSubs (ma ++ mb) b = applyProvSubs mb (applyProvSubs ma b) := by
    intro ma mb b
    simp [applyProvSubs, List.foldl_append]
  have e2 : ∀ (p : Text × Text) (mm : List (Text × Text)) (b : Text),
      applyProvSubs (p :: mm) b = applyProvSubs mm (subAll (subProviderMatcher p.1 p.2) b) :=
    fun _ _ _ => rfl
  constructor
  · intro m1 m2 t habsent
    have hfold : applyProvSubs (m1 ++ t :: m2) (consumed ++ rest.take endRel)
        = applyProvSubs (m1 ++ m2) (consumed ++ rest.take endRel) := by
      rw [e1 m1 (t :: m2), e2 t m2, noProvEntry_sub_id habsent, ← e1 m1 m2]
    simp only [updateProviderVersions, hfind, hclose]
    show replaceAll _ (applyProvSubs (m1 ++ t :: m2) _) config
      = replaceAll _ (applyProvSubs (m1 ++ m2) _) config
    rw [hfold]
  · intro m hm
    have hfold : ∀ mm, (∀ p ∈ mm, noProvEntryB p.1 (consumed ++ rest.take endRel) = true) →
        applyProvSubs mm (consumed ++ rest.take endRel)
          = consumed ++ rest.take endRel := by
      intro mm
      induction mm with
      | nil => intro _; rfl
      | cons p ps ih =>
        intro hmm
        have hp := hmm p (by simp)
        have hps : ∀ q ∈ ps, noProvEntryB q.1 (consumed ++ rest.take endRel) = true := by
          intro q hq
          exact hmm q (by simp [hq])
        rw [e2 p ps, noProvEntry_sub_id hp]
        exact ih hps
    simp only [updateProviderVersions, hfind, hclose]
    show replaceAll _ (applyProvSubs m _) config = config
    rw [hfold m hm]
    exact replaceAll_self _ _

theorem c10_provider_skip_witness :
    (findFirst reqProvMatcher
        (("terraform \x7b\n  required_providers \x7b\n    aws = \x7b\n      version = \"4.0.0\"\n    \x7d\n  \x7d\n\x7d\n").data)
      = some ((("terraform \x7b\n  ").data), ((("required_providers \x7b").data),
          (("\n    aws = \x7b\n      version = \"4.0.0\"\n    \x7d\n  \x7d\n\x7d\n").data)))
      ∧ findClose ('\x7b' :: ("\n    aws = \x7b\n      version = \"4.0.0\"\n    \x7d\n  \x7d\n\x7d\n").data) = some 46
      ∧ noProvEntryB (("vy").data)
          (applyProvSubs [((("aws").data), (("5.0.0").data))]
            ((("required_providers \x7b").data)
              ++ (("\n    aws = \x7b\n      version = \"4.0.0\"\n    \x7d\n  \x7d\n\x7d\n").data).take 46)) = true
      ∧ updateProviderVersions
          (("terraform \x7b\n  required_providers \x7b\n    aws = \x7b\n      version = \"4.0.0\"\n    \x7d\n  \x7d\n\x7d\n").data)
          ([((("aws").data), (("5.0.0").data))] ++ ((("vy").data), (("1.0.0").data)) :: [])
        = updateProviderVersions
          (("terraform \x7b\n  required_providers \x7b\n    aws = \x7b\n      version = \"4.0.0\"\n    \x7d\n  \x7d\n\x7d\n").data)
          ([((("aws").data), (("5.0.0").data))] ++ []))
    ∧ ((∀ p ∈ [((("vy").data : Text), (("1.0.0").data : Text))],
          noProvEntryB p.1 ((("required_providers \x7b").data)
            ++ (("\n    aws = \x7b\n      version = \"4.0.0\"\n    \x7d\n  \x7d\n\x7d\n").data).take 46) = true)
      ∧ updateProviderVersions
          (("terraform \x7b\n  required_providers \x7b\n    aws = \x7b\n      version = \"4.0.0\"\n    \x7d\n  \x7d\n\x7d\n").data)
          [((("vy").data), (("1.0.0").data))]
        = (("terraform \x7b\n  required_providers \x7b\n    aws = \x7b\n      version = \"4.0.0\"\n    \x7d\n  \x7d\n\x7d\n").data)) := by
  refine ⟨⟨by decide, by decide, by decide, ?_⟩, by decide, ?_⟩
  · exact (c10_provider_skip
      (("terraform \x7b\n  required_providers \x7b\n    aws = \x7b\n      version = \"4.0.0\"\n    \x7d\n  \x7d\n\x7d\n").data)
      (("terraform \x7b\n  ").data) (("required_providers \x7b").data)
      (("\n    aws = \x7b\n      version = \"4.0.0\"\n    \x7d\n  \x7d\n\x7d\n").data) 46
      (by decide) (by decide)).1
      [((("aws").data), (("5.0.0").data))] [] ((("vy").data), (("1.0.0").data)) (by decide)
  · exact (c10_provider_skip
      (("terraform \x7b\n  required_providers \x7b\n    aws = \x7b\n      version = \"4.0.0\"\n    \x7d\n  \x7d\n\x7d\n").data)
      (("terraform \x7b\n  ").data) (("required_providers \x7b").data)
      (("\n    aws = \x7b\n      version = \"4.0.0\"\n    \x7d\n  \x7d\n\x7d\n").data) 46
      (by decide) (by decide)).2
      [((("vy").data), (("1.0.0").data))] (by decide)

theorem matchHeaderCapture_rest_suffix {s hdr nm r6 : Text}
    (h : matchHeaderCapture s = some (hdr, nm, r6)) : r6 <:+ s := by
  unfold matchHeaderCapture at h
  cases h1 : lit kwModule s with
  | none => simp only [h1] at h; exact Option.noConfusion h
  | some r1 =>
    simp only [h1] at h
    cases h2 : spaces1 r1 with
    | none => simp only [h2] at h; exact Option.noConfusion h
    | some p2 =>
      rcases p2 with ⟨w1, r2⟩
      simp only [h2] at h
      cases h3 : lit ['"'] r2 with
      | none => simp only [h3] at h; exact Option.noConfusion h
      | some r3 =>
        simp only [h3] at h
        cases h4 : scanToChar '"' r3 with
        | none => simp only [h4] at h; exact Option.noConfusion h
        | some p4 =>
          rcases p4 with ⟨nm', r4⟩
          simp only [h4] at h
          by_cases hnm : nm' = []
          · rw [if_pos hnm] at h
            exact Option.noConfusion h
          · rw [if_neg hnm] at h
            cases h5 : spaces1 r4 with
            | none => simp only [h5] at h; exact Option.noConfusion h
            | some p5 =>
              rcases p5 with ⟨w2, r5⟩
              simp only [h5] at h
              cases h6 : lit ['\x7b'] r5 with
              | none => simp only [h6] at h; exact Option.noConfusion h
              | some r6' =>
                simp only [h6] at h
                have hr : r6 = r6' := by
                  have := Option.some.inj h
                  exact (congrArg (fun t => t.2.2) this).symm
                subst hr
                exact (((((lit_suffix h6).trans (spaces1_suffix h5)).trans
                  (scanToChar_suffix h4)).trans (lit_suffix h3)).trans
                  (spaces1_suffix h2)).trans (lit_suffix h1)

theorem tlTail_suffix {v r : Text} (h : tlTail v = some r) : r <:+ v := by
  unfold tlTail at h
  cases h1 : lit ['\x7d'] v with
  | none => simp only [h1] at h; exact Option.noConfusion h
  | some t1 =>
    simp only [h1] at h
    by_cases hl : tlLookahead t1
    · rw [if_pos hl] at h
      rw [← Option.some.inj h]
      exact lit_suffix h1
    · rw [if_neg hl] at h
      exact Option.noConfusion h

theorem matchModuleTL_rest_suffix {s : Text} {a : Text × (Text × Text) × Text}
    (h : matchModuleTL s = some a) : a.2.2 <:+ s := by
  unfold matchModuleTL at h
  cases h1 : matchHeaderCapture s with
  | none => simp only [h1] at h; exact Option.noConfusion h
  | some trip =>
    rcases trip with ⟨hdr, nm, r6⟩
    simp only [h1] at h
    cases h2 : lazyScan (fun _ => false) tlTail r6 with
    | none => simp only [h2] at h; exact Option.noConfusion h
    | some p =>
      rcases p with ⟨content, r7⟩
      simp only [h2] at h
      have ha : a.2.2 = r7 := by
        have := Option.some.inj h
        exact (congrArg (fun t => t.2.2) this).symm
      rw [ha]
      rcases lazyScan_some_spec h2 with ⟨v, hv, htv, _, _⟩
      have hr7 : r7 <:+ v := tlTail_suffix htv
      have hv6 : v <:+ r6 := ⟨content, hv.symm⟩
      exact (hr7.trans hv6).trans (matchHeaderCapture_rest_suffix h1)

/-- C8.  Soft failure of add_test_listener_to_ecs_module: whenever, at every
position where the module pattern matches, the module is not an ECS module,
or has no lb_listeners array, or already contains test_listener_arn, the
function returns its input text exactly; being a total function into texts
it never raises. -/
theorem c8_test_listener_soft_fail (config name : Text)
    (h : tlSkipAllB config = true) :
    addTestListener config name = config := by
  suffices hgo : ∀ (fuel : Nat) (s : Text), s <:+ config →
      addTestListenerGo name config fuel s = config by
    exact hgo (config.length + 1) config (List.suffix_refl _)
  intro fuel
  induction fuel with
  | zero => intro s _; rfl
  | succ n ih =>
    intro s hs
    unfold addTestListenerGo
    cases hf : findFirst matchModuleTL s with
    | none => rfl
    | some p =>
      rcases p with ⟨sk, ⟨orig, ⟨nm, content⟩, rest⟩⟩
      rcases findFirst_some_spec hf with ⟨u, hsu, hmu, _⟩
      have hus : u <:+ s := ⟨sk, hsu.symm⟩
      have hu : u <:+ config := hus.trans hs
      have hskip := allSuffixesB_spec h u hu
      have hrest : rest <:+ u :=
        matchModuleTL_rest_suffix (a := (orig, (nm, content), rest)) hmu
      have hrc : rest <:+ config := (hrest.trans hus).trans hs
      have hrec := ih rest hrc
      simp only [tlSkipAtB, hmu] at hskip
      cases hecs : hasEcsSourceB content with
      | false => simp [hecs, hrec]
      | true =>
        rw [hecs] at hskip
        cases hlb : findFirst matchLbStart content with
        | none => simp [hecs, hlb, hrec]
        | some q =>
          rcases q with ⟨sklb, ⟨lbc, restLb⟩⟩
          rw [hlb] at hskip
          have hocc : occursB (("test_listener_arn").data) content = true := by
            simpa using hskip
          simp [hecs, hlb, hocc, hrec]

set_option maxRecDepth 100000 in
theorem c8_test_listener_soft_fail_witness :
    tlSkipAllB (("module \"ecs\" \x7b\n  source = \"github.com/nsbno/terraform-aws-ecs-service?ref=1\"\n  lb_listeners = [\x7b\n    test_listener_arn = x\n  \x7d]\n\x7d").data) = true
    ∧ addTestListener
        (("module \"ecs\" \x7b\n  source = \"github.com/nsbno/terraform-aws-ecs-service?ref=1\"\n  lb_listeners = [\x7b\n    test_listener_arn = x\n  \x7d]\n\x7d").data)
        (("meta").data)
      = (("module \"ecs\" \x7b\n  source = \"github.com/nsbno/terraform-aws-ecs-service?ref=1\"\n  lb_listeners = [\x7b\n    test_listener_arn = x\n  \x7d]\n\x7d").data) :=
  ⟨by decide, c8_test_listener_soft_fail _ (("meta").data) (by decide)⟩

theorem findTail_attr {base v : Text} {a : Option Text × Text}
    (h : findTail base v = some a) : (matchSourceAttrStar base v).isSome := by
  unfold findTail at h
  cases h1 : matchSourceAttrStar base v with
  | none => simp only [h1] at h; exact Option.noConfusion h
  | some p => simp

theorem matchModuleFind_attr {base s : Text} {a : ModuleRef × Text}
    (h : matchModuleFind base s = some a) :
    ∃ v, v <:+ s ∧ (matchSourceAttrStar base v).isSome := by
  unfold matchModuleFind at h
  cases h1 : matchHeaderCapture s with
  | none => simp only [h1] at h; exact Option.noConfusion h
  | some trip =>
    rcases trip with ⟨hdr, nm, r6⟩
    simp only [h1] at h
    cases h2 : lazyScan (· = '\x7d') (findTail base) (r6.dropWhile isPySpace) with
    | none => simp only [h2] at h; exact Option.noConfusion h
    | some p =>
      rcases p with ⟨sk, ⟨vo, r8⟩⟩
      rcases lazyScan_some_spec h2 with ⟨v, hv, htv, _, _⟩
      have hattr := findTail_attr htv
      have hv1 : v <:+ r6.dropWhile isPySpace := ⟨sk, hv.symm⟩
      have hv2 : (r6.dropWhile isPySpace) <:+ r6 := List.dropWhile_suffix _
      exact ⟨v, (hv1.trans hv2).trans (matchHeaderCapture_rest_suffix h1), hattr⟩

/-- C9 amended.  has_module returns true whenever find_module returns a
module reference: a successful find contains a successful source-attribute
match in some file, which is exactly what has_module searches for.  (The
converse fails, see the counterexample.) -/
theorem c9_find_implies_has (src : Text) (tree : List Text) (r : ModuleRef)
    (h : findModule src tree = some r) : hasModule src tree = true := by
  induction tree with
  | nil => exact Option.noConfusion h
  | cons c cs ih =>
    unfold findModule at h
    cases hf : findFirst (matchModuleFind (baseOf src)) c with
    | none =>
      rw [hf] at h
      have := ih h
      simp only [hasModule, List.any_cons, Bool.or_eq_true] at this ⊢
      exact Or.inr this
    | some p =>
      rcases p with ⟨sk, ⟨ref, rest⟩⟩
      rcases findFirst_some_spec hf with ⟨u, hcu, hmu, _⟩
      rcases matchModuleFind_attr hmu with ⟨v, hvu, hattr⟩
      rcases Option.isSome_iff_exists.mp hattr with ⟨⟨vo, t6⟩, ha⟩
      have hsome : (findFirst (matchSourceAttrStar (baseOf src)) c).isSome :=
        findFirst_isSome_of_suffix (hvu.trans ⟨sk, hcu.symm⟩) ha
      simp only [hasModule, List.any_cons, Bool.or_eq_true]
      exact Or.inl (by simpa [hasModuleContent] using hsome)

theorem c9_find_implies_has_witness :
    findModule (("s").data) [("module \"m\" \x7b\n  source = \"s?ref=2\"\n\x7d\n").data]
      = some { name := ("m").data, source := ("s?ref=2").data, version := some (("2").data) }
    ∧ hasModule (("s").data) [("module \"m\" \x7b\n  source = \"s?ref=2\"\n\x7d\n").data] = true :=
  ⟨by decide, c9_find_implies_has (("s").data)
    [("module \"m\" \x7b\n  source = \"s?ref=2\"\n\x7d\n").data]
    { name := ("m").data, source := ("s?ref=2").data, version := some (("2").data) }
    (by decide)⟩

/- ==================================================================
   Canonical-block development for the update/idempotence claims
   ================================================================== -/

theorem suffix_all {p : Char → Bool} {w l : Text} (hw : w <:+ l)
    (hl : l.all p = true) : w.all p = true := by
  apply List.all_eq_true.mpr
  intro c hc
  exact List.all_eq_true.mp hl c (hw.sublist.subset hc)

theorem occursB_exists {pat s : Text} (h : occursB pat s = true) :
    ∃ u, u <:+ s ∧ (lit pat u).isSome := by
  unfold occursB at h
  cases hf : findFirst (lit pat) s with
  | none => rw [hf] at h; exact Bool.noConfusion h
  | some p =>
    rcases p with ⟨sk, r⟩
    rcases findFirst_some_spec hf with ⟨u, hsu, hlit, _⟩
    exact ⟨u, ⟨sk, hsu.symm⟩, by simp [hlit]⟩

theorem occursB_false_mono {pat u l : Text} (hu : u <:+ l)
    (h : occursB pat l = false) : occursB pat u = false := by
  cases ho : occursB pat u with
  | false => rfl
  | true =>
    exfalso
    rcases occursB_exists ho with ⟨v, hvu, hlit⟩
    rw [occursB_suffix (hvu.trans hu) hlit] at h
    exact Bool.noConfusion h

/-- Generalized interior kill: a run of non-space characters followed by a
remainder whose head is neither whitespace nor a continuation character of
the keyword cannot start a keyword-plus-whitespace match. -/
theorem not_kwSpaceStart_nospace {kw w u : Text}
    (hw : ∀ c ∈ w, isPySpace c = false) (hne : w ≠ [])
    (hu : ∀ c, u.head? = some c → isPySpace c = false ∧ c ∉ kw.drop 1) :
    ¬ kwSpaceStart kw (w ++ u) := by
  rintro ⟨c, r, heq, hsp⟩
  rcases List.append_eq_append_iff.mp heq with ⟨k, hk1, hk2⟩ | ⟨k, hk1, hk2⟩
  · cases k with
    | nil =>
      have hu' : u = c :: r := by simpa using hk2
      have hc := hu c (by simp [hu'])
      rw [hc.1] at hsp
      exact Bool.noConfusion hsp
    | cons y ys =>
      have hyu : u.head? = some y := by simp [hk2]
      have hy := (hu y hyu).2
      apply hy
      cases w with
      | nil => exact absurd rfl hne
      | cons a as =>
        have : kw.drop 1 = as ++ y :: ys := by rw [hk1]; simp
        rw [this]
        simp
  · cases k with
    | nil =>
      have hu' : u = c :: r := by simpa using hk2.symm
      have hc := hu c (by simp [hu'])
      rw [hc.1] at hsp
      exact Bool.noConfusion hsp
    | cons y ys =>
      have hcy : c = y := by simpa using congrArg List.head? hk2
      have hyw : y ∈ w := by rw [hk1]; simp
      have := hw y hyw
      rw [hcy, this] at hsp
      exact Bool.noConfusion hsp

/-- Positions whose first character differs from the keyword's cannot start
a keyword match. -/
theorem head_kill {kw : Text} {c : Char} (hk : kw.head? = some c)
    {w rest : Text} (hw : w.head? ≠ some c) (hne : w ≠ []) :
    ¬ kwSpaceStart kw (w ++ rest) := by
  intro h
  have hh := kwSpaceStart_head hk h
  cases w with
  | nil => exact hne rfl
  | cons a as =>
    apply hw
    simpa using hh

theorem kwModule_head : kwModule.head? = some 'm' := by decide

theorem kwSource_head : kwSource.head? = some 's' := by decide

/-- Proper interior positions of a concrete text piece whose characters
never begin with `m` or `s` are dead for both keywords. -/
theorem concrete_piece_kill (piece : Text)
    (hd : allSuffixesB (fun w => w.isEmpty || (decide (w = piece))
      || (w.head? ≠ some 'm' && w.head? ≠ some 's')) piece = true) :
    ∀ w, w <:+ piece → w ≠ [] → w ≠ piece → ∀ rest,
      ¬ kwSpaceStart kwModule (w ++ rest) ∧ ¬ kwSpaceStart kwSource (w ++ rest) := by
  intro w hw hne hnp rest
  have hcheck := allSuffixesB_spec hd w hw
  simp only [Bool.or_eq_true, List.isEmpty_iff, decide_eq_true_eq,
    Bool.and_eq_true, decide_eq_true_eq] at hcheck
  rcases hcheck with (h1 | h2) | ⟨hm, hs⟩
  · exact absurd h1 hne
  · exact absurd h2 hnp
  · exact ⟨head_kill kwModule_head (by simpa using hm) hne,
      head_kill kwSource_head (by simpa using hs) hne⟩

theorem concrete_piece_kill_all (piece : Text)
    (hd : allSuffixesB (fun w => w.isEmpty
      || (w.head? ≠ some 'm' && w.head? ≠ some 's')) piece = true) :
    ∀ w, w <:+ piece → w ≠ [] → ∀ rest,
      ¬ kwSpaceStart kwModule (w ++ rest) ∧ ¬ kwSpaceStart kwSource (w ++ rest) := by
  intro w hw hne rest
  have hcheck := allSuffixesB_spec hd w hw
  simp only [Bool.or_eq_true, List.isEmpty_iff, Bool.and_eq_true,
    decide_eq_true_eq] at hcheck
  rcases hcheck with h1 | ⟨hm, hs⟩
  · exact absurd h1 hne
  · exact ⟨head_kill kwModule_head (by simpa using hm) hne,
      head_kill kwSource_head (by simpa using hs) hne⟩

/- Well-formedness projections. -/

theorem wf_parts {b : Block} (h : wfBlockB b = true) :
    b.name ≠ [] ∧ b.name.all plainChar = true
    ∧ goodBody b.pre = true ∧ goodBody b.post = true
    ∧ b.base ≠ [] ∧ b.base.all plainChar = true
    ∧ (∀ r, b.ref = some r → r.all plainChar = true) := by
  simp only [wfBlockB, Bool.and_eq_true, decide_eq_true_eq, ne_eq] at h
  rcases h with ⟨⟨⟨⟨⟨⟨h1, h2⟩, h3⟩, h4⟩, h5⟩, h6⟩, h7⟩
  refine ⟨h1, h2, h3, h4, h5, h6, ?_⟩
  intro r hr
  rw [hr] at h7
  exact h7

theorem good_parts {l : Text} (h : goodBody l = true) :
    (∀ c ∈ l, c ≠ '\x7d') ∧ occursB kwSource l = false ∧ occursB kwModule l = false := by
  simp only [goodBody, Bool.and_eq_true, List.all_eq_true, decide_eq_true_eq,
    Bool.not_eq_true'] at h
  exact ⟨h.1.1, h.1.2, h.2⟩

theorem renderSrcVal_nonspace {b : Block} (h : wfBlockB b = true) :
    ∀ c ∈ renderSrcVal b, isPySpace c = false := by
  rcases wf_parts h with ⟨_, _, _, _, _, hbase, href⟩
  intro c hc
  cases hrf : b.ref with
  | none =>
    simp only [renderSrcVal, hrf, List.append_nil] at hc
    exact plain_not_space (List.all_eq_true.mp hbase c hc)
  | some r =>
    simp only [renderSrcVal, hrf] at hc
    rcases List.mem_append.mp hc with hcb | hcr
    · exact plain_not_space (List.all_eq_true.mp hbase c hcb)
    · rcases List.mem_append.mp hcr with hk | hr
      · have hco : c = '?' ∨ c = 'r' ∨ c = 'e' ∨ c = 'f' ∨ c = '=' := by
          simpa [kwRefEq] using hk
        rcases hco with rfl | rfl | rfl | rfl | rfl <;> decide
      · exact plain_not_space (List.all_eq_true.mp (href r hrf) c hr)

theorem renderSrcVal_ne {b : Block} (h : wfBlockB b = true)
    {d : Char} (hd : plainChar d = false) (hd2 : d ∉ kwRefEq) :
    ∀ c ∈ renderSrcVal b, c ≠ d := by
  rcases wf_parts h with ⟨_, _, _, _, _, hbase, href⟩
  intro c hc
  cases hrf : b.ref with
  | none =>
    simp only [renderSrcVal, hrf, List.append_nil] at hc
    exact plain_ne (List.all_eq_true.mp hbase c hc) hd
  | some r =>
    simp only [renderSrcVal, hrf] at hc
    rcases List.mem_append.mp hc with hcb | hcr
    · exact plain_ne (List.all_eq_true.mp hbase c hcb) hd
    · rcases List.mem_append.mp hcr with hk | hr
      · intro he
        rw [he] at hk
        exact hd2 hk
      · exact plain_ne (List.all_eq_true.mp (href r hrf) c hr) hd

theorem suffix_singleton {c : Char} {w : Text} (h : w <:+ [c]) : w = [] ∨ w = [c] := by
  rcases h with ⟨p, hp⟩
  cases p with
  | nil => right; simpa using hp
  | cons x xs =>
    left
    have hl := congrArg List.length hp
    simp only [List.length_append, List.length_cons, List.length_nil] at hl
    have : w.length = 0 := by omega
    exact List.length_eq_zero.mp this

theorem suffix_nonspace_of_plain {w l : Text} (hw : w <:+ l)
    (hl : l.all plainChar = true) : ∀ c ∈ w, isPySpace c = false :=
  fun c hc => plain_not_space (List.all_eq_true.mp (suffix_all hw hl) c hc)

theorem renderBlock_decomp (b : Block) :
    renderBlock b = ("module \"").data
      ++ (b.name ++ (("\" \x7b").data ++ (b.pre ++ srcSuffix b))) := by
  simp [renderBlock, hdrText, List.append_assoc]

theorem srcSuffix_decomp (b : Block) :
    srcSuffix b = ("source = \"").data
      ++ (renderSrcVal b ++ (['"'] ++ (b.post ++ [('\x7d' : Char)]))) := by
  simp [srcSuffix]

/-- Interior-position classification for one canonical block: every nonempty
suffix of its text other than the whole block and the source-attribute tail
can start neither a `module`-plus-whitespace nor a `source`-plus-whitespace
match, whatever follows the block. -/
theorem renderBlock_pos_classify (b : Block) (hwf : wfBlockB b = true) :
    ∀ w, w <:+ renderBlock b → w ≠ [] → w ≠ renderBlock b → w ≠ srcSuffix b →
      ∀ rest, ¬ kwSpaceStart kwModule (w ++ rest) ∧ ¬ kwSpaceStart kwSource (w ++ rest) := by
  rcases wf_parts hwf with ⟨hname, hnamep, hpre, hpost, hbase, hbasep, _⟩
  rcases good_parts hpre with ⟨_, hpreS, hpreM⟩
  rcases good_parts hpost with ⟨_, hpostS, hpostM⟩
  intro w hw hne hnblock hnsrc rest
  rw [renderBlock_decomp] at hw
  rcases suffix_append_split hw with hw1 | ⟨w1, hw1, hne1, rfl⟩
  · -- inside the name and beyond
    rcases suffix_append_split hw1 with hw2 | ⟨w2, hw2, hne2, rfl⟩
    · -- inside `" \x7b` and beyond
      rcases suffix_append_split hw2 with hw3 | ⟨w3, hw3, hne3, rfl⟩
      · -- inside pre ++ srcSuffix
        rcases suffix_append_split hw3 with hw4 | ⟨w4, hw4, hne4, rfl⟩
        · -- inside srcSuffix
          rw [srcSuffix_decomp] at hw4
          rcases suffix_append_split hw4 with hw5 | ⟨w5, hw5, hne5, rfl⟩
          · -- inside the source value and beyond
            rcases suffix_append_split hw5 with hw6 | ⟨w6, hw6, hne6, rfl⟩
            · -- inside the closing quote, post, brace
              rcases suffix_append_split hw6 with hw7 | ⟨w7, hw7, hne7, rfl⟩
              · -- inside post ++ brace
                rcases suffix_append_split hw7 with hw8 | ⟨w8, hw8, hne8, rfl⟩
                · -- w <:+ ['}']
                  rcases suffix_singleton hw8 with rfl | rfl
                  · exact absurd rfl hne
                  · exact ⟨head_kill kwModule_head (by decide) (by simp),
                      head_kill kwSource_head (by decide) (by simp)⟩
                · -- w = w8 ++ ['}'], w8 nonempty suffix of post
                  rw [List.append_assoc]
                  constructor
                  · apply not_kwSpaceStart_nosub (occursB_false_mono hw8 hpostM) hne8
                    intro c hc
                    have hcc : '\x7d' = c := by simpa using hc
                    subst hcc
                    decide
                  · apply not_kwSpaceStart_nosub (occursB_false_mono hw8 hpostS) hne8
                    intro c hc
                    have hcc : '\x7d' = c := by simpa using hc
                    subst hcc
                    decide
              · -- w = w7 ++ (post ++ ['}']), w7 nonempty suffix of ['"']
                rcases suffix_singleton hw7 with rfl | rfl
                · exact absurd rfl hne7
                · rw [List.append_assoc]
                  exact ⟨head_kill kwModule_head (by decide) (by simp),
                    head_kill kwSource_head (by decide) (by simp)⟩
            · -- w = w6 ++ (quote ++ post ++ brace), w6 nonempty suffix of the value
              have hw6ns : ∀ c ∈ w6, isPySpace c = false :=
                fun c hc => renderSrcVal_nonspace hwf c (hw6.sublist.subset hc)
              rw [List.append_assoc]
              constructor
              · apply not_kwSpaceStart_nospace hw6ns hne6
                intro c hc
                have hcc : '"' = c := by simpa using hc
                subst hcc
                exact ⟨by decide, by decide⟩
              · apply not_kwSpaceStart_nospace hw6ns hne6
                intro c hc
                have hcc : '"' = c := by simpa using hc
                subst hcc
                exact ⟨by decide, by decide⟩
          · -- w = w5 ++ (value ++ quote ++ post ++ brace), w5 nonempty suffix of `source = "`
            by_cases hfull : w5 = ("source = \"").data
            · exfalso
              apply hnsrc
              rw [hfull, srcSuffix_decomp]
            · have hk := concrete_piece_kill (("source = \"").data) (by decide)
                w5 hw5 hne5 hfull
                ((renderSrcVal b ++ (['"'] ++ (b.post ++ [('\x7d' : Char)]))) ++ rest)
              rw [List.append_assoc]
              exact hk
        · -- w = w4 ++ srcSuffix, w4 nonempty suffix of pre
          rw [List.append_assoc]
          constructor
          · apply not_kwSpaceStart_nosub (occursB_false_mono hw4 hpreM) hne4
            intro c hc
            have hcc : 's' = c := by
              rw [srcSuffix_decomp] at hc
              simpa using hc
            subst hcc
            decide
          · apply not_kwSpaceStart_nosub (occursB_false_mono hw4 hpreS) hne4
            intro c hc
            have hcc : 's' = c := by
              rw [srcSuffix_decomp] at hc
              simpa using hc
            subst hcc
            decide
      · -- w = w3 ++ (pre ++ srcSuffix), w3 nonempty suffix of `" \x7b`
        have hk := concrete_piece_kill_all (("\" \x7b").data) (by decide) w3 hw3 hne3
          ((b.pre ++ srcSuffix b) ++ rest)
        rw [List.append_assoc]
        exact hk
    · -- w = w2 ++ (`" \x7b` ++ pre ++ srcSuffix), w2 nonempty suffix of the name
      have hw2ns : ∀ c ∈ w2, isPySpace c = false := suffix_nonspace_of_plain hw2 hnamep
      rw [List.append_assoc]
      constructor
      · apply not_kwSpaceStart_nospace hw2ns hne2
        intro c hc
        have hcc : '"' = c := by simpa using hc
        subst hcc
        exact ⟨by decide, by decide⟩
      · apply not_kwSpaceStart_nospace hw2ns hne2
        intro c hc
        have hcc : '"' = c := by simpa using hc
        subst hcc
        exact ⟨by decide, by decide⟩
  · -- w = w1 ++ (name ++ ...), w1 nonempty suffix of `module "`
    by_cases hfull : w1 = ("module \"").data
    · exfalso
      apply hnblock
      rw [hfull, renderBlock_decomp]
    · have hk := concrete_piece_kill (("module \"").data) (by decide) w1 hw1 hne1 hfull
        ((b.name ++ (("\" \x7b").data ++ (b.pre ++ srcSuffix b))) ++ rest)
      rw [List.append_assoc]
      exact hk

/- ==================================================================
   Matcher computation on canonical blocks
   ================================================================== -/

theorem lit_cons_ne {a c : Char} {ps cs : Text} (h : c ≠ a) :
    lit (a :: ps) (c :: cs) = none := by
  simp [lit, h]

theorem spaces1_inv {s w r : Text} (h : spaces1 s = some (w, r)) :
    ∃ c cs, s = c :: cs ∧ isPySpace c = true := by
  cases s with
  | nil => exact Option.noConfusion h
  | cons c cs =>
    by_cases hc : isPySpace c = true
    · exact ⟨c, cs, rfl, hc⟩
    · simp only [spaces1, if_neg hc] at h
      exact Option.noConfusion h

theorem matchHeaderCapture_kws {s : Text} {a : Text × Text × Text}
    (h : matchHeaderCapture s = some a) : kwSpaceStart kwModule s := by
  unfold matchHeaderCapture at h
  cases h1 : lit kwModule s with
  | none => simp only [h1] at h; exact Option.noConfusion h
  | some r1 =>
    simp only [h1] at h
    cases h2 : spaces1 r1 with
    | none => simp only [h2] at h; exact Option.noConfusion h
    | some p =>
      rcases spaces1_inv h2 with ⟨c, cs, hr1, hc⟩
      exact ⟨c, cs, by rw [lit_eq_some_iff.mp h1, hr1], hc⟩

theorem updTail_kws {base t : Text} {a : Text × Text × Text × Text}
    (h : updTail base t = some a) : kwSpaceStart kwSource t := by
  unfold updTail at h
  cases h1 : lit kwSource t with
  | none => simp only [h1] at h; exact Option.noConfusion h
  | some t1 =>
    simp only [h1] at h
    cases h2 : spaces1 t1 with
    | none => simp only [h2] at h; exact Option.noConfusion h
    | some p =>
      rcases spaces1_inv h2 with ⟨c, cs, ht1, hc⟩
      exact ⟨c, cs, by rw [lit_eq_some_iff.mp h1, ht1], hc⟩

theorem subSourceMatcher_kws {cur new t : Text} {a : Text × Text}
    (h : subSourceMatcher cur new t = some a) : kwSpaceStart kwSource t := by
  unfold subSourceMatcher at h
  cases h1 : lit kwSource t with
  | none => simp only [h1] at h; exact Option.noConfusion h
  | some t1 =>
    simp only [h1] at h
    cases h2 : spaces1 t1 with
    | none => simp only [h2] at h; exact Option.noConfusion h
    | some p =>
      rcases spaces1_inv h2 with ⟨c, cs, ht1, hc⟩
      exact ⟨c, cs, by rw [lit_eq_some_iff.mp h1, ht1], hc⟩

theorem matchModuleUpd_kws {base s : Text} {a : Text × Text × Text}
    (h : matchModuleUpd base s = some a) : kwSpaceStart kwModule s := by
  unfold matchModuleUpd at h
  cases h1 : matchHeaderCapture s with
  | none => simp only [h1] at h; exact Option.noConfusion h
  | some p => exact matchHeaderCapture_kws h1

theorem updTail_dead {base t : Text} (h : ¬ kwSpaceStart kwSource t) :
    updTail base t = none := by
  cases hu : updTail base t with
  | none => rfl
  | some a => exact absurd (updTail_kws hu) h

theorem subSourceMatcher_dead {cur new t : Text} (h : ¬ kwSpaceStart kwSource t) :
    subSourceMatcher cur new t = none := by
  cases hu : subSourceMatcher cur new t with
  | none => rfl
  | some a => exact absurd (subSourceMatcher_kws hu) h

theorem matchHeaderCapture_dead {t : Text} (h : ¬ kwSpaceStart kwModule t) :
    matchHeaderCapture t = none := by
  cases hu : matchHeaderCapture t with
  | none => rfl
  | some a => exact absurd (matchHeaderCapture_kws hu) h

theorem matchModuleUpd_dead {base t : Text} (h : ¬ kwSpaceStart kwModule t) :
    matchModuleUpd base t = none := by
  cases hu : matchModuleUpd base t with
  | none => rfl
  | some a => exact absurd (matchModuleUpd_kws hu) h

/- Concrete decompositions of the literal pieces. -/

theorem srcHdr_eq : ("source = \"").data = kwSource ++ ' ' :: '=' :: ' ' :: ['"'] := by decide

theorem modHdr_eq : ("module \"").data = kwModule ++ ' ' :: ['"'] := by decide

theorem hdrClose_eq : ("\" \x7b").data = '"' :: ' ' :: ['\x7b'] := by decide

theorem kwRefEq_cons : kwRefEq = '?' :: ("ref=").data := by decide

theorem kwSource_chars : kwSource = ("source").data := rfl

theorem kwModule_chars : kwModule = ("module").data := rfl

theorem matchSrcValue_self {b : Block} (hwf : wfBlockB b = true) (X : Text) :
    matchSrcValue b.base (renderSrcVal b ++ '"' :: X) = some (b.ref, X) := by
  rcases wf_parts hwf with ⟨_, _, _, _, _, _, href⟩
  cases hrf : b.ref with
  | none =>
    have hv : renderSrcVal b ++ '"' :: X = b.base ++ '"' :: X := by
      simp [renderSrcVal, hrf]
    have h1 : lit kwRefEq ('"' :: X) = none := by
      rw [kwRefEq_cons]; exact lit_cons_ne (by decide)
    have h2 : lit ['"'] ('"' :: X) = some X := by simp [lit]
    rw [hv]
    simp only [matchSrcValue, lit_self_append, h1, h2]
  | some r =>
    have hv : renderSrcVal b ++ '"' :: X = b.base ++ (kwRefEq ++ (r ++ '"' :: X)) := by
      simp [renderSrcVal, hrf]
    have hr : ∀ c ∈ r, c ≠ '"' := fun c hc =>
      plain_ne (List.all_eq_true.mp (href r hrf) c hc) (by decide)
    rw [hv]
    simp only [matchSrcValue, lit_self_append, scanToChar_exact r X hr]

theorem matchSrcValue_mismatch {b : Block} (hwf : wfBlockB b = true)
    {base : Text} (hq : '?' ∉ base) (hquo : '"' ∉ base)
    (hne : base ≠ b.base) (X : Text) :
    matchSrcValue base (renderSrcVal b ++ '"' :: X) = none := by
  rcases wf_parts hwf with ⟨_, _, _, _, _, hbase, href⟩
  cases hlit : lit base (renderSrcVal b ++ '"' :: X) with
  | none => simp only [matchSrcValue, hlit]
  | some t1 =>
    have hs : renderSrcVal b ++ '"' :: X = base ++ t1 := lit_eq_some_iff.mp hlit
    by_cases hlen : base.length ≤ (renderSrcVal b).length
    · have hpr : base <+: renderSrcVal b :=
        List.prefix_of_prefix_length_le ⟨t1, hs.symm⟩ (List.prefix_append _ _) hlen
      rcases hpr with ⟨w2, hw2⟩
      have ht1 : t1 = w2 ++ '"' :: X := by
        have h0 : base ++ (w2 ++ '"' :: X) = base ++ t1 := by
          rw [← List.append_assoc, hw2]; exact hs
        exact (List.append_cancel_left h0).symm
      cases w2 with
      | nil =>
        have hbv : base = renderSrcVal b := by simpa using hw2
        cases hrf : b.ref with
        | none =>
          apply absurd _ hne
          rw [hbv]
          simp [renderSrcVal, hrf]
        | some r =>
          exfalso
          apply hq
          rw [hbv]
          simp [renderSrcVal, hrf, kwRefEq_cons]
      | cons c w2' =>
        have hcv : c ∈ renderSrcVal b := by
          rw [← hw2]; simp
        have hcq : c ≠ '"' := renderSrcVal_ne hwf (by decide) (by decide) c hcv
        have hcqq : c ≠ '?' := by
          intro hc
          subst hc
          cases hrf : b.ref with
          | none =>
            have hvb : renderSrcVal b = b.base := by simp [renderSrcVal, hrf]
            rw [hvb] at hcv
            exact absurd (List.all_eq_true.mp hbase _ hcv) (by decide)
          | some r =>
            have hv2 : renderSrcVal b = b.base ++ '?' :: (("ref=").data ++ r) := by
              simp [renderSrcVal, hrf, kwRefEq_cons]
            have heq : base ++ '?' :: w2' = b.base ++ '?' :: (("ref=").data ++ r) := by
              rw [← hv2, ← hw2]
            have h1 : ∀ d ∈ base, d ≠ '?' := fun d hd he => hq (he ▸ hd)
            have h2 : ∀ d ∈ b.base, d ≠ '?' := fun d hd =>
              plain_ne (List.all_eq_true.mp hbase d hd) (by decide)
            exact hne (delim_eq h1 h2 heq).1
        have e1 : lit kwRefEq t1 = none := by
          rw [ht1, kwRefEq_cons]
          simp only [List.cons_append]
          exact lit_cons_ne hcqq
        have e2 : lit ['"'] t1 = none := by
          rw [ht1]
          simp only [List.cons_append]
          exact lit_cons_ne hcq
        simp only [matchSrcValue, hlit, e1, e2]
    · push_neg at hlen
      have hpr : renderSrcVal b <+: base :=
        List.prefix_of_prefix_length_le (List.prefix_append _ _) ⟨t1, hs.symm⟩ (le_of_lt hlen)
      rcases hpr with ⟨w2, hw2⟩
      cases w2 with
      | nil =>
        exfalso
        rw [← hw2] at hlen
        simp at hlen
      | cons c w2' =>
        exfalso
        have hshape : '"' :: X = c :: (w2' ++ t1) := by
          have h0 : renderSrcVal b ++ '"' :: X = renderSrcVal b ++ (c :: (w2' ++ t1)) := by
            rw [hs, ← hw2]
            simp
          exact List.append_cancel_left h0
        have hc : c = '"' := by
          have := congrArg List.head? hshape
          simpa using this.symm
        apply hquo
        rw [← hw2, hc]
        simp

theorem srcSuffix_eq (b : Block) (rest : Text) :
    srcSuffix b ++ rest
      = kwSource ++ ' ' :: '=' :: ' ' :: '"' ::
          (renderSrcVal b ++ '"' :: (b.post ++ '\x7d' :: rest)) := by
  rw [srcSuffix_decomp, srcHdr_eq]
  simp

theorem updTail_self {b : Block} (hwf : wfBlockB b = true) (rest : Text) :
    updTail b.base (srcSuffix b ++ rest)
      = some (("source = \"").data ++ renderSrcVal b ++ ['"'], renderSrcVal b, b.post, rest) := by
  rcases wf_parts hwf with ⟨_, _, _, hpost, _, _, _⟩
  have hpostne : ∀ c ∈ b.post, c ≠ '\x7d' := (good_parts hpost).1
  have s1 : spaces1 (' ' :: '=' :: ' ' :: '"' :: (renderSrcVal b ++ '"' :: (b.post ++ '\x7d' :: rest)))
      = some ([' '], '=' :: ' ' :: '"' :: (renderSrcVal b ++ '"' :: (b.post ++ '\x7d' :: rest))) :=
    spaces1_space_nonspace (by decide) (by decide)
  have l1 : lit ['='] ('=' :: ' ' :: '"' :: (renderSrcVal b ++ '"' :: (b.post ++ '\x7d' :: rest)))
      = some (' ' :: '"' :: (renderSrcVal b ++ '"' :: (b.post ++ '\x7d' :: rest))) := by
    simp [lit]
  have s2 : spaces1 (' ' :: '"' :: (renderSrcVal b ++ '"' :: (b.post ++ '\x7d' :: rest)))
      = some ([' '], '"' :: (renderSrcVal b ++ '"' :: (b.post ++ '\x7d' :: rest))) :=
    spaces1_space_nonspace (by decide) (by decide)
  have l2 : lit ['"'] ('"' :: (renderSrcVal b ++ '"' :: (b.post ++ '\x7d' :: rest)))
      = some (renderSrcVal b ++ '"' :: (b.post ++ '\x7d' :: rest)) := by
    simp [lit]
  have mv := matchSrcValue_self hwf (b.post ++ '\x7d' :: rest)
  have sc : scanToChar '\x7d' (b.post ++ '\x7d' :: rest) = some (b.post, rest) :=
    scanToChar_exact _ _ hpostne
  rw [srcSuffix_eq]
  unfold updTail
  simp only [lit_self_append, s1, l1, s2, l2, mv, sc]
  cases hrf : b.ref with
  | none => simp [srcHdr_eq, renderSrcVal, hrf, kwSource]
  | some r => simp [srcHdr_eq, renderSrcVal, hrf, kwSource]

theorem updTail_mismatch {b : Block} (hwf : wfBlockB b = true)
    {base : Text} (hq : '?' ∉ base) (hquo : '"' ∉ base)
    (hne : base ≠ b.base) (rest : Text) :
    updTail base (srcSuffix b ++ rest) = none := by
  have s1 : spaces1 (' ' :: '=' :: ' ' :: '"' :: (renderSrcVal b ++ '"' :: (b.post ++ '\x7d' :: rest)))
      = some ([' '], '=' :: ' ' :: '"' :: (renderSrcVal b ++ '"' :: (b.post ++ '\x7d' :: rest))) :=
    spaces1_space_nonspace (by decide) (by decide)
  have l1 : lit ['='] ('=' :: ' ' :: '"' :: (renderSrcVal b ++ '"' :: (b.post ++ '\x7d' :: rest)))
      = some (' ' :: '"' :: (renderSrcVal b ++ '"' :: (b.post ++ '\x7d' :: rest))) := by
    simp [lit]
  have s2 : spaces1 (' ' :: '"' :: (renderSrcVal b ++ '"' :: (b.post ++ '\x7d' :: rest)))
      = some ([' '], '"' :: (renderSrcVal b ++ '"' :: (b.post ++ '\x7d' :: rest))) :=
    spaces1_space_nonspace (by decide) (by decide)
  have l2 : lit ['"'] ('"' :: (renderSrcVal b ++ '"' :: (b.post ++ '\x7d' :: rest)))
      = some (renderSrcVal b ++ '"' :: (b.post ++ '\x7d' :: rest)) := by
    simp [lit]
  have mv := matchSrcValue_mismatch hwf hq hquo hne (b.post ++ '\x7d' :: rest)
  rw [srcSuffix_eq]
  unfold updTail
  simp only [lit_self_append, s1, l1, s2, l2, mv]

theorem hdrText_eq (b : Block) (rest : Text) :
    hdrText b ++ rest
      = kwModule ++ ' ' :: '"' :: (b.name ++ '"' :: ' ' :: '\x7b' :: rest) := by
  simp only [hdrText, modHdr_eq, hdrClose_eq]
  simp [kwModule]

theorem matchHeaderCapture_self {b : Block} (hwf : wfBlockB b = true) (rest : Text) :
    matchHeaderCapture (renderBlock b ++ rest)
      = some (hdrText b, b.name, b.pre ++ (srcSuffix b ++ rest)) := by
  rcases wf_parts hwf with ⟨hne, hname, _, _, _, _, _⟩
  have hnq : ∀ c ∈ b.name, c ≠ '"' := fun c hc =>
    plain_ne (List.all_eq_true.mp hname c hc) (by decide)
  have hrb : renderBlock b ++ rest
      = kwModule ++ ' ' :: '"' :: (b.name ++ '"' :: ' ' :: '\x7b' :: (b.pre ++ (srcSuffix b ++ rest))) := by
    have h0 : renderBlock b ++ rest = hdrText b ++ (b.pre ++ (srcSuffix b ++ rest)) := by
      simp [renderBlock]
    rw [h0, hdrText_eq]
  have s1 : spaces1 (' ' :: '"' :: (b.name ++ '"' :: ' ' :: '\x7b' :: (b.pre ++ (srcSuffix b ++ rest))))
      = some ([' '], '"' :: (b.name ++ '"' :: ' ' :: '\x7b' :: (b.pre ++ (srcSuffix b ++ rest)))) :=
    spaces1_space_nonspace (by decide) (by decide)
  have l1 : lit ['"'] ('"' :: (b.name ++ '"' :: ' ' :: '\x7b' :: (b.pre ++ (srcSuffix b ++ rest))))
      = some (b.name ++ '"' :: ' ' :: '\x7b' :: (b.pre ++ (srcSuffix b ++ rest))) := by
    simp [lit]
  have sc : scanToChar '"' (b.name ++ '"' :: ' ' :: '\x7b' :: (b.pre ++ (srcSuffix b ++ rest)))
      = some (b.name, ' ' :: '\x7b' :: (b.pre ++ (srcSuffix b ++ rest))) :=
    scanToChar_exact _ _ hnq
  have s2 : spaces1 (' ' :: '\x7b' :: (b.pre ++ (srcSuffix b ++ rest)))
      = some ([' '], '\x7b' :: (b.pre ++ (srcSuffix b ++ rest))) :=
    spaces1_space_nonspace (by decide) (by decide)
  have l2 : lit ['\x7b'] ('\x7b' :: (b.pre ++ (srcSuffix b ++ rest)))
      = some (b.pre ++ (srcSuffix b ++ rest)) := by
    simp [lit]
  rw [hrb]
  unfold matchHeaderCapture
  simp only [lit_self_append, s1, l1, sc, if_neg hne, s2, l2]
  have hhdr : kwModule ++ [' '] ++ '"' :: b.name ++ '"' :: [' '] ++ ['\x7b'] = hdrText b := by
    simp only [hdrText, modHdr_eq, hdrClose_eq]
    simp [kwModule]
  rw [hhdr]

/- ==================================================================
   matchModuleUpd on whole canonical blocks
   ================================================================== -/

theorem renderBlock_eq_cons (b : Block) (rest : Text) :
    renderBlock b ++ rest
      = kwModule ++ ' ' :: '"' :: (b.name ++ '"' :: ' ' :: '\x7b' :: (b.pre ++ (srcSuffix b ++ rest))) := by
  have h0 : renderBlock b ++ rest = hdrText b ++ (b.pre ++ (srcSuffix b ++ rest)) := by
    simp [renderBlock]
  rw [h0, hdrText_eq]

theorem renderBlock_kws (b : Block) (r : Text) :
    kwSpaceStart kwModule (renderBlock b ++ r) :=
  ⟨' ', '"' :: (b.name ++ '"' :: ' ' :: '\x7b' :: (b.pre ++ (srcSuffix b ++ r))),
    renderBlock_eq_cons b r, by decide⟩

theorem renderBlock_ne_nil (b : Block) : renderBlock b ≠ [] := by
  intro h
  have h0 := renderBlock_eq_cons b []
  rw [List.append_nil] at h0
  rw [h] at h0
  rw [kwModule_chars] at h0
  exact List.noConfusion h0

theorem srcSuffix_append_head (b : Block) (r : Text) :
    (srcSuffix b ++ r).head? = some 's' := by
  rw [srcSuffix_eq, kwSource_chars]
  rfl

theorem hdrText_len (b : Block) : (hdrText b).length = b.name.length + 11 := by
  have h1 : ("module \"").data.length = 8 := by decide
  have h2 : ("\" \x7b").data.length = 3 := by decide
  simp [hdrText, h1, h2]

theorem matchModuleUpd_match {b : Block} (hwf : wfBlockB b = true) (rest : Text) :
    matchModuleUpd b.base (renderBlock b ++ rest)
      = some (renderBlock b, renderSrcVal b, rest) := by
  rcases wf_parts hwf with ⟨_, _, hpre, _, _, _, _⟩
  have hls : lazyScan (fun c => c = '\x7d') (updTail b.base) (b.pre ++ (srcSuffix b ++ rest))
      = some (b.pre, (("source = \"").data ++ renderSrcVal b ++ ['"'], renderSrcVal b, b.post, rest)) := by
    apply lazyScan_eq_some_of
    · intro c hc
      have hcne := (good_parts hpre).1 c hc
      simp [hcne]
    · intro w hw hwne
      have hsfx : w ++ srcSuffix b <:+ renderBlock b := by
        rcases hw with ⟨p, hp⟩
        exact ⟨hdrText b ++ p, by rw [renderBlock, ← hp]; simp⟩
      have hne2 : w ++ srcSuffix b ≠ [] := by
        intro h0
        exact hwne (List.append_eq_nil.mp h0).1
      have hne3 : w ++ srcSuffix b ≠ renderBlock b := by
        intro heq
        have hlw := hw.length_le
        have hlen := congrArg List.length heq
        have hh := hdrText_len b
        simp only [List.length_append, renderBlock] at hlen
        omega
      have hne4 : w ++ srcSuffix b ≠ srcSuffix b := by
        intro heq
        have hlen := congrArg List.length heq
        simp only [List.length_append] at hlen
        have : w.length = 0 := by omega
        exact hwne (List.length_eq_zero.mp this)
      have hkill := (renderBlock_pos_classify b hwf _ hsfx hne2 hne3 hne4 rest).2
      apply updTail_dead
      intro hkws
      apply hkill
      simpa [List.append_assoc] using hkws
    · exact updTail_self hwf rest
  unfold matchModuleUpd
  simp only [matchHeaderCapture_self hwf rest, hls]
  have hb : hdrText b ++ b.pre ++ (("source = \"").data ++ renderSrcVal b ++ ['"']) ++ b.post ++ ['\x7d']
      = renderBlock b := by
    simp [renderBlock, srcSuffix]
  rw [hb]

theorem matchModuleUpd_mismatch {b : Block} (hwf : wfBlockB b = true)
    {base : Text} (hq : '?' ∉ base) (hquo : '"' ∉ base)
    (hne : base ≠ b.base) (rest : Text) :
    matchModuleUpd base (renderBlock b ++ rest) = none := by
  have hbody : b.pre ++ (srcSuffix b ++ rest)
      = (b.pre ++ (("source = \"").data ++ renderSrcVal b ++ '"' :: b.post)) ++ '\x7d' :: rest := by
    simp [srcSuffix]
  have hls : lazyScan (fun c => c = '\x7d') (updTail base) (b.pre ++ (srcSuffix b ++ rest)) = none := by
    rw [hbody]
    apply lazyScan_eq_none_of _ _ _ (by simp)
    intro w hw
    have hsfx : w ++ ['\x7d'] <:+ b.pre ++ srcSuffix b := by
      rcases hw with ⟨p, hp⟩
      refine ⟨p, ?_⟩
      have : (p ++ w) ++ ['\x7d'] = b.pre ++ srcSuffix b := by
        rw [hp]
        simp [srcSuffix]
      rw [← this]
      simp
    have hsfx2 : w ++ ['\x7d'] <:+ renderBlock b := hsfx.trans ⟨hdrText b, by simp [renderBlock]⟩
    have hassoc : w ++ '\x7d' :: rest = (w ++ ['\x7d']) ++ rest := by simp
    rw [hassoc]
    by_cases hcase : w ++ ['\x7d'] = srcSuffix b
    · rw [hcase]
      exact updTail_mismatch hwf hq hquo hne rest
    · have hne2 : w ++ ['\x7d'] ≠ [] := by simp
      have hne3 : w ++ ['\x7d'] ≠ renderBlock b := by
        intro heq
        have hlw := hsfx.length_le
        have hlen := congrArg List.length heq
        have hh := hdrText_len b
        simp only [List.length_append, renderBlock] at hlen hlw
        omega
      have hkill := (renderBlock_pos_classify b hwf _ hsfx2 hne2 hne3 hcase rest).2
      exact updTail_dead hkill
  unfold matchModuleUpd
  simp only [matchHeaderCapture_self hwf rest, hls]

/- ==================================================================
   findFirst and finditer over sequences of blocks
   ================================================================== -/

theorem findFirst_cons_none {t : Text → Option α} {c : Char} {cs : Text}
    (h : t (c :: cs) = none) :
    findFirst t (c :: cs) = (findFirst t cs).map (fun p => (c :: p.1, p.2)) := by
  simp [findFirst, lazyScan, h]

theorem findFirst_append_none {t : Text → Option α} (A s : Text)
    (h : ∀ u, u <:+ A → u ≠ [] → t (u ++ s) = none) :
    findFirst t (A ++ s) = (findFirst t s).map (fun p => (A ++ p.1, p.2)) := by
  induction A with
  | nil =>
    simp only [List.nil_append]
    cases findFirst t s <;> simp
  | cons c cs ih =>
    have h0 : t (c :: (cs ++ s)) = none := by
      simpa using h (c :: cs) (List.suffix_refl _) (by simp)
    rw [List.cons_append, findFirst_cons_none h0,
      ih (fun u hu hne => h u (hu.trans (by simp)) hne)]
    cases findFirst t s <;> simp

theorem finditerAux_shift {m : Text → Option (Text × α × Text)} (f : Text → Text) {X Y : Text}
    (h : findFirst m X = (findFirst m Y).map (fun p => (f p.1, p.2))) (k : Nat) :
    finditerAux m (k + 1) X = finditerAux m (k + 1) Y := by
  cases hY : findFirst m Y with
  | none =>
    have hX : findFirst m X = none := by rw [h, hY]; rfl
    simp [finditerAux, hX, hY]
  | some p =>
    rcases p with ⟨sk, con, a, rest⟩
    have hX : findFirst m X = some (f sk, con, a, rest) := by rw [h, hY]; rfl
    simp [finditerAux, hX, hY]

theorem matchModuleUpd_newline (base : Text) (s : Text) :
    matchModuleUpd base ('\n' :: s) = none := by
  apply matchModuleUpd_dead
  intro hk
  have hh := kwSpaceStart_head kwModule_head hk
  simp at hh

theorem matchModuleUpd_block_fail {b : Block} (hwfb : wfBlockB b = true) {base : Text}
    (hq : '?' ∉ base) (hquo : '"' ∉ base) (hneq : base ≠ b.base) :
    ∀ u, u <:+ renderBlock b ++ ['\n'] → u ≠ [] → ∀ s, matchModuleUpd base (u ++ s) = none := by
  intro u hu hne s
  rcases suffix_append_split hu with h1 | ⟨w, hw, hwne, rfl⟩
  · rcases suffix_singleton h1 with rfl | rfl
    · exact absurd rfl hne
    · exact matchModuleUpd_newline base s
  · have hassoc : (w ++ ['\n']) ++ s = w ++ '\n' :: s := by simp
    rw [hassoc]
    by_cases hwb : w = renderBlock b
    · rw [hwb]
      exact matchModuleUpd_mismatch hwfb hq hquo hneq ('\n' :: s)
    · by_cases hws : w = srcSuffix b
      · apply matchModuleUpd_dead
        rw [hws]
        intro hk
        have hh := kwSpaceStart_head kwModule_head hk
        rw [srcSuffix_append_head] at hh
        simp at hh
      · apply matchModuleUpd_dead
        exact (renderBlock_pos_classify b hwfb w hw hwne hwb hws ('\n' :: s)).1

theorem renderBlocks_length (bs : List Block) : bs.length ≤ (renderBlocks bs).length := by
  induction bs with
  | nil => simp [renderBlocks]
  | cons b bs ih =>
    simp only [renderBlocks, List.length_append, List.length_cons]
    omega

theorem matchModuleUpd_nil (base : Text) : matchModuleUpd base [] = none := rfl

theorem finditerAux_upd {base : Text} (hq : '?' ∉ base) (hquo : '"' ∉ base) :
    ∀ (bs : List Block) (k : Nat), (∀ x ∈ bs, wfBlockB x = true) → bs.length < k →
      finditerAux (matchModuleUpd base) k (renderBlocks bs)
        = (bs.filter (fun x => x.base = base)).map (fun x => (renderBlock x, renderSrcVal x)) := by
  intro bs
  induction bs with
  | nil =>
    intro k _ hk
    cases k with
    | zero => omega
    | succ n =>
      simp [renderBlocks, finditerAux, findFirst, lazyScan, matchModuleUpd_nil]
  | cons b bs ih =>
    intro k hwf hk
    cases k with
    | zero => omega
    | succ n =>
      have hkn : bs.length < n := by
        simp only [List.length_cons] at hk
        omega
      by_cases hb : b.base = base
      · have hm : matchModuleUpd base (renderBlock b ++ '\n' :: renderBlocks bs)
            = some (renderBlock b, renderSrcVal b, '\n' :: renderBlocks bs) := by
          rw [← hb]
          exact matchModuleUpd_match (hwf b (by simp)) _
        have hff : findFirst (matchModuleUpd base) (renderBlocks (b :: bs))
            = some ([], (renderBlock b, renderSrcVal b, '\n' :: renderBlocks bs)) := by
          rw [renderBlocks]
          have := findFirst_eq_some_of [] (renderBlock b ++ '\n' :: renderBlocks bs)
            (renderBlock b, renderSrcVal b, '\n' :: renderBlocks bs)
            (by
              intro w hw hne
              rw [List.suffix_nil.mp hw] at hne
              exact absurd rfl hne) hm
          simpa using this
        have hnext : finditerAux (matchModuleUpd base) n ('\n' :: renderBlocks bs)
            = finditerAux (matchModuleUpd base) n (renderBlocks bs) := by
          cases n with
          | zero => rfl
          | succ n2 =>
            exact finditerAux_shift (fun l => '\n' :: l)
              (findFirst_cons_none (matchModuleUpd_newline base _)) n2
        have hstep : finditerAux (matchModuleUpd base) (n + 1) (renderBlocks (b :: bs))
            = (renderBlock b, renderSrcVal b) :: finditerAux (matchModuleUpd base) n ('\n' :: renderBlocks bs) := by
          simp [finditerAux, hff]
        rw [hstep, hnext, ih n (fun x hx => hwf x (by simp [hx])) hkn]
        simp [List.filter_cons, hb]
      · have hff : findFirst (matchModuleUpd base) (renderBlocks (b :: bs))
            = (findFirst (matchModuleUpd base) (renderBlocks bs)).map
                (fun p => ((renderBlock b ++ ['\n']) ++ p.1, p.2)) := by
          have hsplit : renderBlocks (b :: bs) = (renderBlock b ++ ['\n']) ++ renderBlocks bs := by
            simp [renderBlocks]
          rw [hsplit]
          exact findFirst_append_none _ _
            (fun u hu hne => matchModuleUpd_block_fail (hwf b (by simp)) hq hquo
              (fun he => hb he.symm) u hu hne _)
        rw [finditerAux_shift (fun l => (renderBlock b ++ ['\n']) ++ l) hff n,
          ih (n + 1) (fun x hx => hwf x (by simp [hx])) (by omega)]
        simp [List.filter_cons, hb]

theorem finditer_upd {base : Text} (hq : '?' ∉ base) (hquo : '"' ∉ base)
    (bs : List Block) (hwf : ∀ x ∈ bs, wfBlockB x = true) :
    finditer (matchModuleUpd base) (renderBlocks bs)
      = (bs.filter (fun x => x.base = base)).map (fun x => (renderBlock x, renderSrcVal x)) := by
  have := renderBlocks_length bs
  exact finditerAux_upd hq hquo bs ((renderBlocks bs).length + 1) hwf (by omega)

/- ==================================================================
   Occurrences of a rendered block inside a rendered file
   ================================================================== -/

theorem renderBlock_lit_name {c b : Block} {t : Text}
    (hwc : wfBlockB c = true) (hwb : wfBlockB b = true)
    (h : (lit (renderBlock c) (renderBlock b ++ t)).isSome) : c.name = b.name := by
  rcases lit_isSome_iff.mp h with ⟨r, hr⟩
  rw [renderBlock_eq_cons b t, renderBlock_eq_cons c r] at hr
  have h1 := List.append_cancel_left hr
  have h2 : b.name ++ '"' :: (' ' :: '\x7b' :: (b.pre ++ (srcSuffix b ++ t)))
      = c.name ++ '"' :: (' ' :: '\x7b' :: (c.pre ++ (srcSuffix c ++ r))) := by
    simpa using h1
  have hbq : ∀ d ∈ b.name, d ≠ '"' := fun d hd =>
    plain_ne (List.all_eq_true.mp (wf_parts hwb).2.1 d hd) (by decide)
  have hcq : ∀ d ∈ c.name, d ≠ '"' := fun d hd =>
    plain_ne (List.all_eq_true.mp (wf_parts hwc).2.1 d hd) (by decide)
  exact ((delim_eq hbq hcq h2).1).symm

theorem renderBlock_head (b : Block) : (renderBlock b).head? = some 'm' := by
  have h0 := renderBlock_eq_cons b []
  rw [List.append_nil] at h0
  rw [h0, kwModule_chars]
  rfl

theorem occ_block (c : Block) (hc : wfBlockB c = true) :
    ∀ (bs : List Block), (∀ x ∈ bs, wfBlockB x = true) →
      ∀ u, u <:+ renderBlocks bs → (lit (renderBlock c) u).isSome →
        ∃ bsA cb bsB, bs = bsA ++ cb :: bsB ∧ cb.name = c.name ∧ u = renderBlocks (cb :: bsB) := by
  intro bs
  induction bs with
  | nil =>
    intro _ u hu hl
    exfalso
    rw [List.suffix_nil.mp hu] at hl
    cases hrc : renderBlock c with
    | nil => exact renderBlock_ne_nil c hrc
    | cons x xs =>
      rw [hrc] at hl
      simp [lit] at hl
  | cons b bs ih =>
    intro hwf u hu hl
    rw [renderBlocks] at hu
    rcases suffix_append_split hu with h1 | ⟨w, hw, hwne, rfl⟩
    · rcases h1 with ⟨p, hp⟩
      cases p with
      | nil =>
        exfalso
        have hu2 : u = '\n' :: renderBlocks bs := by simpa using hp
        rcases lit_isSome_iff.mp hl with ⟨r, hr⟩
        rw [hu2, renderBlock_eq_cons c r, kwModule_chars] at hr
        have := congrArg List.head? hr
        simp at this
      | cons x xs =>
        have hsub : u <:+ renderBlocks bs := ⟨xs, by simpa using congrArg List.tail hp⟩
        rcases ih (fun x hx => hwf x (by simp [hx])) u hsub hl with
          ⟨bsA, cb, bsB, rfl, hnm, hu3⟩
        exact ⟨b :: bsA, cb, bsB, by simp, hnm, hu3⟩
    · have hkws : kwSpaceStart kwModule (w ++ '\n' :: renderBlocks bs) := by
        rcases lit_isSome_iff.mp hl with ⟨r, hr⟩
        rw [hr]
        exact renderBlock_kws c r
      by_cases hwb : w = renderBlock b
      · subst hwb
        refine ⟨[], b, bs, rfl, ?_, by simp [renderBlocks]⟩
        exact (renderBlock_lit_name hc (hwf b (by simp)) hl).symm
      · exfalso
        by_cases hws : w = srcSuffix b
        · subst hws
          have hh := kwSpaceStart_head kwModule_head hkws
          rw [srcSuffix_append_head] at hh
          simp at hh
        · exact (renderBlock_pos_classify b (hwf b (by simp)) w hw hwne hwb hws
            ('\n' :: renderBlocks bs)).1 hkws

theorem lit_renderBlock_unique (b : Block) (hb : wfBlockB b = true) :
    ∀ (bsP : List Block) (bsQ : List Block),
      (∀ x ∈ bsP ++ b :: bsQ, wfBlockB x = true) →
      b.name ∉ bsP.map Block.name → b.name ∉ bsQ.map Block.name →
      ∀ u, u <:+ renderBlocks (bsP ++ b :: bsQ) → (lit (renderBlock b) u).isSome →
        u = renderBlock b ++ '\n' :: renderBlocks bsQ := by
  intro bsP
  induction bsP with
  | nil =>
    intro bsQ hwf _ hnQ u hu hl
    simp only [List.nil_append, renderBlocks] at hu
    rcases suffix_append_split hu with h1 | ⟨w, hw, hwne, rfl⟩
    · exfalso
      rcases h1 with ⟨p, hp⟩
      cases p with
      | nil =>
        have hu2 : u = '\n' :: renderBlocks bsQ := by simpa using hp
        rcases lit_isSome_iff.mp hl with ⟨r, hr⟩
        rw [hu2, renderBlock_eq_cons b r, kwModule_chars] at hr
        have := congrArg List.head? hr
        simp at this
      | cons x xs =>
        have hsub : u <:+ renderBlocks bsQ := ⟨xs, by simpa using congrArg List.tail hp⟩
        rcases occ_block b hb bsQ (fun x hx => hwf x (by simp [hx])) u hsub hl with
          ⟨bsA, cb, bsB, hQ, hnm, _⟩
        apply hnQ
        rw [hQ, ← hnm]
        simp
    · have hkws : kwSpaceStart kwModule (w ++ '\n' :: renderBlocks bsQ) := by
        rcases lit_isSome_iff.mp hl with ⟨r, hr⟩
        rw [hr]
        exact renderBlock_kws b r
      by_cases hwb : w = renderBlock b
      · rw [hwb]
      · exfalso
        by_cases hws : w = srcSuffix b
        · subst hws
          have hh := kwSpaceStart_head kwModule_head hkws
          rw [srcSuffix_append_head] at hh
          simp at hh
        · exact (renderBlock_pos_classify b hb w hw hwne hwb hws
            ('\n' :: renderBlocks bsQ)).1 hkws
  | cons pb bsP' ih =>
    intro bsQ hwf hnP hnQ u hu hl
    simp only [List.cons_append, renderBlocks] at hu
    rcases suffix_append_split hu with h1 | ⟨w, hw, hwne, rfl⟩
    · rcases h1 with ⟨p, hp⟩
      cases p with
      | nil =>
        exfalso
        have hu2 : u = '\n' :: renderBlocks (bsP' ++ b :: bsQ) := by simpa using hp
        rcases lit_isSome_iff.mp hl with ⟨r, hr⟩
        rw [hu2, renderBlock_eq_cons b r, kwModule_chars] at hr
        have := congrArg List.head? hr
        simp at this
      | cons x xs =>
        refine ih bsQ (fun x hx => hwf x (by simp [hx])) ?_ hnQ u
          ⟨xs, by simpa using congrArg List.tail hp⟩ hl
        intro hmem
        exact hnP (by simp [hmem])
    · exfalso
      have hkws : kwSpaceStart kwModule (w ++ '\n' :: renderBlocks (bsP' ++ b :: bsQ)) := by
        rcases lit_isSome_iff.mp hl with ⟨r, hr⟩
        have hr2 : w ++ '\n' :: renderBlocks (bsP' ++ b :: bsQ) = renderBlock b ++ r := hr
        rw [hr2]
        exact renderBlock_kws b r
      by_cases hwb : w = renderBlock pb
      · subst hwb
        have hnm := renderBlock_lit_name hb (hwf pb (by simp)) hl
        apply hnP
        rw [hnm]
        simp
      · by_cases hws : w = srcSuffix pb
        · subst hws
          have hh := kwSpaceStart_head kwModule_head hkws
          rw [srcSuffix_append_head] at hh
          simp at hh
        · exact (renderBlock_pos_classify pb (hwf pb (by simp)) w hw hwne hwb hws
            ('\n' :: renderBlocks (bsP' ++ b :: bsQ))).1 hkws

/- ==================================================================
   The inner substitution and replacement of update_module_versions
   ================================================================== -/

theorem renderBlocks_append (xs ys : List Block) :
    renderBlocks (xs ++ ys) = renderBlocks xs ++ renderBlocks ys := by
  induction xs with
  | nil => simp [renderBlocks]
  | cons b bs ih => simp [renderBlocks, ih]

theorem srcSuffix_len (b : Block) :
    (srcSuffix b).length = (renderSrcVal b).length + b.post.length + 12 := by
  have h10 : ("source = \"").data.length = 10 := by decide
  simp [srcSuffix, h10]
  omega

theorem srcSuffix_ne_nil (b : Block) : srcSuffix b ≠ [] := by
  intro h0
  have hh := srcSuffix_append_head b []
  rw [List.append_nil, h0] at hh
  simp at hh

theorem subSourceMatcher_nil (cur new : Text) : subSourceMatcher cur new [] = none := rfl

theorem subAll_src {b : Block} (hwf : wfBlockB b = true) (new : Text) :
    subAll (subSourceMatcher (renderSrcVal b) new) (renderBlock b)
      = hdrText b ++ b.pre ++ (("source = \"").data ++ new ++ '"' :: (b.post ++ ['\x7d'])) := by
  have hsrc : srcSuffix b
      = kwSource ++ ' ' :: '=' :: ' ' :: '"' :: (renderSrcVal b ++ '"' :: (b.post ++ ['\x7d'])) := by
    have h0 := srcSuffix_eq b []
    rw [List.append_nil] at h0
    simpa using h0
  have s1 : spaces1 (' ' :: '=' :: ' ' :: '"' :: (renderSrcVal b ++ '"' :: (b.post ++ ['\x7d'])))
      = some ([' '], '=' :: ' ' :: '"' :: (renderSrcVal b ++ '"' :: (b.post ++ ['\x7d']))) :=
    spaces1_space_nonspace (by decide) (by decide)
  have l1 : lit ['='] ('=' :: ' ' :: '"' :: (renderSrcVal b ++ '"' :: (b.post ++ ['\x7d'])))
      = some (' ' :: '"' :: (renderSrcVal b ++ '"' :: (b.post ++ ['\x7d']))) := by
    simp [lit]
  have s2 : spaces1 (' ' :: '"' :: (renderSrcVal b ++ '"' :: (b.post ++ ['\x7d'])))
      = some ([' '], '"' :: (renderSrcVal b ++ '"' :: (b.post ++ ['\x7d']))) :=
    spaces1_space_nonspace (by decide) (by decide)
  have l3 : lit (('"' :: renderSrcVal b) ++ ['"']) ('"' :: (renderSrcVal b ++ '"' :: (b.post ++ ['\x7d'])))
      = some (b.post ++ ['\x7d']) := by
    have hsh : '"' :: (renderSrcVal b ++ '"' :: (b.post ++ ['\x7d']))
        = (('"' :: renderSrcVal b) ++ ['"']) ++ (b.post ++ ['\x7d']) := by
      simp
    rw [hsh]
    exact lit_self_append _ _
  have hm : subSourceMatcher (renderSrcVal b) new (srcSuffix b)
      = some (kwSource ++ [' '] ++ '=' :: [' '] ++ '"' :: new ++ ['"'], b.post ++ ['\x7d']) := by
    rw [hsrc]
    unfold subSourceMatcher
    simp only [lit_self_append, s1, l1, s2, l3]
  have hB : ∀ u, u <:+ b.post ++ ['\x7d'] →
      subSourceMatcher (renderSrcVal b) new u = none := by
    intro u hu
    by_cases hu0 : u = []
    · rw [hu0]
      exact subSourceMatcher_nil _ _
    · have hps : b.post ++ ['\x7d'] <:+ srcSuffix b :=
        ⟨("source = \"").data ++ renderSrcVal b ++ ['"'], by simp [srcSuffix]⟩
      have hsfx : u <:+ renderBlock b :=
        (hu.trans hps).trans ⟨hdrText b ++ b.pre, by simp [renderBlock]⟩
      have hlu : u.length ≤ b.post.length + 1 := by
        have := hu.length_le
        simpa using this
      have hne3 : u ≠ renderBlock b := by
        intro heq
        have hlen := congrArg List.length heq
        have hsl := srcSuffix_len b
        simp only [renderBlock, List.length_append] at hlen
        omega
      have hne4 : u ≠ srcSuffix b := by
        intro heq
        have hlen := congrArg List.length heq
        have hsl := srcSuffix_len b
        omega
      have hkill := (renderBlock_pos_classify b hwf u hsfx hu0 hne3 hne4 []).2
      rw [List.append_nil] at hkill
      exact subSourceMatcher_dead hkill
  have hA : ∀ w, w <:+ hdrText b ++ b.pre → w ≠ [] →
      subSourceMatcher (renderSrcVal b) new (w ++ srcSuffix b) = none := by
    intro w hw hwne
    have hsfx : w ++ srcSuffix b <:+ renderBlock b := by
      rcases hw with ⟨p, hp⟩
      exact ⟨p, by rw [renderBlock, ← List.append_assoc, hp]⟩
    by_cases hfull : w ++ srcSuffix b = renderBlock b
    · rw [hfull]
      apply subSourceMatcher_dead
      intro hk
      have hh := kwSpaceStart_head kwSource_head hk
      rw [renderBlock_head] at hh
      simp at hh
    · have hne2 : w ++ srcSuffix b ≠ [] := by
        intro h0
        exact hwne (List.append_eq_nil.mp h0).1
      have hne4 : w ++ srcSuffix b ≠ srcSuffix b := by
        intro heq
        have hlen := congrArg List.length heq
        simp only [List.length_append] at hlen
        have : w.length = 0 := by omega
        exact hwne (List.length_eq_zero.mp this)
      have hkill := (renderBlock_pos_classify b hwf _ hsfx hne2 hfull hne4 []).2
      rw [List.append_nil] at hkill
      exact subSourceMatcher_dead hkill
  have hdec : renderBlock b = (hdrText b ++ b.pre) ++ srcSuffix b := by
    simp [renderBlock]
  rw [hdec]
  rw [subAll_unique _ _ _ _ _ hm hB (srcSuffix_ne_nil b)
    (fun w hw hwne => hA w hw hwne)]
  simp [srcHdr_eq, kwSource]

/- wfBlockB is stable under setting the ref. -/

theorem wfBlockB_set_ref {b : Block} (h : wfBlockB b = true) {v : Text}
    (hv : v.all plainChar = true) : wfBlockB { b with ref := some v } = true := by
  simp only [wfBlockB, Bool.and_eq_true] at h ⊢
  exact ⟨h.1, hv⟩

theorem updBlock_name (base v : Text) (b : Block) : (updBlock base v b).name = b.name := by
  unfold updBlock
  split <;> rfl

theorem wf_updBlock {b : Block} (h : wfBlockB b = true) {base v : Text}
    (hv : v.all plainChar = true) : wfBlockB (updBlock base v b) = true := by
  unfold updBlock
  by_cases hb : b.base = base
  · rw [if_pos hb]
    exact wfBlockB_set_ref h hv
  · rw [if_neg hb]
    exact h

theorem nodup_middle_notmem {l₁ l₂ : List Text} {a : Text}
    (h : (l₁ ++ a :: l₂).Nodup) : a ∉ l₁ ∧ a ∉ l₂ := by
  rw [List.nodup_append] at h
  constructor
  · intro ha
    exact h.2.2 ha (by simp)
  · exact (List.nodup_cons.mp h.2.1).1

/- ==================================================================
   The per-target fold of update_module_versions over its matches
   ================================================================== -/

theorem plain_notmem {l : Text} (h : l.all plainChar = true) {c : Char}
    (hc : plainChar c = false) : c ∉ l := by
  intro hm
  have h2 := List.all_eq_true.mp h c hm
  rw [hc] at h2
  exact Bool.noConfusion h2

theorem wfTarget_parts {t : Text × Text} (h : wfTargetB t = true) :
    baseOf t.1 ≠ [] ∧ (baseOf t.1).all plainChar = true ∧ t.2.all plainChar = true := by
  simp only [wfTargetB, Bool.and_eq_true, decide_eq_true_eq, ne_eq] at h
  exact ⟨h.1.1, h.1.2, h.2⟩

theorem map_name_upd (base v : Text) (bs : List Block) :
    (bs.map (updBlock base v)).map Block.name = bs.map Block.name := by
  induction bs with
  | nil => rfl
  | cons b bs ih => simp [updBlock_name, ih]

theorem fold_matches (base ver : Text) :
    ∀ (bsQ bsP : List Block),
      (∀ x ∈ bsP ++ bsQ, wfBlockB x = true) →
      ver.all plainChar = true →
      ((bsP ++ bsQ).map Block.name).Nodup →
      List.foldl
        (fun cfg mtch => replaceAll mtch.1
          (subAll (subSourceMatcher mtch.2 (base ++ kwRefEq ++ ver)) mtch.1) cfg)
        (renderBlocks (bsP ++ bsQ))
        ((bsQ.filter (fun x => x.base = base)).map (fun x => (renderBlock x, renderSrcVal x)))
      = renderBlocks (bsP ++ bsQ.map (updBlock base ver)) := by
  intro bsQ
  induction bsQ with
  | nil =>
    intro bsP _ _ _
    simp
  | cons b bsQ ih =>
    intro bsP hwf hver hnd
    have hwfb : wfBlockB b = true := hwf b (by simp)
    by_cases hb : b.base = base
    · have hfil : ((b :: bsQ).filter (fun x => x.base = base)).map
            (fun x => (renderBlock x, renderSrcVal x))
          = (renderBlock b, renderSrcVal b) ::
              ((bsQ.filter (fun x => x.base = base)).map
                (fun x => (renderBlock x, renderSrcVal x))) := by
        simp [List.filter_cons, hb]
      have hb' : updBlock base ver b = { b with ref := some ver } := by
        unfold updBlock
        rw [if_pos hb]
      have hsub : subAll (subSourceMatcher (renderSrcVal b) (base ++ kwRefEq ++ ver)) (renderBlock b)
          = renderBlock { b with ref := some ver } := by
        rw [subAll_src hwfb, ← hb]
        simp [renderBlock, hdrText, srcSuffix, renderSrcVal]
      have hwfb2 : wfBlockB { b with ref := some ver } = true := wfBlockB_set_ref hwfb hver
      have hnames : ((bsP ++ b :: bsQ).map Block.name)
          = bsP.map Block.name ++ b.name :: bsQ.map Block.name := by
        simp
      rw [hnames] at hnd
      have hnm := nodup_middle_notmem hnd
      have hrepl : replaceAll (renderBlock b) (renderBlock { b with ref := some ver })
          (renderBlocks (bsP ++ b :: bsQ))
          = renderBlocks (bsP ++ { b with ref := some ver } :: bsQ) := by
        have hdecL : renderBlocks (bsP ++ b :: bsQ)
            = renderBlocks bsP ++ renderBlock b ++ '\n' :: renderBlocks bsQ := by
          rw [renderBlocks_append]
          simp [renderBlocks]
        have hdecR : renderBlocks (bsP ++ { b with ref := some ver } :: bsQ)
            = renderBlocks bsP ++ renderBlock { b with ref := some ver } ++ '\n' :: renderBlocks bsQ := by
          rw [renderBlocks_append]
          simp [renderBlocks]
        rw [hdecL, hdecR]
        apply replaceAll_unique _ _ _ _ (renderBlock_ne_nil b)
        intro u hu hl
        have hu2 : u <:+ renderBlocks (bsP ++ b :: bsQ) := by
          rw [hdecL]
          exact hu
        exact lit_renderBlock_unique b hwfb bsP bsQ hwf hnm.1 hnm.2 u hu2 hl
      have hwf2 : ∀ x ∈ (bsP ++ [{ b with ref := some ver }]) ++ bsQ, wfBlockB x = true := by
        intro x hx
        simp only [List.mem_append, List.mem_singleton] at hx
        rcases hx with (hx | rfl) | hx
        · exact hwf x (by simp [hx])
        · exact hwfb2
        · exact hwf x (by simp [hx])
      have hnd2 : (((bsP ++ [{ b with ref := some ver }]) ++ bsQ).map Block.name).Nodup := by
        simpa using hnd
      have hih := ih (bsP ++ [{ b with ref := some ver }]) hwf2 hver hnd2
      rw [hfil, List.foldl_cons]
      dsimp only
      rw [hsub, hrepl,
        show renderBlocks (bsP ++ { b with ref := some ver } :: bsQ)
            = renderBlocks ((bsP ++ [{ b with ref := some ver }]) ++ bsQ) from by simp,
        hih]
      simp [List.map_cons, hb']
    · have hfil : ((b :: bsQ).filter (fun x => x.base = base))
          = bsQ.filter (fun x => x.base = base) := by
        simp [List.filter_cons, hb]
      have hupd : updBlock base ver b = b := by
        unfold updBlock
        rw [if_neg hb]
      have hwf2 : ∀ x ∈ (bsP ++ [b]) ++ bsQ, wfBlockB x = true := by
        intro x hx
        apply hwf
        simpa using hx
      have hnd2 : (((bsP ++ [b]) ++ bsQ).map Block.name).Nodup := by
        simpa using hnd
      have hass : renderBlocks (bsP ++ b :: bsQ) = renderBlocks ((bsP ++ [b]) ++ bsQ) := by
        simp
      rw [hfil, hass, ih (bsP ++ [b]) hwf2 hver hnd2]
      simp [List.map_cons, hupd]

/- ==================================================================
   update_module_versions on rendered canonical blocks
   ================================================================== -/

theorem update_renderBlocks_eq (targets : List (Text × Text)) :
    ∀ (bs : List Block), (∀ x ∈ bs, wfBlockB x = true) →
      (∀ t ∈ targets, wfTargetB t = true) →
      (bs.map Block.name).Nodup →
      updateModuleVersions (renderBlocks bs) targets = renderBlocks (updBlocks targets bs) := by
  induction targets with
  | nil =>
    intro bs _ _ _
    rfl
  | cons t ts ih =>
    intro bs hwf htg hnd
    rcases wfTarget_parts (htg t (by simp)) with ⟨_, hbp, hvp⟩
    have hq : '?' ∉ baseOf t.1 := plain_notmem hbp (by decide)
    have hquo : '"' ∉ baseOf t.1 := plain_notmem hbp (by decide)
    have h1 : updateModuleVersions (renderBlocks bs) (t :: ts)
        = updateModuleVersions
            ((finditer (matchModuleUpd (baseOf t.1)) (renderBlocks bs)).foldl
              (fun cfg mtch => replaceAll mtch.1
                (subAll (subSourceMatcher mtch.2 (baseOf t.1 ++ kwRefEq ++ t.2)) mtch.1) cfg)
              (renderBlocks bs)) ts := rfl
    have h2 : (finditer (matchModuleUpd (baseOf t.1)) (renderBlocks bs)).foldl
          (fun cfg mtch => replaceAll mtch.1
            (subAll (subSourceMatcher mtch.2 (baseOf t.1 ++ kwRefEq ++ t.2)) mtch.1) cfg)
          (renderBlocks bs)
        = renderBlocks (bs.map (updBlock (baseOf t.1) t.2)) := by
      rw [finditer_upd hq hquo bs hwf]
      have h3 := fold_matches (baseOf t.1) t.2 bs [] (by simpa using hwf) hvp (by simpa using hnd)
      simpa using h3
    rw [h1, h2]
    have hwf2 : ∀ x ∈ bs.map (updBlock (baseOf t.1) t.2), wfBlockB x = true := by
      intro x hx
      rcases List.mem_map.mp hx with ⟨y, hy, rfl⟩
      exact wf_updBlock (hwf y hy) hvp
    have hnd2 : ((bs.map (updBlock (baseOf t.1) t.2)).map Block.name).Nodup := by
      rw [map_name_upd]
      exact hnd
    rw [ih (bs.map (updBlock (baseOf t.1) t.2)) hwf2 (fun x hx => htg x (by simp [hx])) hnd2]
    rfl

/- ==================================================================
   Block-level algebra of updBlocks
   ================================================================== -/

theorem refAfter_cons (t : Text × Text) (ts : List (Text × Text)) (base : Text) (r : Option Text) :
    refAfter (t :: ts) base r = refAfter ts base (if base = baseOf t.1 then some t.2 else r) := rfl

theorem applyUpds_eq (ts : List (Text × Text)) :
    ∀ (x : Block), ts.foldl (fun x t => updBlock (baseOf t.1) t.2 x) x
      = { x with ref := refAfter ts x.base x.ref } := by
  induction ts with
  | nil => intro x; rfl
  | cons t ts ih =>
    intro x
    show ts.foldl (fun x t => updBlock (baseOf t.1) t.2 x) (updBlock (baseOf t.1) t.2 x)
      = { x with ref := refAfter (t :: ts) x.base x.ref }
    rw [ih (updBlock (baseOf t.1) t.2 x), refAfter_cons]
    by_cases hx : x.base = baseOf t.1
    · simp [updBlock, hx]
    · simp [updBlock, hx]

theorem refAfter_skip (ts : List (Text × Text)) (base : Text)
    (h : ∀ t ∈ ts, base ≠ baseOf t.1) : ∀ r, refAfter ts base r = r := by
  induction ts with
  | nil => intro r; rfl
  | cons t ts ih =>
    intro r
    rw [refAfter_cons, if_neg (h t (by simp))]
    exact ih (fun t' ht' => h t' (by simp [ht'])) r

theorem refAfter_const (ts : List (Text × Text)) (base : Text)
    (h : ∃ t ∈ ts, base = baseOf t.1) :
    ∀ r r', refAfter ts base r = refAfter ts base r' := by
  induction ts with
  | nil =>
    exfalso
    rcases h with ⟨t, ht, _⟩
    simp at ht
  | cons t ts ih =>
    intro r r'
    rw [refAfter_cons, refAfter_cons]
    by_cases hx : base = baseOf t.1
    · rw [if_pos hx, if_pos hx]
    · rw [if_neg hx, if_neg hx]
      rcases h with ⟨t0, ht0, heq⟩
      rcases List.mem_cons.mp ht0 with rfl | hmem
      · exact absurd heq hx
      · exact ih ⟨t0, hmem, heq⟩ r r'

theorem refAfter_idem (ts : List (Text × Text)) (base : Text) (r : Option Text) :
    refAfter ts base (refAfter ts base r) = refAfter ts base r := by
  by_cases hex : ∃ t ∈ ts, base = baseOf t.1
  · exact refAfter_const ts base hex _ r
  · push_neg at hex
    rw [refAfter_skip ts base hex, refAfter_skip ts base hex]

theorem updBlocks_eq_map (ts : List (Text × Text)) :
    ∀ bs : List Block, updBlocks ts bs
      = bs.map (fun x => ts.foldl (fun x t => updBlock (baseOf t.1) t.2 x) x) := by
  induction ts with
  | nil => intro bs; simp [updBlocks]
  | cons t ts ih =>
    intro bs
    show updBlocks ts (bs.map (updBlock (baseOf t.1) t.2)) = _
    rw [ih, List.map_map]
    rfl

theorem updBlocks_idem (ts : List (Text × Text)) (bs : List Block) :
    updBlocks ts (updBlocks ts bs) = updBlocks ts bs := by
  rw [updBlocks_eq_map, updBlocks_eq_map, List.map_map]
  apply List.map_congr_left
  intro x _
  show ts.foldl (fun x t => updBlock (baseOf t.1) t.2 x)
      (ts.foldl (fun x t => updBlock (baseOf t.1) t.2 x) x)
    = ts.foldl (fun x t => updBlock (baseOf t.1) t.2 x) x
  rw [applyUpds_eq ts x, applyUpds_eq ts { x with ref := refAfter ts x.base x.ref }]
  simp [refAfter_idem]

theorem wf_updBlocks (ts : List (Text × Text)) (htg : ∀ t ∈ ts, wfTargetB t = true) :
    ∀ (bs : List Block), (∀ x ∈ bs, wfBlockB x = true) →
      ∀ x ∈ updBlocks ts bs, wfBlockB x = true := by
  induction ts with
  | nil =>
    intro bs hwf x hx
    exact hwf x (by simpa [updBlocks] using hx)
  | cons t ts ih =>
    intro bs hwf x hx
    have hx2 : x ∈ updBlocks ts (bs.map (updBlock (baseOf t.1) t.2)) := hx
    refine ih (fun t' ht' => htg t' (by simp [ht'])) _ ?_ x hx2
    intro y hy
    rcases List.mem_map.mp hy with ⟨z, hz, rfl⟩
    exact wf_updBlock (hwf z hz) (wfTarget_parts (htg t (by simp))).2.2

theorem names_updBlocks (ts : List (Text × Text)) :
    ∀ bs : List Block, (updBlocks ts bs).map Block.name = bs.map Block.name := by
  induction ts with
  | nil => intro bs; rfl
  | cons t ts ih =>
    intro bs
    show (updBlocks ts (bs.map (updBlock (baseOf t.1) t.2))).map Block.name = _
    rw [ih, map_name_upd]

/-- C2 (corrected): on canonically formatted module blocks (whitespace around
the source attribute's equals sign, plain-word names, bases and versions,
bodies free of braces and stray keywords) with distinct module names,
update_module_versions rewrites the source of every block whose base equals a
target's base to exactly `base?ref=<new version>` — overwriting any existing
`?ref=` — leaves every other byte unchanged, and leaves the text unchanged for
targets matching no block: the output is the rendering of the blocks with
exactly the matching refs replaced. -/
theorem c2_update_on_blocks (bs : List Block) (targets : List (Text × Text))
    (hwf : ∀ x ∈ bs, wfBlockB x = true)
    (htg : ∀ t ∈ targets, wfTargetB t = true)
    (hnd : (bs.map Block.name).Nodup) :
    updateModuleVersions (renderBlocks bs) targets = renderBlocks (updBlocks targets bs) :=
  update_renderBlocks_eq targets bs hwf htg hnd

set_option maxRecDepth 100000 in
/-- Witness for C2: the spec's own example, a block with source
`example/module?ref=1.0.0` updated with the map `example/module ↦ 2.0.0`. -/
theorem c2_update_on_blocks_witness :
    (∀ x ∈ [Block.mk (("example").data) (("\n  ").data) (("example/module").data)
        (some (("1.0.0").data)) (("\n").data)], wfBlockB x = true)
    ∧ (∀ t ∈ [((("example/module").data), (("2.0.0").data))], wfTargetB t = true)
    ∧ (([Block.mk (("example").data) (("\n  ").data) (("example/module").data)
        (some (("1.0.0").data)) (("\n").data)].map Block.name).Nodup)
    ∧ updateModuleVersions
        (renderBlocks [Block.mk (("example").data) (("\n  ").data) (("example/module").data)
          (some (("1.0.0").data)) (("\n").data)])
        [((("example/module").data), (("2.0.0").data))]
      = renderBlocks (updBlocks [((("example/module").data), (("2.0.0").data))]
          [Block.mk (("example").data) (("\n  ").data) (("example/module").data)
            (some (("1.0.0").data)) (("\n").data)]) :=
  ⟨by decide, by decide, by decide,
    c2_update_on_blocks
      [Block.mk (("example").data) (("\n  ").data) (("example/module").data)
        (some (("1.0.0").data)) (("\n").data)]
      [((("example/module").data), (("2.0.0").data))]
      (by decide) (by decide) (by decide)⟩

/-- C3 (corrected): on canonically formatted module blocks with distinct
names and well-formed targets (in particular versions that are plain words,
containing no double quote), applying update_module_versions twice with the
same map gives the same text as applying it once. -/
theorem c3_update_idempotent (bs : List Block) (targets : List (Text × Text))
    (hwf : ∀ x ∈ bs, wfBlockB x = true)
    (htg : ∀ t ∈ targets, wfTargetB t = true)
    (hnd : (bs.map Block.name).Nodup) :
    updateModuleVersions (updateModuleVersions (renderBlocks bs) targets) targets
      = updateModuleVersions (renderBlocks bs) targets := by
  rw [update_renderBlocks_eq targets bs hwf htg hnd,
    update_renderBlocks_eq targets (updBlocks targets bs)
      (wf_updBlocks targets htg bs hwf) htg (by rw [names_updBlocks]; exact hnd),
    updBlocks_idem]

set_option maxRecDepth 100000 in
/-- Witness for C3: double application on the example block is a no-op the
second time. -/
theorem c3_update_idempotent_witness :
    (∀ x ∈ [Block.mk (("example").data) (("\n  ").data) (("example/module").data)
        (some (("1.0.0").data)) (("\n").data)], wfBlockB x = true)
    ∧ (∀ t ∈ [((("example/module").data), (("2.0.0").data))], wfTargetB t = true)
    ∧ updateModuleVersions
        (updateModuleVersions
          (renderBlocks [Block.mk (("example").data) (("\n  ").data) (("example/module").data)
            (some (("1.0.0").data)) (("\n").data)])
          [((("example/module").data), (("2.0.0").data))])
        [((("example/module").data), (("2.0.0").data))]
      = updateModuleVersions
          (renderBlocks [Block.mk (("example").data) (("\n  ").data) (("example/module").data)
            (some (("1.0.0").data)) (("\n").data)])
          [((("example/module").data), (("2.0.0").data))] :=
  ⟨by decide, by decide,
    c3_update_idempotent
      [Block.mk (("example").data) (("\n  ").data) (("example/module").data)
        (some (("1.0.0").data)) (("\n").data)]
      [((("example/module").data), (("2.0.0").data))]
      (by decide) (by decide) (by decide)⟩

/- ==================================================================
   Round-trip: add_module then find_module
   ================================================================== -/

theorem baseOf_plain {l : Text} (h : l.all plainChar = true) : baseOf l = l := by
  unfold baseOf
  induction l with
  | nil => rfl
  | cons c cs ih =>
    simp only [List.all_cons, Bool.and_eq_true] at h
    have hcq : c ≠ '?' := plain_ne h.1 (by decide)
    rw [List.takeWhile_cons, if_pos (by simpa using hcq)]
    rw [ih h.2]

theorem scanToChar_isSome_of_mem {q : Char} : ∀ {s : Text}, q ∈ s → (scanToChar q s).isSome := by
  intro s
  induction s with
  | nil => intro h; simp at h
  | cons c cs ih =>
    intro h
    by_cases hc : c = q
    · simp [scanToChar, hc]
    · rcases List.mem_cons.mp h with heq | hmem
      · exact absurd heq.symm hc
      · rcases Option.isSome_iff_exists.mp (ih hmem) with ⟨p, hp⟩
        simp [scanToChar, hc, hp]

theorem findTail_spec {base v : Text} {a : Option Text × Text}
    (h : findTail base v = some a) :
    ∃ t6, matchSourceAttrStar base v = some (a.1, t6) := by
  unfold findTail at h
  cases h1 : matchSourceAttrStar base v with
  | none => simp only [h1] at h; exact Option.noConfusion h
  | some p =>
    rcases p with ⟨vo, t6⟩
    simp only [h1] at h
    cases h2 : scanToChar '\x7d' t6 with
    | none => simp only [h2] at h; exact Option.noConfusion h
    | some q =>
      rcases q with ⟨sk2, t7⟩
      simp only [h2] at h
      have ha := (Option.some.inj h).symm
      rw [ha]
      exact ⟨t6, by simp [h1]⟩

theorem matchModuleFind_version {base s : Text} {a : ModuleRef × Text}
    (h : matchModuleFind base s = some a) :
    ∃ v vo t6, v <:+ s ∧ matchSourceAttrStar base v = some (vo, t6)
      ∧ a.1.version = verNorm vo := by
  unfold matchModuleFind at h
  cases h1 : matchHeaderCapture s with
  | none => simp only [h1] at h; exact Option.noConfusion h
  | some trip =>
    rcases trip with ⟨hdr, nm, r6⟩
    simp only [h1] at h
    cases h2 : lazyScan (· = '\x7d') (findTail base) (r6.dropWhile isPySpace) with
    | none => simp only [h2] at h; exact Option.noConfusion h
    | some p =>
      rcases p with ⟨sk, ⟨vo, r8⟩⟩
      simp only [h2] at h
      rcases lazyScan_some_spec h2 with ⟨v, hv, htv, _, _⟩
      rcases findTail_spec htv with ⟨t6, hms⟩
      refine ⟨v, vo, t6, ?_, by simpa using hms, ?_⟩
      · have hsfx : v <:+ r6.dropWhile isPySpace := ⟨sk, hv.symm⟩
        exact (hsfx.trans (List.dropWhile_suffix _)).trans (matchHeaderCapture_rest_suffix h1)
      · have ha := (Option.some.inj h).symm
        rw [ha]
        cases vo <;> rfl

theorem matchSrcValue_concrete (source version : Text) (X : Text)
    (hvp : version.all plainChar = true) :
    matchSrcValue source ((if version = [] then source else source ++ kwRefEq ++ version) ++ '"' :: X)
      = some ((if version = [] then none else some version), X) := by
  by_cases hv : version = []
  · rw [if_pos hv, if_pos hv]
    have h1 : lit kwRefEq ('"' :: X) = none := by
      rw [kwRefEq_cons]
      exact lit_cons_ne (by decide)
    have h2 : lit ['"'] ('"' :: X) = some X := by simp [lit]
    simp only [matchSrcValue, lit_self_append, h1, h2]
  · rw [if_neg hv, if_neg hv]
    have hassoc : (source ++ kwRefEq ++ version) ++ '"' :: X
        = source ++ (kwRefEq ++ (version ++ '"' :: X)) := by
      simp
    have hq : ∀ c ∈ version, c ≠ '"' := fun c hc =>
      plain_ne (List.all_eq_true.mp hvp c hc) (by decide)
    rw [hassoc]
    simp only [matchSrcValue, lit_self_append, scanToChar_exact version X hq]

theorem matchSourceAttrStar_concrete (source version : Text) (X : Text)
    (hvp : version.all plainChar = true) :
    matchSourceAttrStar source (("source = \"").data
        ++ ((if version = [] then source else source ++ kwRefEq ++ version) ++ '"' :: X))
      = some ((if version = [] then none else some version), X) := by
  have hdec : ("source = \"").data
        ++ ((if version = [] then source else source ++ kwRefEq ++ version) ++ '"' :: X)
      = kwSource ++ (' ' :: '=' :: ' ' :: '"' ::
          ((if version = [] then source else source ++ kwRefEq ++ version) ++ '"' :: X)) := by
    rw [srcHdr_eq]
    simp
  have d1 : List.dropWhile isPySpace (' ' :: '=' :: ' ' :: '"' ::
        ((if version = [] then source else source ++ kwRefEq ++ version) ++ '"' :: X))
      = '=' :: ' ' :: '"' ::
          ((if version = [] then source else source ++ kwRefEq ++ version) ++ '"' :: X) := rfl
  have l1 : lit ['='] ('=' :: ' ' :: '"' ::
        ((if version = [] then source else source ++ kwRefEq ++ version) ++ '"' :: X))
      = some (' ' :: '"' ::
          ((if version = [] then source else source ++ kwRefEq ++ version) ++ '"' :: X)) := by
    simp [lit]
  have d2 : List.dropWhile isPySpace (' ' :: '"' ::
        ((if version = [] then source else source ++ kwRefEq ++ version) ++ '"' :: X))
      = '"' :: ((if version = [] then source else source ++ kwRefEq ++ version) ++ '"' :: X) := rfl
  have l2 : lit ['"'] ('"' ::
        ((if version = [] then source else source ++ kwRefEq ++ version) ++ '"' :: X))
      = some ((if version = [] then source else source ++ kwRefEq ++ version) ++ '"' :: X) := by
    simp [lit]
  rw [hdec]
  unfold matchSourceAttrStar
  simp only [lit_self_append, d1, l1, d2, l2, matchSrcValue_concrete source version X hvp]

theorem matchModuleFind_append (name source version vl : Text)
    (hname : name ≠ []) (hnp : name.all plainChar = true)
    (hvp : version.all plainChar = true) :
    (matchModuleFind source
      (("module \"").data ++ (name ++ (("\" \x7b\n  source = \"").data
        ++ ((if version = [] then source else source ++ kwRefEq ++ version)
          ++ '"' :: (vl ++ ("\n\x7d\n").data)))))).isSome := by
  have tmplB_eq : ("\" \x7b\n  source = \"").data
      = '"' :: ' ' :: '\x7b' :: ("\n  source = \"").data := by decide
  have hs0 : ("module \"").data ++ (name ++ (("\" \x7b\n  source = \"").data
        ++ ((if version = [] then source else source ++ kwRefEq ++ version)
          ++ '"' :: (vl ++ ("\n\x7d\n").data))))
      = kwModule ++ ' ' :: '"' :: (name ++ '"' :: ' ' :: '\x7b' ::
          (("\n  source = \"").data
            ++ ((if version = [] then source else source ++ kwRefEq ++ version)
              ++ '"' :: (vl ++ ("\n\x7d\n").data)))) := by
    rw [modHdr_eq, tmplB_eq]
    simp
  have hnq : ∀ c ∈ name, c ≠ '"' := fun c hc =>
    plain_ne (List.all_eq_true.mp hnp c hc) (by decide)
  have s1 : spaces1 (' ' :: '"' :: (name ++ '"' :: ' ' :: '\x7b' ::
        (("\n  source = \"").data
          ++ ((if version = [] then source else source ++ kwRefEq ++ version)
            ++ '"' :: (vl ++ ("\n\x7d\n").data)))))
      = some ([' '], '"' :: (name ++ '"' :: ' ' :: '\x7b' ::
          (("\n  source = \"").data
            ++ ((if version = [] then source else source ++ kwRefEq ++ version)
              ++ '"' :: (vl ++ ("\n\x7d\n").data))))) :=
    spaces1_space_nonspace (by decide) (by decide)
  have l1 : lit ['"'] ('"' :: (name ++ '"' :: ' ' :: '\x7b' ::
        (("\n  source = \"").data
          ++ ((if version = [] then source else source ++ kwRefEq ++ version)
            ++ '"' :: (vl ++ ("\n\x7d\n").data)))))
      = some (name ++ '"' :: ' ' :: '\x7b' ::
          (("\n  source = \"").data
            ++ ((if version = [] then source else source ++ kwRefEq ++ version)
              ++ '"' :: (vl ++ ("\n\x7d\n").data)))) := by
    simp [lit]
  have sc : scanToChar '"' (name ++ '"' :: ' ' :: '\x7b' ::
        (("\n  source = \"").data
          ++ ((if version = [] then source else source ++ kwRefEq ++ version)
            ++ '"' :: (vl ++ ("\n\x7d\n").data))))
      = some (name, ' ' :: '\x7b' ::
          (("\n  source = \"").data
            ++ ((if version = [] then source else source ++ kwRefEq ++ version)
              ++ '"' :: (vl ++ ("\n\x7d\n").data)))) :=
    scanToChar_exact _ _ hnq
  have s2 : spaces1 (' ' :: '\x7b' ::
        (("\n  source = \"").data
          ++ ((if version = [] then source else source ++ kwRefEq ++ version)
            ++ '"' :: (vl ++ ("\n\x7d\n").data))))
      = some ([' '], '\x7b' ::
          (("\n  source = \"").data
            ++ ((if version = [] then source else source ++ kwRefEq ++ version)
              ++ '"' :: (vl ++ ("\n\x7d\n").data)))) :=
    spaces1_space_nonspace (by decide) (by decide)
  have l2 : lit ['\x7b'] ('\x7b' ::
        (("\n  source = \"").data
          ++ ((if version = [] then source else source ++ kwRefEq ++ version)
            ++ '"' :: (vl ++ ("\n\x7d\n").data))))
      = some (("\n  source = \"").data
          ++ ((if version = [] then source else source ++ kwRefEq ++ version)
            ++ '"' :: (vl ++ ("\n\x7d\n").data))) := by
    simp [lit]
  have hdw : List.dropWhile isPySpace (("\n  source = \"").data
        ++ ((if version = [] then source else source ++ kwRefEq ++ version)
          ++ '"' :: (vl ++ ("\n\x7d\n").data)))
      = ("source = \"").data
          ++ ((if version = [] then source else source ++ kwRefEq ++ version)
            ++ '"' :: (vl ++ ("\n\x7d\n").data)) := rfl
  have hmem : '\x7d' ∈ vl ++ ("\n\x7d\n").data := by
    apply List.mem_append.mpr
    right
    decide
  rcases Option.isSome_iff_exists.mp (scanToChar_isSome_of_mem hmem) with ⟨q, hq⟩
  rcases q with ⟨sk2, t7⟩
  have hft : findTail source (("source = \"").data
        ++ ((if version = [] then source else source ++ kwRefEq ++ version)
          ++ '"' :: (vl ++ ("\n\x7d\n").data)))
      = some ((if version = [] then none else some version), t7) := by
    unfold findTail
    simp only [matchSourceAttrStar_concrete source version _ hvp, hq]
  have hls : lazyScan (fun c => c = '\x7d') (findTail source)
        (("source = \"").data
          ++ ((if version = [] then source else source ++ kwRefEq ++ version)
            ++ '"' :: (vl ++ ("\n\x7d\n").data)))
      = some ([], ((if version = [] then none else some version), t7)) := by
    have h0 : lazyScan (fun c => c = '\x7d') (findTail source)
        ([] ++ (("source = \"").data
          ++ ((if version = [] then source else source ++ kwRefEq ++ version)
            ++ '"' :: (vl ++ ("\n\x7d\n").data))))
        = some ([], ((if version = [] then none else some version), t7)) :=
      lazyScan_eq_some_of []
        (("source = \"").data
          ++ ((if version = [] then source else source ++ kwRefEq ++ version)
            ++ '"' :: (vl ++ ("\n\x7d\n").data)))
        ((if version = [] then none else some version), t7)
        (by simp)
        (by
          intro w hw hne
          rw [List.suffix_nil.mp hw] at hne
          exact absurd rfl hne)
        hft
    simpa using h0
  rw [hs0]
  unfold matchModuleFind
  unfold matchHeaderCapture
  simp only [lit_self_append, s1, l1, sc, if_neg hname, s2, l2, hdw, hls]
  rfl

/-- C4 (corrected): add_module followed by find_module with the same source
returns a module reference whose version is the version that was passed,
with the empty version reading back as the absent version — provided the
name, source and version are plain words, the name is nonempty, and no
occurrence of the source-attribute pattern for that source anywhere in the
resulting text carries a different version (first match wins, so an aliasing
pre-existing module with the same base could otherwise shadow the new one). -/
theorem c4_roundtrip (config name source version : Text) (vars : List (Text × TfValue))
    (out : Text)
    (hname : name ≠ []) (hnp : name.all plainChar = true)
    (hsp : source.all plainChar = true) (hvp : version.all plainChar = true)
    (hout : addModule config name source version vars = Except.ok out)
    (hocc : srcOccAllB source (if version = [] then none else some version) out = true) :
    ∃ r, findModule source [out] = some r
      ∧ r.version = (if version = [] then none else some version) := by
  simp only [addModule] at hout
  cases haml : addModuleVarLines vars with
  | error e =>
    rw [haml] at hout
    exact Except.noConfusion hout
  | ok vl =>
    rw [haml] at hout
    have hout2 : out = config ++ '\n' ::
        (("module \"").data ++ name ++ ("\" \x7b\n  source = \"").data
          ++ (if version = [] then source else source ++ kwRefEq ++ version)
          ++ ['"'] ++ vl ++ ("\n\x7d\n").data) := (Except.ok.inj hout).symm
    have hsub : ("module \"").data ++ (name ++ (("\" \x7b\n  source = \"").data
          ++ ((if version = [] then source else source ++ kwRefEq ++ version)
            ++ '"' :: (vl ++ ("\n\x7d\n").data)))) <:+ out := by
      refine ⟨config ++ ['\n'], ?_⟩
      rw [hout2]
      simp
    rcases Option.isSome_iff_exists.mp
      (matchModuleFind_append name source version vl hname hnp hvp) with ⟨a, ha⟩
    have hffs : (findFirst (matchModuleFind source) out).isSome :=
      findFirst_isSome_of_suffix hsub ha
    rcases Option.isSome_iff_exists.mp hffs with ⟨p, hf⟩
    rcases p with ⟨sk, ref, rest⟩
    have hfm : findModule source [out] = some ref := by
      unfold findModule
      rw [baseOf_plain hsp, hf]
    rcases findFirst_some_spec hf with ⟨u, hu, hmu, _⟩
    rcases matchModuleFind_version hmu with ⟨v, vo, t6, hvu, hms, hver⟩
    have hvout : v <:+ out := hvu.trans ⟨sk, hu.symm⟩
    have hp := allSuffixesB_spec hocc v hvout
    simp only [hms, decide_eq_true_eq] at hp
    have hver2 : ref.version = verNorm vo := hver
    exact ⟨ref, hfm, by rw [hver2, hp]⟩

/-- Witness for C4: the spec's example, adding a module named m with source s
and empty version, then finding it back with no version. -/
theorem c4_roundtrip_witness :
    addModule [] (("m").data) (("s").data) [] []
      = Except.ok (("\nmodule \"m\" \x7b\n  source = \"s\"\n\x7d\n").data)
    ∧ srcOccAllB (("s").data) none
        (("\nmodule \"m\" \x7b\n  source = \"s\"\n\x7d\n").data) = true
    ∧ (∃ r, findModule (("s").data)
          [("\nmodule \"m\" \x7b\n  source = \"s\"\n\x7d\n").data]
        = some r ∧ r.version = none) :=
  ⟨rfl, by decide,
    by
      have h := c4_roundtrip [] (("m").data) (("s").data) [] []
        (("\nmodule \"m\" \x7b\n  source = \"s\"\n\x7d\n").data)
        (by decide) (by decide) (by decide) (by decide) rfl (by decide)
      simpa using h⟩

/- ==================================================================
   add_force_new_deployment_to_ecs_module
   ================================================================== -/

theorem hdr_eq2 (name X : Text) :
    (("module \"").data ++ name ++ ("\" \x7b").data) ++ X
      = kwModule ++ ' ' :: '"' :: (name ++ '"' :: ' ' :: '\x7b' :: X) := by
  rw [modHdr_eq, hdrClose_eq]
  simp

theorem matchModuleHeader_kws {name t : Text} {a : Text × Text}
    (h : matchModuleHeader name t = some a) : kwSpaceStart kwModule t := by
  unfold matchModuleHeader at h
  cases h1 : lit kwModule t with
  | none => simp only [h1] at h; exact Option.noConfusion h
  | some r1 =>
    simp only [h1] at h
    cases h2 : spaces1 r1 with
    | none => simp only [h2] at h; exact Option.noConfusion h
    | some p =>
      rcases spaces1_inv h2 with ⟨c, cs, hr1, hc⟩
      exact ⟨c, cs, by rw [lit_eq_some_iff.mp h1, hr1], hc⟩

theorem matchModuleHeader_dead {name t : Text} (h : ¬ kwSpaceStart kwModule t) :
    matchModuleHeader name t = none := by
  cases hu : matchModuleHeader name t with
  | none => rfl
  | some a => exact absurd (matchModuleHeader_kws hu) h

theorem matchModuleHeaderAny_dead {t : Text} (h : ¬ kwSpaceStart kwModule t) :
    matchModuleHeaderAny t = none := by
  unfold matchModuleHeaderAny
  rw [matchHeaderCapture_dead h]

theorem matchModuleHeaderAny_rest_suffix {s : Text} {a : (Text × Text) × Text}
    (h : matchModuleHeaderAny s = some a) : a.2 <:+ s := by
  unfold matchModuleHeaderAny at h
  cases h1 : matchHeaderCapture s with
  | none => simp only [h1] at h; exact Option.noConfusion h
  | some trip =>
    rcases trip with ⟨hdr, nm, r6⟩
    simp only [h1] at h
    rw [← Option.some.inj h]
    exact matchHeaderCapture_rest_suffix h1

theorem matchHeaderCapture_hdr (name : Text) (hname : name ≠ [])
    (hnq : ∀ c ∈ name, c ≠ '"') (X : Text) :
    matchHeaderCapture ((("module \"").data ++ name ++ ("\" \x7b").data) ++ X)
      = some ((("module \"").data ++ name ++ ("\" \x7b").data), name, X) := by
  have s1 : spaces1 (' ' :: '"' :: (name ++ '"' :: ' ' :: '\x7b' :: X))
      = some ([' '], '"' :: (name ++ '"' :: ' ' :: '\x7b' :: X)) :=
    spaces1_space_nonspace (by decide) (by decide)
  have l1 : lit ['"'] ('"' :: (name ++ '"' :: ' ' :: '\x7b' :: X))
      = some (name ++ '"' :: ' ' :: '\x7b' :: X) := by
    simp [lit]
  have sc : scanToChar '"' (name ++ '"' :: ' ' :: '\x7b' :: X)
      = some (name, ' ' :: '\x7b' :: X) := scanToChar_exact _ _ hnq
  have s2 : spaces1 (' ' :: '\x7b' :: X) = some ([' '], '\x7b' :: X) :=
    spaces1_space_nonspace (by decide) (by decide)
  have l2 : lit ['\x7b'] ('\x7b' :: X) = some X := by simp [lit]
  rw [hdr_eq2]
  unfold matchHeaderCapture
  simp only [lit_self_append, s1, l1, sc, if_neg hname, s2, l2]
  have hhdr : kwModule ++ [' '] ++ '"' :: name ++ '"' :: [' '] ++ ['\x7b']
      = ("module \"").data ++ name ++ ("\" \x7b").data := by
    rw [modHdr_eq, hdrClose_eq]
    simp
  rw [hhdr]

theorem matchModuleHeader_hdr (name X : Text) :
    matchModuleHeader name ((("module \"").data ++ name ++ ("\" \x7b").data) ++ X)
      = some ((("module \"").data ++ name ++ ("\" \x7b").data), X) := by
  have s1 : spaces1 (' ' :: '"' :: (name ++ '"' :: ' ' :: '\x7b' :: X))
      = some ([' '], '"' :: (name ++ '"' :: ' ' :: '\x7b' :: X)) :=
    spaces1_space_nonspace (by decide) (by decide)
  have l1 : lit ('"' :: name ++ ['"']) ('"' :: (name ++ '"' :: ' ' :: '\x7b' :: X))
      = some (' ' :: '\x7b' :: X) := by
    have hsh : '"' :: (name ++ '"' :: ' ' :: '\x7b' :: X)
        = ('"' :: name ++ ['"']) ++ (' ' :: '\x7b' :: X) := by
      simp
    rw [hsh]
    exact lit_self_append _ _
  have s2 : spaces1 (' ' :: '\x7b' :: X) = some ([' '], '\x7b' :: X) :=
    spaces1_space_nonspace (by decide) (by decide)
  have l2 : lit ['\x7b'] ('\x7b' :: X) = some X := by simp [lit]
  rw [hdr_eq2]
  unfold matchModuleHeader
  simp only [lit_self_append, s1, l1, s2, l2]
  have hhdr : kwModule ++ [' '] ++ '"' :: name ++ '"' :: [' '] ++ ['\x7b']
      = ("module \"").data ++ name ++ ("\" \x7b").data := by
    rw [modHdr_eq, hdrClose_eq]
    simp
  rw [hhdr]

theorem pre_position_kill {pre : Text} (hpre : occursB kwModule pre = false)
    {w : Text} (hw : w <:+ pre) (hne : w ≠ []) {X : Text} (hX : X.head? = some 'm') :
    ¬ kwSpaceStart kwModule (w ++ X) := by
  apply not_kwSpaceStart_nosub (occursB_false_mono hw hpre) hne
  intro c hc
  rw [hX] at hc
  have hcm : 'm' = c := by simpa using hc
  rw [← hcm]
  decide

theorem hdr_head (name : Text) (X : Text) :
    (((("module \"").data ++ name ++ ("\" \x7b").data) ++ X)).head? = some 'm' := by
  rw [hdr_eq2, kwModule_chars]
  rfl

theorem hdr_interior_kill (name : Text) (hnp : name.all plainChar = true) :
    ∀ w, w <:+ (("module \"").data ++ name ++ ("\" \x7b").data) → w ≠ [] →
      w ≠ (("module \"").data ++ name ++ ("\" \x7b").data) → ∀ X,
      ¬ kwSpaceStart kwModule (w ++ X) := by
  intro w hw hne hwh X
  have hdec : ("module \"").data ++ name ++ ("\" \x7b").data
      = ("module \"").data ++ (name ++ ("\" \x7b").data) := by
    simp
  rw [hdec] at hw
  rcases suffix_append_split hw with h1 | ⟨w1, hw1, hne1, rfl⟩
  · rcases suffix_append_split h1 with h2 | ⟨w2, hw2, hne2, rfl⟩
    · have hk := concrete_piece_kill_all (("\" \x7b").data) (by decide) w h2 hne X
      exact hk.1
    · have hw2ns : ∀ c ∈ w2, isPySpace c = false := suffix_nonspace_of_plain hw2 hnp
      rw [List.append_assoc]
      apply not_kwSpaceStart_nospace hw2ns hne2
      intro c hc
      rw [hdrClose_eq] at hc
      have hcq : '"' = c := by simpa using hc
      rw [← hcq]
      exact ⟨by decide, by decide⟩
  · by_cases hfull : w1 = ("module \"").data
    · exfalso
      apply hwh
      rw [hfull, ← hdec]
    · have hk := concrete_piece_kill (("module \"").data) (by decide) w1 hw1 hne1 hfull
        ((name ++ ("\" \x7b").data) ++ X)
      rw [List.append_assoc]
      exact hk.1

theorem orig_unique (pre name content post : Text)
    (hnp : name.all plainChar = true)
    (hpre : occursB kwModule pre = false)
    (hcm : occursB kwModule content = false)
    (hpm : occursB kwModule post = false) :
    ∀ u, u <:+ pre ++ ((("module \"").data ++ name ++ ("\" \x7b").data) ++ (content ++ '\x7d' :: post)) →
      (lit ((("module \"").data ++ name ++ ("\" \x7b").data) ++ (content ++ ['\x7d'])) u).isSome →
      u = ((("module \"").data ++ name ++ ("\" \x7b").data) ++ (content ++ ['\x7d'])) ++ post := by
  intro u hu hl
  have hkws : kwSpaceStart kwModule u := by
    rcases lit_isSome_iff.mp hl with ⟨r, hr⟩
    rw [hr, List.append_assoc, hdr_eq2]
    exact ⟨' ', _, rfl, by decide⟩
  rcases suffix_append_split hu with h1 | ⟨w, hw, hne, rfl⟩
  · rcases suffix_append_split h1 with h2 | ⟨w1, hw1, hne1, rfl⟩
    · -- inside content ++ '}' :: post
      exfalso
      rcases suffix_append_split h2 with h3 | ⟨w2, hw2, hne2, rfl⟩
      · -- inside '}' :: post
        rcases h3 with ⟨p, hp⟩
        cases p with
        | nil =>
          have hu2 : u = '\x7d' :: post := by simpa using hp
          have hh := kwSpaceStart_head kwModule_head hkws
          rw [hu2] at hh
          simp at hh
        | cons x xs =>
          have hup : u <:+ post := ⟨xs, by simpa using congrArg List.tail hp⟩
          by_cases hu0 : u = []
          · rw [hu0] at hl
            rcases lit_isSome_iff.mp hl with ⟨r, hr⟩
            have h0 := hdr_head name ((content ++ ['\x7d']) ++ r)
            have heq : (("module \"").data ++ name ++ ("\" \x7b").data)
                ++ ((content ++ ['\x7d']) ++ r) = [] := by
              rw [← List.append_assoc]
              exact hr.symm
            rw [heq] at h0
            simp at h0
          · have hk : ¬ kwSpaceStart kwModule (u ++ ([] : Text)) :=
              not_kwSpaceStart_nosub (occursB_false_mono hup hpm) hu0
                (by intro c hc; simp at hc)
            rw [List.append_nil] at hk
            exact hk hkws
      · -- w2 nonempty suffix of content
        have hk : ¬ kwSpaceStart kwModule (w2 ++ '\x7d' :: post) :=
          not_kwSpaceStart_nosub (occursB_false_mono hw2 hcm) hne2
            (fun c hc => by
              have hcq : '\x7d' = c := by simpa using hc
              rw [← hcq]
              decide)
        exact hk hkws
    · -- w1 nonempty suffix of the header
      by_cases hfull : w1 = ("module \"").data ++ name ++ ("\" \x7b").data
      · rw [hfull]
        simp
      · exfalso
        exact hdr_interior_kill name hnp w1 hw1 hne1 hfull (content ++ '\x7d' :: post) hkws
  · -- w nonempty suffix of pre
    exfalso
    exact pre_position_kill hpre hw hne (hdr_head name (content ++ '\x7d' :: post)) hkws

theorem addVariable_force (pre name content post : Text)
    (hnp : name.all plainChar = true)
    (hpre : occursB kwModule pre = false)
    (hcm : occursB kwModule content = false)
    (hpm : occursB kwModule post = false)
    (hbal : balancedB content = true) :
    addVariable
        (pre ++ ((("module \"").data ++ name ++ ("\" \x7b").data) ++ (content ++ '\x7d' :: post)))
        name [((("force_new_deployment").data), TfValue.vbool true)]
      = Except.ok (pre ++ ((("module \"").data ++ name ++ ("\" \x7b").data)
          ++ (content ++ (("\n  force_new_deployment = true").data) ++ '\n' :: ['\x7d'])) ++ post) := by
  have hff : findFirst (matchModuleHeader name)
        (pre ++ ((("module \"").data ++ name ++ ("\" \x7b").data) ++ (content ++ '\x7d' :: post)))
      = some (pre, ((("module \"").data ++ name ++ ("\" \x7b").data), content ++ '\x7d' :: post)) := by
    apply findFirst_eq_some_of
    · intro w hw hwne
      apply matchModuleHeader_dead
      exact pre_position_kill hpre hw hwne (hdr_head name (content ++ '\x7d' :: post))
    · exact matchModuleHeader_hdr name (content ++ '\x7d' :: post)
  have hfc : findClose ('\x7b' :: (content ++ '\x7d' :: post)) = some (content.length + 1) :=
    findClose_balanced content post hbal
  have hva : addVariableVarLines [((("force_new_deployment").data), TfValue.vbool true)]
      = Except.ok (("\n  force_new_deployment = true").data) := rfl
  have htake1 : (content ++ '\x7d' :: post).take (content.length + 1 - 1) = content := by
    simp
  have htake2 : (content ++ '\x7d' :: post).take (content.length + 1) = content ++ ['\x7d'] := by
    have hsh : content ++ '\x7d' :: post = (content ++ ['\x7d']) ++ post := by simp
    have hlen : content.length + 1 = (content ++ ['\x7d']).length := by simp
    rw [hsh, hlen, List.take_left]
  unfold addVariable
  simp only [hff, hfc, hva, htake1, htake2]
  have hrepl : replaceAll
        ((("module \"").data ++ name ++ ("\" \x7b").data) ++ (content ++ ['\x7d']))
        ((("module \"").data ++ name ++ ("\" \x7b").data) ++ content
          ++ ("\n  force_new_deployment = true").data ++ '\n' :: ['\x7d'])
        (pre ++ ((("module \"").data ++ name ++ ("\" \x7b").data) ++ (content ++ '\x7d' :: post)))
      = pre ++ ((("module \"").data ++ name ++ ("\" \x7b").data) ++ content
          ++ ("\n  force_new_deployment = true").data ++ '\n' :: ['\x7d']) ++ post := by
    have hcfg : pre ++ ((("module \"").data ++ name ++ ("\" \x7b").data) ++ (content ++ '\x7d' :: post))
        = pre ++ ((("module \"").data ++ name ++ ("\" \x7b").data) ++ (content ++ ['\x7d'])) ++ post := by
      simp
    rw [hcfg]
    apply replaceAll_unique
    · intro h0
      have := congrArg List.head? h0
      rw [hdr_head] at this
      simp at this
    · intro u hu hl
      rw [← hcfg] at hu
      exact orig_unique pre name content post hnp hpre hcm hpm u hu hl
  rw [hrepl]
  congr 1
  simp

set_option maxHeartbeats 1000000 in
/-- C7: on a text consisting of one ECS-service module block — arbitrary
balanced content, so nested sub-blocks are allowed — surrounded by text
without module headers, add_force_new_deployment_to_ecs_module inserts
`force_new_deployment = true` immediately before the module's own closing
brace (never inside a nested sub-block: the content, including every nested
block, is preserved unchanged before the insertion point); and on any text
with no ECS module it raises NotFound. -/
theorem c7_force_new_deployment (pre name content post : Text)
    (hname : name ≠ []) (hnp : name.all plainChar = true)
    (hpre : occursB kwModule pre = false)
    (hcm : occursB kwModule content = false)
    (hpm : occursB kwModule post = false)
    (hbal : balancedB content = true)
    (hecs : hasEcsSourceB content = true)
    (hnf : occursB (("force_new_deployment").data) content = false) :
    addForceNewDeployment
        (pre ++ ((("module \"").data ++ name ++ ("\" \x7b").data) ++ (content ++ '\x7d' :: post)))
      = Except.ok (pre ++ ((("module \"").data ++ name ++ ("\" \x7b").data)
          ++ (content ++ (("\n  force_new_deployment = true").data) ++ '\n' :: ['\x7d'])) ++ post)
    ∧ ∀ config, noEcsModuleB config = true →
        addForceNewDeployment config
          = Except.error (TfError.notFound (("No ECS module was found in the configuration.").data)) := by
  constructor
  · have hnq : ∀ c ∈ name, c ≠ '"' := fun c hc =>
      plain_ne (List.all_eq_true.mp hnp c hc) (by decide)
    have hff : findFirst matchModuleHeaderAny
          (pre ++ ((("module \"").data ++ name ++ ("\" \x7b").data) ++ (content ++ '\x7d' :: post)))
        = some (pre, ((name, (("module \"").data ++ name ++ ("\" \x7b").data)),
            content ++ '\x7d' :: post)) := by
      apply findFirst_eq_some_of
      · intro w hw hwne
        apply matchModuleHeaderAny_dead
        exact pre_position_kill hpre hw hwne (hdr_head name (content ++ '\x7d' :: post))
      · unfold matchModuleHeaderAny
        rw [matchHeaderCapture_hdr name hname hnq]
    have hfc : findClose ('\x7b' :: (content ++ '\x7d' :: post)) = some (content.length + 1) :=
      findClose_balanced content post hbal
    have htake1 : (content ++ '\x7d' :: post).take (content.length + 1 - 1) = content := by
      simp
    unfold addForceNewDeployment
    unfold addForceGo
    simp only [hff, hfc, htake1, hecs]
    rw [if_neg (by simp), if_neg (by simp [hnf])]
    exact addVariable_force pre name content post hnp hpre hcm hpm hbal
  · intro config h
    unfold addForceNewDeployment
    suffices hgo : ∀ (fuel : Nat) (s : Text), s <:+ config →
        addForceGo config fuel s
          = Except.error (TfError.notFound (("No ECS module was found in the configuration.").data)) by
      exact hgo (config.length + 1) config (List.suffix_refl _)
    intro fuel
    induction fuel with
    | zero => intro s _; rfl
    | succ n ih =>
      intro s hs
      unfold addForceGo
      cases hf : findFirst matchModuleHeaderAny s with
      | none => rfl
      | some p =>
        rcases p with ⟨sk, ⟨⟨nm, hd⟩, rest⟩⟩
        rcases findFirst_some_spec hf with ⟨u, hsu, hmu, _⟩
        have hus : u <:+ s := ⟨sk, hsu.symm⟩
        have hu : u <:+ config := hus.trans hs
        have hskip := allSuffixesB_spec h u hu
        have hrest : rest <:+ u :=
          matchModuleHeaderAny_rest_suffix (a := ((nm, hd), rest)) hmu
        have hrc : rest <:+ config := (hrest.trans hus).trans hs
        have hrec := ih rest hrc
        simp only [noEcsAtB, hmu] at hskip
        cases hfc : findClose ('\x7b' :: rest) with
        | none => simp [hfc, hrec]
        | some endRel =>
          rw [hfc] at hskip
          have hskip2 : hasEcsSourceB (rest.take (endRel - 1)) = false := by
            simpa using hskip
          simp [hfc, hskip2, hrec]

set_option maxRecDepth 100000 in
/-- Witness for C7: an ECS module whose body contains a nested
`datadog_options` sub-block, surrounded by comment lines; the flag lands
before the module's own closing brace, after the intact nested block. -/
theorem c7_force_new_deployment_witness :
    (("ecs").data ≠ [])
    ∧ balancedB (("\n  source = \"github.com/nsbno/terraform-aws-ecs-service?ref=1\"\n  datadog_options \x7b\n    enabled = true\n  \x7d\n").data) = true
    ∧ hasEcsSourceB (("\n  source = \"github.com/nsbno/terraform-aws-ecs-service?ref=1\"\n  datadog_options \x7b\n    enabled = true\n  \x7d\n").data) = true
    ∧ (addForceNewDeployment
        ((("# intro\n").data) ++ ((("module \"").data ++ ("ecs").data ++ ("\" \x7b").data)
          ++ ((("\n  source = \"github.com/nsbno/terraform-aws-ecs-service?ref=1\"\n  datadog_options \x7b\n    enabled = true\n  \x7d\n").data) ++ '\x7d' :: (("\n# end\n").data))))
      = Except.ok ((("# intro\n").data) ++ ((("module \"").data ++ ("ecs").data ++ ("\" \x7b").data)
          ++ ((("\n  source = \"github.com/nsbno/terraform-aws-ecs-service?ref=1\"\n  datadog_options \x7b\n    enabled = true\n  \x7d\n").data)
            ++ (("\n  force_new_deployment = true").data) ++ '\n' :: ['\x7d'])) ++ (("\n# end\n").data))
    ∧ ∀ config, noEcsModuleB config = true →
        addForceNewDeployment config
          = Except.error (TfError.notFound (("No ECS module was found in the configuration.").data))) :=
  ⟨by decide, by decide, by decide,
    c7_force_new_deployment (("# intro\n").data) (("ecs").data)
      (("\n  source = \"github.com/nsbno/terraform-aws-ecs-service?ref=1\"\n  datadog_options \x7b\n    enabled = true\n  \x7d\n").data)
      (("\n# end\n").data)
      (by decide) (by decide) (by decide) (by decide) (by decide) (by decide) (by decide) (by decide)⟩

end VydevCli
